import Mathlib

/-!
# Array-backed binary heap (`src/heap.h`)

A shallow embedding of the class template `Heap<T, Compare>` and a verification of its
contract.

## Modelling conventions

* The backing buffer `T* data` with `capacity_` slots is a `List (Option α)`:
  slot `i` is `some v` when it holds a constructed object of value `v`, and `none` when it is
  raw storage (never constructed, or destroyed).  A null buffer is the empty list.
* Elements are values.  Copy construction produces the value of its source.  Move
  construction and move assignment produce the value of their source and leave the source
  constructed with the value `Movable.movedFrom v` (for `int` the same value, for
  `std::unique_ptr` the null handle, for `Tracer` of `src/main.cc` the value `-1`).  The
  comparator, `std::swap` and the allocator are assumed not to fail.  Element constructors do
  not throw in `grow` and `push`; `growThrowing` and `pushThrowing` are the same functions
  for element types whose constructors may throw.
* `push` takes the value of its argument: it is `push(const T&)` and `push(T&&)` for an
  argument object that is alive, with that value, when line 151 or 158 reads it, as an object
  of the caller is.  `Obj.pushRef` is `push(const T&)` with the parameter kept as a
  reference into allocator storage, for an argument that may live in the buffer of the
  container itself.
* Reading a slot that is outside the buffer or not constructed, and writing outside the
  buffer, is undefined behaviour in the source; the embedding reports it as
  `Fault.undefinedAccess`.
* The two `while` loops are recursions on a fuel argument; the callers pass the fuel that the
  loop needs, and a loop that runs out of fuel reports `Fault.outOfFuel`.
* `size_t` arithmetic is on `Nat`: a buffer of `2^63` or more slots cannot be allocated, so
  `capacity_ * 2` and `idx * 2 + 2` do not wrap on any state the program can build.
-/

namespace CppHeap

/-! ## Data model -/

/-- Outcomes of the source that are not a normal return and not a C++ exception. -/
inductive Fault where
  /-- a read of a slot that is out of bounds or not constructed, or a write out of bounds -/
  | undefinedAccess
  /-- a loop of the embedding ran out of fuel -/
  | outOfFuel
  deriving DecidableEq, Repr

/-- Exceptions thrown by the container itself. -/
inductive Exn where
  /-- the exception `std::out_of_range("Heap is empty")` -/
  | outOfRange
  /-- an exception thrown by a constructor of the element type, passed through unchanged -/
  | elementFailure
  deriving DecidableEq, Repr

/-- The state in which the element type leaves the source of a move. -/
class Movable (α : Type) where
  /-- value of an object after it has been moved from -/
  movedFrom : α → α

/-- The data members of `Heap<T, Compare>` (lines 10-14); the stateless allocator is omitted. -/
structure Heap (α : Type) where
  /-- the buffer `data`, one entry per slot -/
  data : List (Option α)
  /-- the member `size_` -/
  size_ : Nat
  /-- the member `capacity_` -/
  capacity_ : Nat
  /-- the member `comp` -/
  comp : α → α → Bool

/-- Result of a call of a public member function: a normal return with the returned value
and the state of the container afterwards, an exception together with the state the
container is left in, or a fault. -/
inductive Outcome (α ρ : Type) where
  | returned (ret : ρ) (h : Heap α)
  | threw (e : Exn) (h : Heap α)
  | fault (f : Fault)

/-- State of the container after the call, when there is one. -/
def Outcome.heap? {α ρ : Type} : Outcome α ρ → Option (Heap α)
  | .returned _ h => some h
  | .threw _ h => some h
  | .fault _ => none

/-! ## Slot access -/

/-- Read of `data[i]` as a constructed object. -/
def rd {α : Type} (d : List (Option α)) (i : Nat) : Except Fault α :=
  match d[i]? with
  | some (some v) => .ok v
  | _ => .error .undefinedAccess

/-- The call `construct(alloc, &data[i], v)`: placement construction in slot `i`. -/
def construct {α : Type} (d : List (Option α)) (i : Nat) (v : α) :
    Except Fault (List (Option α)) :=
  if i < d.length then .ok (d.set i (some v)) else .error .undefinedAccess

/-- The call `destroy(alloc, &data[i])`: the object in slot `i` ends its life. -/
def destroy {α : Type} (d : List (Option α)) (i : Nat) : Except Fault (List (Option α)) :=
  match rd d i with
  | .ok _ => .ok (d.set i none)
  | .error f => .error f

/-- The initialisation `T tmp = std::move(data[i])`: the value moved out, and the buffer with
slot `i` left in its moved-from state. -/
def moveFrom {α : Type} [Movable α] (d : List (Option α)) (i : Nat) :
    Except Fault (α × List (Option α)) :=
  match rd d i with
  | .ok v => .ok (v, d.set i (some (Movable.movedFrom v)))
  | .error f => .error f

/-- The assignment `data[i] = std::move(tmp)` from a local object of value `v`. -/
def assign {α : Type} (d : List (Option α)) (i : Nat) (v : α) : Except Fault (List (Option α)) :=
  match rd d i with
  | .ok _ => .ok (d.set i (some v))
  | .error f => .error f

/-- The assignment `data[i] = std::move(data[j])` between two constructed slots. -/
def moveAssign {α : Type} [Movable α] (d : List (Option α)) (i j : Nat) :
    Except Fault (List (Option α)) :=
  match rd d j, rd d i with
  | .ok v, .ok _ => .ok ((d.set i (some v)).set j (some (Movable.movedFrom v)))
  | .error f, _ => .error f
  | _, .error f => .error f

/-- The call `std::swap(data[i], data[j])`, that is `T tmp = std::move(data[i]);
data[i] = std::move(data[j]); data[j] = std::move(tmp);`. -/
def swapSlots {α : Type} [Movable α] (d : List (Option α)) (i j : Nat) :
    Except Fault (List (Option α)) :=
  match moveFrom d i with
  | .error f => .error f
  | .ok (tmp, d1) =>
    match moveAssign d1 i j with
    | .error f => .error f
    | .ok d2 => assign d2 j tmp

/-! ## Order maintenance (lines 16-39) -/

/-- The loop of `heapifyUp` (lines 17-23), one iteration per unit of fuel. -/
def heapifyUpLoop {α : Type} [Movable α] (comp : α → α → Bool) :
    Nat → Nat → List (Option α) → Except Fault (List (Option α))
  | 0, _, _ => .error .outOfFuel
  | fuel + 1, idx, d =>
    if idx > 0 then
      let parent := (idx - 1) / 2
      match rd d parent, rd d idx with
      | .ok p, .ok c =>
        if comp p c then
          match swapSlots d parent idx with
          | .ok d1 => heapifyUpLoop comp fuel parent d1
          | .error f => .error f
        else .ok d
      | .error f, _ => .error f
      | _, .error f => .error f
    else .ok d

/-- The member `heapifyUp(idx)`: `idx + 1` iterations always suffice. -/
def heapifyUp {α : Type} [Movable α] (comp : α → α → Bool) (idx : Nat) (d : List (Option α)) :
    Except Fault (List (Option α)) :=
  heapifyUpLoop comp (idx + 1) idx d

/-- Lines 32 and 33 of `heapifyDown`: `if (child < size_ && comp(data[largest], data[child]))
largest = child;`.  The slots are read only when `child < size_`. -/
def pickLarger {α : Type} (comp : α → α → Bool) (size_ : Nat) (d : List (Option α))
    (largest child : Nat) : Except Fault Nat :=
  if child < size_ then
    match rd d largest, rd d child with
    | .ok a, .ok b => .ok (if comp a b then child else largest)
    | .error f, _ => .error f
    | _, .error f => .error f
  else .ok largest

/-- The loop of `heapifyDown` (lines 27-38), one iteration per unit of fuel. -/
def heapifyDownLoop {α : Type} [Movable α] (comp : α → α → Bool) (size_ : Nat) :
    Nat → Nat → List (Option α) → Except Fault (List (Option α))
  | 0, _, _ => .error .outOfFuel
  | fuel + 1, idx, d =>
    let left := idx * 2 + 1
    let right := idx * 2 + 2
    match pickLarger comp size_ d idx left with
    | .error f => .error f
    | .ok l1 =>
      match pickLarger comp size_ d l1 right with
      | .error f => .error f
      | .ok largest =>
        if largest ≠ idx then
          match swapSlots d idx largest with
          | .ok d1 => heapifyDownLoop comp size_ fuel largest d1
          | .error f => .error f
        else .ok d

/-- The member `heapifyDown(idx)`: `size_ + 1` iterations always suffice. -/
def heapifyDown {α : Type} [Movable α] (comp : α → α → Bool) (size_ : Nat) (idx : Nat)
    (d : List (Option α)) : Except Fault (List (Option α)) :=
  heapifyDownLoop comp size_ (size_ + 1) idx d

/-! ## Backing store (lines 41-68) -/

/-- The loop `for (i = 0; i < n; i++) construct(alloc, &newData[i], std::move(data[i]))` of
`grow` (lines 47-50): the old buffer with its sources moved from, and the new buffer. -/
def moveConstructAll {α : Type} [Movable α] :
    Nat → List (Option α) → List (Option α) →
      Except Fault (List (Option α) × List (Option α))
  | 0, src, dst => .ok (src, dst)
  | k + 1, src, dst =>
    match moveConstructAll k src dst with
    | .error f => .error f
    | .ok (src1, dst1) =>
      match moveFrom src1 k with
      | .error f => .error f
      | .ok (v, src2) =>
        match construct dst1 k v with
        | .error f => .error f
        | .ok dst2 => .ok (src2, dst2)

/-- The loops `for (i = 0; i < n; i++) destroy(alloc, &data[i])` (lines 59, 79, 130). -/
def destroyAll {α : Type} : Nat → List (Option α) → Except Fault (List (Option α))
  | 0, d => .ok d
  | k + 1, d =>
    match destroyAll k d with
    | .error f => .error f
    | .ok d1 => destroy d1 k

/-- The member `grow()`. -/
def grow {α : Type} [Movable α] (h : Heap α) : Except Fault (Heap α) :=
  let newCap := if h.capacity_ = 0 then 1 else h.capacity_ * 2
  match moveConstructAll h.size_ h.data (List.replicate newCap none) with
  | .error f => .error f
  | .ok (old, newData) =>
    match destroyAll h.size_ old with
    | .error f => .error f
    | .ok _ => .ok { h with data := newData, capacity_ := newCap }

/-! ## Public surface (lines 71-187) -/

/-- The constructor `Heap(size_t initialCap, Compare c)`. -/
def Heap.new {α : Type} (initialCap : Nat) (c : α → α → Bool) : Heap α :=
  { data := List.replicate initialCap none, size_ := 0, capacity_ := initialCap, comp := c }

/-- The member `empty()`. -/
def Heap.empty {α : Type} (h : Heap α) : Bool := h.size_ == 0

/-- The member `size()`. -/
def Heap.size {α : Type} (h : Heap α) : Nat := h.size_

/-- Lines 151-153 of `push`: construct the new element in slot `size_`, sift it up, increment
`size_`. -/
def insertLast {α : Type} [Movable α] (v : α) (h1 : Heap α) : Except Fault (Heap α) :=
  match construct h1.data h1.size_ v with
  | .error f => .error f
  | .ok d1 =>
    match heapifyUp h1.comp h1.size_ d1 with
    | .error f => .error f
    | .ok d2 => .ok { h1 with data := d2, size_ := h1.size_ + 1 }

/-- The body of `push` (lines 150-153): `if (size_ == capacity_) grow();`, then the insertion. -/
def pushCore {α : Type} [Movable α] (v : α) (h : Heap α) : Except Fault (Heap α) :=
  match (if h.size_ = h.capacity_ then grow h else .ok h) with
  | .error f => .error f
  | .ok h1 => insertLast v h1

/-- The member `push(value)`, for an argument of value `v` that is alive when line 151 reads
it; `Obj.pushRef` is the member function for an argument given as a reference. -/
def push {α : Type} [Movable α] (v : α) (h : Heap α) : Outcome α Unit :=
  match pushCore v h with
  | .ok h1 => .returned () h1
  | .error f => .fault f

/-- Lines 165-168 of `pop`, which are also lines 174-177 of `popTop`: move the last live
element into the root slot, destroy the last slot, decrement `size_`, and sift down from the
root when elements remain. -/
def removeRoot {α : Type} [Movable α] (h : Heap α) : Except Fault (Heap α) :=
  match moveAssign h.data 0 (h.size_ - 1) with
  | .error f => .error f
  | .ok d1 =>
    match destroy d1 (h.size_ - 1) with
    | .error f => .error f
    | .ok d2 =>
      let size1 := h.size_ - 1
      match (if size1 > 0 then heapifyDown h.comp size1 0 d2 else .ok d2) with
      | .error f => .error f
      | .ok d3 => .ok { h with data := d3, size_ := size1 }

/-- The member `pop()`. -/
def pop {α : Type} [Movable α] (h : Heap α) : Outcome α Unit :=
  if h.size_ = 0 then .threw .outOfRange h
  else
    match removeRoot h with
    | .ok h1 => .returned () h1
    | .error f => .fault f

/-- The member `popTop()`: line 173 moves the root out into `topValue`, then the removal runs
on the buffer whose root slot is moved from. -/
def popTop {α : Type} [Movable α] (h : Heap α) : Outcome α α :=
  if h.size_ = 0 then .threw .outOfRange h
  else
    match moveFrom h.data 0 with
    | .error f => .fault f
    | .ok (topValue, d0) =>
      match removeRoot { h with data := d0 } with
      | .ok h1 => .returned topValue h1
      | .error f => .fault f

/-- The member `top()`. -/
def top {α : Type} (h : Heap α) : Outcome α α :=
  if h.size_ = 0 then .threw .outOfRange h
  else
    match rd h.data 0 with
    | .ok v => .returned v h
    | .error f => .fault f

/-- The loop `for (i = 0; i < n; i++) construct(alloc, &data[i], other.data[i])` of the copy
constructor (lines 94-97), in index order. -/
def copyConstructAll {α : Type} (src : List (Option α)) :
    Nat → List (Option α) → Except Fault (List (Option α))
  | 0, dst => .ok dst
  | k + 1, dst =>
    match copyConstructAll src k dst with
    | .error f => .error f
    | .ok dst1 =>
      match rd src k with
      | .error f => .error f
      | .ok v => construct dst1 k v

/-- The copy constructor `Heap(const Heap& other)`: the new container. -/
def Heap.copyCtor {α : Type} (other : Heap α) : Except Fault (Heap α) :=
  match copyConstructAll other.data other.size_ (List.replicate other.capacity_ none) with
  | .error f => .error f
  | .ok d =>
    .ok { data := d, size_ := other.size_, capacity_ := other.capacity_, comp := other.comp }

/-- The destructor `~Heap()` (lines 78-85), which also ends the life of the temporary of copy
assignment: every live element is destroyed, then the buffer is released. -/
def Heap.dtor {α : Type} (h : Heap α) : Except Fault Unit :=
  match destroyAll h.size_ h.data with
  | .error f => .error f
  | .ok _ => .ok ()

/-- The copy assignment `*this = other` for `this != &other` (lines 109-114): the temporary
copy is swapped into `*this` and the temporary, now holding the old members, is destroyed.
The result is the new `*this`. -/
def Heap.copyAssign {α : Type} (self other : Heap α) : Except Fault (Heap α) :=
  match Heap.copyCtor other with
  | .error f => .error f
  | .ok temp =>
    match Heap.dtor self with
    | .error f => .error f
    | .ok _ => .ok temp

/-- The moved-from members that lines 123-125 and 142-144 give `other`: a null buffer, size
and capacity zero; its comparator is left as it is. -/
def Heap.released {α : Type} (other : Heap α) : Heap α :=
  { other with data := [], size_ := 0, capacity_ := 0 }

/-- The move constructor `Heap(Heap&& other)`: the new container and `other` afterwards. -/
def Heap.moveCtor {α : Type} (other : Heap α) : Heap α × Heap α :=
  ({ data := other.data, size_ := other.size_, capacity_ := other.capacity_,
     comp := other.comp }, other.released)

/-- The move assignment `*this = std::move(other)` for `this != &other` (lines 130-144): the
new `*this` and `other` afterwards. -/
def Heap.moveAssign {α : Type} (self other : Heap α) : Except Fault (Heap α × Heap α) :=
  match destroyAll self.size_ self.data with
  | .error f => .error f
  | .ok _ =>
    .ok ({ self with data := other.data, size_ := other.size_,
                     capacity_ := other.capacity_, comp := other.comp }, other.released)

/-! ## Call sequences and the scenarios of `src/main.cc` -/

/-- A call of one of the three mutating member functions. -/
inductive Op (α : Type) where
  | push (v : α)
  | pop
  | popTop

/-- One call; the container state afterwards, also when the call threw (the caller catches
the exception and carries on), and `none` on a fault. -/
def applyOp {α : Type} [Movable α] (h : Heap α) : Op α → Option (Heap α)
  | .push v => (push v h).heap?
  | .pop => (pop h).heap?
  | .popTop => (popTop h).heap?

/-- A sequence of calls, first to last. -/
def applyOps {α : Type} [Movable α] : List (Op α) → Heap α → Option (Heap α)
  | [], h => some h
  | op :: ops, h =>
    match applyOp h op with
    | some h1 => applyOps ops h1
    | none => none

/-- The calls `push(x)` for the elements `x` of a list, first to last. -/
def pushAll {α : Type} [Movable α] : List α → Heap α → Option (Heap α)
  | [], h => some h
  | x :: xs, h =>
    match push x h with
    | .returned _ h1 => pushAll xs h1
    | _ => none

/-- The call `popTop()` made `n` times: the returned values in call order and the final
state, when every call returns. -/
def popTopN {α : Type} [Movable α] : Nat → Heap α → Option (List α × Heap α)
  | 0, h => some ([], h)
  | n + 1, h =>
    match popTop h with
    | .returned t h1 =>
      match popTopN n h1 with
      | some (ts, h2) => some (t :: ts, h2)
      | none => none
    | _ => none

/-- The comparator `std::less<int>`. -/
def lessInt : Int → Int → Bool := fun a b => decide (a < b)

/-- The comparator `std::greater<int>`. -/
def greaterInt : Int → Int → Bool := fun a b => decide (a > b)

instance : Movable Int := ⟨fun v => v⟩

/-- An owning handle `std::unique_ptr<int>`: `some v` owns an `int` of value `v`, `none` is the
null handle. -/
abbrev IntPtr := Option Int

instance : Movable IntPtr := ⟨fun _ => none⟩

/-- The comparator `ptr_comp` of `src/main.cc` (lines 59-61), `*a < *b`, on handles that own
an object; dereferencing a null handle is undefined and is not reached by the scenario. -/
def ptr_comp : IntPtr → IntPtr → Bool
  | some a, some b => decide (a < b)
  | _, _ => false

/-- The move-only scenario of `src/main.cc` (lines 62-66): the value printed for
`*hu.popTop()`. -/
def moveOnlyScenario : Option Int :=
  match push (some 42) (Heap.new 0 ptr_comp) with
  | .returned _ h1 =>
    match push (some 100) h1 with
    | .returned _ h2 =>
      match popTop h2 with
      | .returned t _ => t
      | _ => none
    | _ => none
  | _ => none

/-! ## Specification vocabulary -/

/-- Strict weak ordering in the sense of the C++ standard: an irreflexive, transitive relation
whose incomparability relation is transitive.  (Only one half of the conclusion of
incomparability transitivity is stated; the other half is the same statement at `c b a`.) -/
structure StrictWeakOrder {α : Type} (comp : α → α → Bool) : Prop where
  irrefl : ∀ a, comp a a = false
  trans : ∀ a b c, comp a b = true → comp b c = true → comp a c = true
  incomp_trans : ∀ a b c, comp a b = false → comp b a = false →
    comp b c = false → comp c b = false → comp a c = false

/-- Representation invariant of a container state: the buffer has `capacity_` slots,
`size_ ≤ capacity_`, and the first `size_` slots hold constructed objects. -/
def Heap.WF {α : Type} (h : Heap α) : Prop :=
  h.data.length = h.capacity_ ∧ h.size_ ≤ h.capacity_ ∧
    ∀ i, i < h.size_ → ∃ v, h.data[i]? = some (some v)

/-- The live elements `data[0] .. data[size_ - 1]`, in index order. -/
def Heap.live {α : Type} (h : Heap α) : List α :=
  (h.data.take h.size_).reduceOption

/-- The heap invariant: for every live non-root index `i`, `comp(data[(i-1)/2], data[i])` is
false. -/
def Heap.Inv {α : Type} (h : Heap α) : Prop :=
  ∀ i, 0 < i → i < h.size_ → ∀ p c, h.data[(i - 1) / 2]? = some (some p) →
    h.data[i]? = some (some c) → h.comp p c = false

/-- Heap order on a list of live elements: no element outranks its parent. -/
def HeapL {α : Type} (comp : α → α → Bool) (l : List α) : Prop :=
  ∀ i p c, 0 < i → l[(i - 1) / 2]? = some p → l[i]? = some c → comp p c = false

/-- Loop invariant of `heapifyUp`: heap order holds at every index other than `idx`, and the
children of `idx` do not outrank the parent of `idx`. -/
def UpInv {α : Type} (comp : α → α → Bool) (l : List α) (idx : Nat) : Prop :=
  (∀ i p c, 0 < i → i ≠ idx → l[(i - 1) / 2]? = some p → l[i]? = some c → comp p c = false) ∧
  (∀ i g c, 0 < i → 0 < idx → (i - 1) / 2 = idx → l[(idx - 1) / 2]? = some g →
    l[i]? = some c → comp g c = false)

/-- Loop invariant of `heapifyDown`: heap order holds at every index whose parent is not
`idx`, and the children of `idx` do not outrank the parent of `idx`. -/
def DownInv {α : Type} (comp : α → α → Bool) (l : List α) (idx : Nat) : Prop :=
  (∀ i p c, 0 < i → (i - 1) / 2 ≠ idx → l[(i - 1) / 2]? = some p → l[i]? = some c →
    comp p c = false) ∧
  (∀ i g c, 0 < i → 0 < idx → (i - 1) / 2 = idx → l[(idx - 1) / 2]? = some g →
    l[i]? = some c → comp g c = false)

/-- The container `h` of `src/main.cc` after `push(10)`, `push(5)`, `push(20)` (line 41). -/
def sampleHeap : Heap Int :=
  { data := [some 20, some 5, some 10, none], size_ := 3, capacity_ := 4, comp := lessInt }

/-! ## Containers as objects that point into allocator storage

The definitions above work on the contents of the buffer `data` points to.  The ones below
keep the pointer itself, so that two containers can be told to share a buffer or not: they
are what copy independence is stated on.  A member function that does not reallocate reads
the buffer of its object, runs the definition above on it, and writes the buffer back. -/

/-- Storage handed out by `std::allocator<T>`: entry `p` is `some buf` while block `p` is
allocated with contents `buf`, and `none` once it is deallocated. -/
abbrev Store (α : Type) := List (Option (List (Option α)))

/-- The value of the pointer member `data`: `none` is `nullptr`, `some p` is block `p`. -/
abbrev Ptr := Option Nat

/-- The call `alloc.allocate(n)`: a block that was not handed out before, with `n` raw slots. -/
def allocate {α : Type} (m : Store α) (n : Nat) : Ptr × Store α :=
  (some m.length, m ++ [some (List.replicate n none)])

/-- The statement `if (data) alloc.deallocate(data, capacity_)`. -/
def deallocate {α : Type} (m : Store α) : Ptr → Store α
  | none => m
  | some p => m.set p none

/-- The buffer a pointer refers to; `nullptr` refers to no slot at all. -/
def load {α : Type} (m : Store α) : Ptr → Except Fault (List (Option α))
  | none => .ok []
  | some p =>
    match m[p]? with
    | some (some buf) => .ok buf
    | _ => .error .undefinedAccess

/-- Storage after the buffer a pointer refers to has been written. -/
def store {α : Type} (m : Store α) : Ptr → List (Option α) → Store α
  | none, _ => m
  | some p, buf => m.set p (some buf)

/-- The data members of `Heap<T, Compare>` with `data` as a pointer. -/
structure Obj (α : Type) where
  /-- the pointer member `data` -/
  data : Ptr
  /-- the member `size_` -/
  size_ : Nat
  /-- the member `capacity_` -/
  capacity_ : Nat
  /-- the member `comp` -/
  comp : α → α → Bool

/-- The container an object denotes in a storage: its members, with the contents of its
buffer for `data`. -/
def Obj.view {α : Type} (o : Obj α) (m : Store α) : Except Fault (Heap α) :=
  match load m o.data with
  | .ok buf => .ok { data := buf, size_ := o.size_, capacity_ := o.capacity_, comp := o.comp }
  | .error f => .error f

/-- The object and the storage after a member function that keeps `data` and `capacity_` has
brought the container to `h`. -/
def Obj.commit {α : Type} (o : Obj α) (m : Store α) (h : Heap α) : Obj α × Store α :=
  ({ o with size_ := h.size_ }, store m o.data h.data)

/-- The member `grow()` on an object (lines 41-68): the new buffer is allocated, the elements
are moved over, the old elements are destroyed and the old buffer is deallocated. -/
def Obj.grow {α : Type} [Movable α] (o : Obj α) (m : Store α) :
    Except Fault (Obj α × Store α) :=
  let newCap := if o.capacity_ = 0 then 1 else o.capacity_ * 2
  let (newData, m1) := allocate m newCap
  match load m1 o.data with
  | .error f => .error f
  | .ok old =>
    match moveConstructAll o.size_ old (List.replicate newCap none) with
    | .error f => .error f
    | .ok (old1, new1) =>
      match destroyAll o.size_ old1 with
      | .error f => .error f
      | .ok _ =>
        .ok ({ o with data := newData, capacity_ := newCap },
             deallocate (store m1 newData new1) o.data)

/-- The member `push(value)` on an object. -/
def Obj.push {α : Type} [Movable α] (v : α) (o : Obj α) (m : Store α) :
    Except Fault (Obj α × Store α) :=
  match (if o.size_ = o.capacity_ then Obj.grow o m else .ok (o, m)) with
  | .error f => .error f
  | .ok (o1, m1) =>
    match o1.view m1 with
    | .error f => .error f
    | .ok h1 =>
      match insertLast v h1 with
      | .error f => .error f
      | .ok h2 => .ok (o1.commit m1 h2)

/-- One call of a mutating member function on an object; the object and the storage
afterwards, also when the call threw, and `none` on a fault. -/
def Obj.applyOp {α : Type} [Movable α] (o : Obj α) (m : Store α) :
    Op α → Option (Obj α × Store α)
  | .push v =>
    match Obj.push v o m with
    | .ok r => some r
    | .error _ => none
  | .pop =>
    match o.view m with
    | .error _ => none
    | .ok h =>
      match (pop h).heap? with
      | some h1 => some (o.commit m h1)
      | none => none
  | .popTop =>
    match o.view m with
    | .error _ => none
    | .ok h =>
      match (popTop h).heap? with
      | some h1 => some (o.commit m h1)
      | none => none

/-- The member `top()` on an object: the value returned, `none` when the call throws or
faults. -/
def Obj.top {α : Type} (o : Obj α) (m : Store α) : Option α :=
  match o.view m with
  | .error _ => none
  | .ok h =>
    match CppHeap.top h with
    | .returned t _ => some t
    | _ => none

/-- The member `size()` on an object. -/
def Obj.size {α : Type} (o : Obj α) : Nat := o.size_

/-- The copy constructor `Heap(const Heap& other)` on objects (lines 87-105): the new object
and the storage afterwards. -/
def Obj.copyCtor {α : Type} (other : Obj α) (m : Store α) : Except Fault (Obj α × Store α) :=
  let (newData, m1) := if other.capacity_ = 0 then (none, m) else allocate m other.capacity_
  match load m1 other.data with
  | .error f => .error f
  | .ok src =>
    match copyConstructAll src other.size_ (List.replicate other.capacity_ none) with
    | .error f => .error f
    | .ok d =>
      .ok ({ data := newData, size_ := other.size_, capacity_ := other.capacity_,
             comp := other.comp }, store m1 newData d)

/-- The destructor `~Heap()` on an object (lines 78-85). -/
def Obj.dtor {α : Type} (o : Obj α) (m : Store α) : Except Fault (Store α) :=
  match load m o.data with
  | .error f => .error f
  | .ok buf =>
    match destroyAll o.size_ buf with
    | .error f => .error f
    | .ok _ => .ok (deallocate m o.data)

/-- The copy assignment `*this = other` for `this != &other` on objects (lines 109-114): the
temporary copy is built, its members are swapped with those of `*this`, and the temporary,
which now holds the old members of `*this`, is destroyed. -/
def Obj.copyAssign {α : Type} (self other : Obj α) (m : Store α) :
    Except Fault (Obj α × Store α) :=
  match Obj.copyCtor other m with
  | .error f => .error f
  | .ok (temp, m1) =>
    match Obj.dtor self m1 with
    | .error f => .error f
    | .ok m2 => .ok (temp, m2)

/-- An object is valid in a storage when it denotes a well-formed container there. -/
def Obj.Valid {α : Type} (o : Obj α) (m : Store α) : Prop :=
  ∃ h : Heap α, o.view m = .ok h ∧ h.WF

/-- Two objects do not share a buffer. -/
def Obj.Separate {α : Type} (x y : Obj α) : Prop :=
  x.data ≠ y.data ∨ (x.data = none ∧ y.data = none)

/-- The container `h` of `src/main.cc` after line 41 as an object, and a storage that holds
its buffer in block 0. -/
def sampleObj : Obj Int × Store Int :=
  ({ data := some 0, size_ := 3, capacity_ := 4, comp := lessInt },
   [some [some 20, some 5, some 10, none]])

/-- A second, empty object whose buffer of two raw slots is block 1 of the storage. -/
def sampleTarget : Obj Int × Store Int :=
  ({ data := some 1, size_ := 0, capacity_ := 2, comp := greaterInt },
   sampleObj.2 ++ [some [none, none]])

/-- What a member function of an object with pointer `p` may do to the storage: it may
allocate, and every block handed out before the call, other than block `p`, is kept as it
is. -/
def FrameOf {α : Type} (p : Ptr) (m m1 : Store α) : Prop :=
  m.length ≤ m1.length ∧ ∀ q, q < m.length → p ≠ some q → m1[q]? = m[q]?

/-- Object `b` in storage `m1` is an independent copy of object `a` of storage `m`: it has
the capacity, size, comparator and live elements (in index order) of `a`; `a` denotes in
`m1` what it denoted in `m`; and a mutating call `op` on either object returns or throws
without a fault and leaves what the other object denotes, hence its size and its `top()`,
as it was. -/
def IndependentCopy {α : Type} [Movable α] (a b : Obj α) (m m1 : Store α) (op : Op α) :
    Prop :=
  b.capacity_ = a.capacity_ ∧ b.size = a.size ∧ b.comp = a.comp ∧
  (∃ ha hb : Heap α, a.view m = .ok ha ∧ b.view m1 = .ok hb ∧ hb.WF ∧ hb.live = ha.live) ∧
  a.view m1 = a.view m ∧
  (∃ (b1 : Obj α) (m2 : Store α), Obj.applyOp b m1 op = some (b1, m2) ∧
    a.view m2 = a.view m ∧ Obj.top a m2 = Obj.top a m) ∧
  (∃ (a1 : Obj α) (m2 : Store α), Obj.applyOp a m1 op = some (a1, m2) ∧
    b.view m2 = b.view m1 ∧ Obj.top b m2 = Obj.top b m1)

/-! ## Concrete scenarios -/

/-- The `Heap<int>` basic test of `src/main.cc` (lines 38-44): the values printed for
`h.top()`, `h.popTop()` and `h.top()` again, after `push(10)`, `push(5)`, `push(20)` on a
default-constructed heap. -/
def maxHeapScenario : Option (Int × Int × Int) :=
  match pushAll [10, 5, 20] (Heap.new 0 lessInt) with
  | none => none
  | some h =>
    match top h with
    | .returned t1 h1 =>
      match popTop h1 with
      | .returned t2 h2 =>
        match top h2 with
        | .returned t3 _ => some (t1, t2, t3)
        | _ => none
      | _ => none
    | _ => none

/-- The min-heap scenario of the specification: a heap constructed with initial capacity
`cap` and `std::greater<int>`, then `push(1)`, `push(2)`, `push(3)`; the value of `top()`. -/
def minHeapScenario (cap : Nat) : Option Int :=
  match pushAll [1, 2, 3] (Heap.new cap greaterInt) with
  | none => none
  | some h =>
    match top h with
    | .returned t _ => some t
    | _ => none

/-! ## Sift-up with a swap counter, and a comparator that is not a strict weak ordering -/

/-- The loop of `heapifyUp` (lines 17-23) instrumented with the number of calls of
`std::swap` it makes; the buffer it returns is the one `heapifyUpLoop` returns. -/
def heapifyUpCount {α : Type} [Movable α] (comp : α → α → Bool) :
    Nat → Nat → List (Option α) → Except Fault (Nat × List (Option α))
  | 0, _, _ => .error .outOfFuel
  | fuel + 1, idx, d =>
    if idx > 0 then
      let parent := (idx - 1) / 2
      match rd d parent, rd d idx with
      | .ok p, .ok c =>
        if comp p c then
          match swapSlots d parent idx with
          | .ok d1 =>
            match heapifyUpCount comp fuel parent d1 with
            | .ok (n, d2) => .ok (n + 1, d2)
            | .error f => .error f
          | .error f => .error f
        else .ok (0, d)
      | .error f, _ => .error f
      | _, .error f => .error f
    else .ok (0, d)

/-- A comparator on `int` that is irreflexive and transitive but whose incomparability is not
transitive: `a` ranks below `b` when `a + 1 < b`. -/
def gapLess : Int → Int → Bool := fun a b => decide (a + 1 < b)

/-- The comparator that always returns `true`. -/
def alwaysTrue : Int → Int → Bool := fun _ _ => true

/-! ## Reachable states -/

/-- The states of a container that a program can reach: from the constructor with any initial
capacity, by `push`, `pop` and `popTop` (also when the call throws), by copy construction and
copy assignment, and as the target or the moved-from source of move construction and move
assignment. -/
inductive Reachable {α : Type} [Movable α] : Heap α → Prop where
  | new (cap : Nat) (c : α → α → Bool) : Reachable (Heap.new cap c)
  | call {h h1 : Heap α} (op : Op α) : Reachable h → applyOp h op = some h1 → Reachable h1
  | copyCtor {h c : Heap α} : Reachable h → Heap.copyCtor h = .ok c → Reachable c
  | copyAssign {self other c : Heap α} : Reachable self → Reachable other →
      Heap.copyAssign self other = .ok c → Reachable c
  | moveCtorTarget {h : Heap α} : Reachable h → Reachable (Heap.moveCtor h).1
  | moveCtorSource {h : Heap α} : Reachable h → Reachable (Heap.moveCtor h).2
  | moveAssignTarget {self other : Heap α} {r : Heap α × Heap α} : Reachable self →
      Reachable other → Heap.moveAssign self other = .ok r → Reachable r.1
  | moveAssignSource {self other : Heap α} {r : Heap α × Heap α} : Reachable self →
      Reachable other → Heap.moveAssign self other = .ok r → Reachable r.2

/-! ## Element constructors that throw -/

/-- Which constructions of an element throw.  A construction that throws leaves its source
as it was and constructs nothing. -/
structure Throwing (α : Type) where
  /-- the move constructor throws when its source has this value (line 48) -/
  move : α → Bool
  /-- the construction of the new element from this argument of `push` throws (lines 151,
  158) -/
  ctor : α → Bool

/-- How the loop of lines 47-50 ends: every element relocated, or an exception of the move
constructor after `constructed` elements; in both cases the old and the new buffer as the
loop leaves them. -/
inductive Relocation (α : Type) where
  | done (old new : List (Option α))
  | threw (constructed : Nat) (old new : List (Option α))

/-- The loop `for (i = 0; i < n; i++) { construct(alloc, &newData[i], std::move(data[i]));
constructed++; }` of `grow` (lines 47-50) with a move constructor that may throw. -/
def relocate {α : Type} [Movable α] (throws : α → Bool) :
    Nat → List (Option α) → List (Option α) → Except Fault (Relocation α)
  | 0, src, dst => .ok (.done src dst)
  | k + 1, src, dst =>
    match relocate throws k src dst with
    | .error f => .error f
    | .ok (.threw c src1 dst1) => .ok (.threw c src1 dst1)
    | .ok (.done src1 dst1) =>
      match rd src1 k with
      | .error f => .error f
      | .ok v =>
        if throws v then .ok (.threw k src1 dst1)
        else
          match moveFrom src1 k with
          | .error f => .error f
          | .ok (w, src2) =>
            match construct dst1 k w with
            | .error f => .error f
            | .ok dst2 => .ok (.done src2 dst2)

/-- The member `grow()` (lines 41-68) with a move constructor that may throw: the `catch`
block destroys the `constructed` elements of the new buffer, deallocates it and rethrows, so
the container keeps its old buffer as the loop left it. -/
def growThrowing {α : Type} [Movable α] (E : Throwing α) (h : Heap α) : Outcome α Unit :=
  let newCap := if h.capacity_ = 0 then 1 else h.capacity_ * 2
  match relocate E.move h.size_ h.data (List.replicate newCap none) with
  | .error f => .fault f
  | .ok (.threw constructed old newData) =>
    match destroyAll constructed newData with
    | .error f => .fault f
    | .ok _ => .threw .elementFailure { h with data := old }
  | .ok (.done old newData) =>
    match destroyAll h.size_ old with
    | .error f => .fault f
    | .ok _ => .returned () { h with data := newData, capacity_ := newCap }

/-- The member `push(value)` (lines 149-161) with element constructors that may throw: an
exception of `grow()` or of the construction of the new element leaves the function before
`heapifyUp` and `size_++`. -/
def pushThrowing {α : Type} [Movable α] (E : Throwing α) (v : α) (h : Heap α) :
    Outcome α Unit :=
  match (if h.size_ = h.capacity_ then growThrowing E h else .returned () h) with
  | .fault f => .fault f
  | .threw e h1 => .threw e h1
  | .returned _ h1 =>
    if E.ctor v then .threw .elementFailure h1
    else
      match insertLast v h1 with
      | .ok h2 => .returned () h2
      | .error f => .fault f

/-- The element type `Tracer` of `src/main.cc` (lines 5-35): its member `value`. -/
structure Tracer where
  value : Int
  deriving DecidableEq, Repr

/-- The move constructor and the move assignment of `Tracer` set `other.value = -1` (lines 15,
25). -/
instance : Movable Tracer := ⟨fun _ => ⟨-1⟩⟩

/-- The member `Tracer::operator<` (lines 28-30), the comparator of `Heap<Tracer>`. -/
def tracerLess : Tracer → Tracer → Bool := fun a b => decide (a.value < b.value)

/-- A full `Heap<Tracer>` with the elements 20, 5, 10: the next `push` calls `grow()`. -/
def tracerHeap : Heap Tracer :=
  { data := [some ⟨20⟩, some ⟨5⟩, some ⟨10⟩], size_ := 3, capacity_ := 3, comp := tracerLess }

/-- An element type that moves like `Tracer` and whose move constructor throws for a source
of value 5; no other construction throws. -/
def throwsAtFive : Throwing Tracer :=
  { move := fun t => decide (t.value = 5), ctor := fun _ => false }

/-- The live elements `l` after the first `k` of them have been the source of a move. -/
def movedUpTo {α : Type} [Movable α] (k : Nat) (l : List α) : List α :=
  (l.take k).map Movable.movedFrom ++ l.drop k

/-- An element type that moves like `Tracer` and for which the construction of a new element
from an argument of value 7 throws; no move constructor throws. -/
def throwsOnSeven : Throwing Tracer :=
  { move := fun _ => false, ctor := fun t => decide (t.value = 7) }


/-! ## The argument of `push(const T&)` as a reference

`push` above takes the value of its argument: it is the member function for an argument
object that is alive, with that value, when line 151 reads it.  The parameter of
`push(const T& value)` is a reference, and the object it is bound to may live in the buffer of
the container itself, as in `h.push(h.top())`.  The definitions below keep the reference, on
the objects that point into allocator storage, and read it where the source reads it. -/

/-- A reference `const T&` to an object in allocator storage: slot `idx` of block `block`. -/
structure SlotRef where
  /-- the block the object lives in -/
  block : Ptr
  /-- the slot of the block -/
  idx : Nat
  deriving DecidableEq, Repr

/-- Read of the object a reference is bound to.  It is undefined behaviour once the block has
been deallocated, and when the slot holds no constructed object. -/
def SlotRef.read {α : Type} (r : SlotRef) (m : Store α) : Except Fault α :=
  match load m r.block with
  | .error f => .error f
  | .ok buf => rd buf r.idx

/-- The member `top()` on an object, with its result as the source declares it (lines
181-184): the exception on an empty container, else a reference to `data[0]`. -/
def Obj.topRef {α : Type} (o : Obj α) : Except Exn SlotRef :=
  if o.size_ = 0 then .error .outOfRange else .ok { block := o.data, idx := 0 }

/-- The member `push(const T& value)` on an object, for `value` bound to an object in
allocator storage (lines 149-154): `if (size_ == capacity_) grow();` runs first, then line 151
reads `value` in the storage as `grow()` left it and constructs the new element from it, and
the element is sifted up. -/
def Obj.pushRef {α : Type} [Movable α] (value : SlotRef) (o : Obj α) (m : Store α) :
    Except Fault (Obj α × Store α) :=
  match (if o.size_ = o.capacity_ then Obj.grow o m else .ok (o, m)) with
  | .error f => .error f
  | .ok (o1, m1) =>
    match value.read m1 with
    | .error f => .error f
    | .ok v =>
      match o1.view m1 with
      | .error f => .error f
      | .ok h1 =>
        match insertLast v h1 with
        | .error f => .error f
        | .ok h2 => .ok (o1.commit m1 h2)

/-- A default-constructed `Heap<int>` after `push(20)`, `push(7)`, `push(10)`, `push(5)`: it
is full, with size 4 and capacity 4. -/
def fullHeap : Heap Int :=
  { data := [some 20, some 7, some 10, some 5], size_ := 4, capacity_ := 4, comp := lessInt }

/-- The container `fullHeap` as an object, and a storage that holds its buffer in block 0. -/
def fullObj : Obj Int × Store Int :=
  ({ data := some 0, size_ := 4, capacity_ := 4, comp := lessInt },
   [some [some 20, some 7, some 10, some 5]])
/-! ## Strict weak orderings -/

theorem StrictWeakOrder.asymm {α : Type} {comp : α → α → Bool} (hc : StrictWeakOrder comp)
    {a b : α} (hab : comp a b = true) : comp b a = false := by
  cases hba : comp b a with
  | false => rfl
  | true =>
    have h1 := hc.trans a b a hab hba
    rw [hc.irrefl a] at h1
    exact absurd h1 (by decide)

theorem StrictWeakOrder.negTrans {α : Type} {comp : α → α → Bool} (hc : StrictWeakOrder comp)
    {a b c : α} (hab : comp a b = false) (hbc : comp b c = false) : comp a c = false := by
  cases hac : comp a c with
  | false => rfl
  | true =>
    have hba : comp b a = false := by
      cases hba : comp b a with
      | false => rfl
      | true => rw [hc.trans b a c hba hac] at hbc; exact absurd hbc (by decide)
    have hcb : comp c b = false := by
      cases hcb : comp c b with
      | false => rfl
      | true => rw [hc.trans a c b hac hcb] at hab; exact absurd hab (by decide)
    rw [hc.incomp_trans a b c hab hba hbc hcb] at hac
    exact absurd hac (by decide)

/-! ## Buffers whose first slots are constructed -/

theorem getElem?_on_live {α : Type} {l : List α} {rest : List (Option α)} {i : Nat}
    (hi : i < l.length) : (l.map some ++ rest)[i]? = some l[i]? := by
  rw [List.getElem?_append_left (by simpa using hi), List.getElem?_map]
  rw [List.getElem?_eq_getElem hi]
  rfl

theorem rd_on_live {α : Type} {l : List α} {rest : List (Option α)} {i : Nat} {v : α}
    (h : l[i]? = some v) : rd (l.map some ++ rest) i = .ok v := by
  have hi : i < l.length := (List.getElem?_eq_some.1 h).1
  unfold rd
  rw [getElem?_on_live hi, h]

theorem swapSlots_on_live {α : Type} [Movable α] {l : List α} {rest : List (Option α)}
    {i j : Nat} {a b : α} (hij : i ≠ j) (ha : l[i]? = some a) (hb : l[j]? = some b) :
    swapSlots (l.map some ++ rest) i j = .ok (((l.set i b).set j a).map some ++ rest) := by
  have hi : i < l.length := (List.getElem?_eq_some.1 ha).1
  have hj : j < l.length := (List.getElem?_eq_some.1 hb).1
  have e0 : (l.map some ++ rest).set i (some (Movable.movedFrom a)) =
      (l.set i (Movable.movedFrom a)).map some ++ rest := by
    rw [List.map_set, List.set_append_left _ _ (by simpa using hi)]
  have hb1 : (l.set i (Movable.movedFrom a))[j]? = some b := by
    rw [List.getElem?_set_ne hij]; exact hb
  have ha1 : (l.set i (Movable.movedFrom a))[i]? = some (Movable.movedFrom a) := by
    rw [List.getElem?_set_self hi]
  have e1 : ((l.set i (Movable.movedFrom a)).map some ++ rest).set i (some b) =
      (l.set i b).map some ++ rest := by
    rw [List.set_append_left _ _ (by simpa using hi), ← List.map_set, List.set_set]
  have e2 : ((l.set i b).map some ++ rest).set j (some (Movable.movedFrom b)) =
      ((l.set i b).set j (Movable.movedFrom b)).map some ++ rest := by
    simp only [List.map_set]
    rw [List.set_append_left _ _ (by simpa using hj)]
  have hm1 : ((l.set i b).set j (Movable.movedFrom b))[j]? = some (Movable.movedFrom b) := by
    rw [List.getElem?_set_self (by simpa using hj)]
  unfold swapSlots moveFrom
  rw [rd_on_live ha]
  simp only []
  unfold moveAssign
  rw [e0, rd_on_live hb1, rd_on_live ha1]
  simp only []
  rw [e1, e2]
  unfold assign
  rw [rd_on_live hm1]
  simp only []
  rw [List.set_append_left _ _ (by simpa using hj), ← List.map_set, List.set_set]

theorem getElem?_swap {α : Type} {l : List α} {i j : Nat} (a b : α)
    (hi : i < l.length) (hj : j < l.length) (k : Nat) :
    ((l.set i b).set j a)[k]? = if k = j then some a else if k = i then some b else l[k]? := by
  simp only [List.getElem?_set, List.length_set]
  by_cases h1 : j = k
  · subst h1; simp [hj]
  · by_cases h2 : i = k
    · subst h2; simp [h1, hi, Ne.symm h1]
    · simp [h1, h2, Ne.symm h1, Ne.symm h2]

theorem cons_set_perm {α : Type} (a b : α) :
    ∀ (t : List α) (j : Nat), t[j]? = some b → (b :: t.set j a).Perm (a :: t)
  | [], j, h => by simp at h
  | x :: t, 0, h => by
    simp at h
    subst h
    simpa using List.Perm.swap a x t
  | x :: t, j + 1, h => by
    simp at h
    have ih := cons_set_perm a b t j h
    simp only [List.set_cons_succ]
    exact (List.Perm.swap x b _).trans ((ih.cons x).trans (List.Perm.swap a x t))

theorem swap_perm_lt {α : Type} {a b : α} :
    ∀ (l : List α) (i j : Nat), i < j → l[i]? = some a → l[j]? = some b →
      ((l.set i b).set j a).Perm l
  | [], i, j, _, ha, _ => by simp at ha
  | x :: t, 0, 0, hij, _, _ => by omega
  | x :: t, 0, j + 1, _, ha, hb => by
    simp at ha hb
    subst ha
    simpa using cons_set_perm x b t j hb
  | x :: t, i + 1, 0, hij, _, _ => by omega
  | x :: t, i + 1, j + 1, hij, ha, hb => by
    simp at ha hb
    simpa using (swap_perm_lt t i j (by omega) ha hb).cons x

theorem swap_perm {α : Type} {a b : α} {l : List α} {i j : Nat} (hij : i ≠ j)
    (ha : l[i]? = some a) (hb : l[j]? = some b) : ((l.set i b).set j a).Perm l := by
  rcases Nat.lt_or_gt_of_ne hij with h | h
  · exact swap_perm_lt l i j h ha hb
  · rw [List.set_comm b a l hij]
    exact swap_perm_lt l j i h hb ha


/-! ## Sift-up -/

theorem upInv_swap {α : Type} {comp : α → α → Bool} (hc : StrictWeakOrder comp)
    {l : List α} {idx : Nat} {p c : α} (h0 : 0 < idx) (hi : idx < l.length)
    (hp : l[(idx - 1) / 2]? = some p) (hcmp : comp p c = true)
    (hinv : UpInv comp l idx) :
    UpInv comp ((l.set ((idx - 1) / 2) c).set idx p) ((idx - 1) / 2) := by
  have hpar : (idx - 1) / 2 < idx := by omega
  have hpl : (idx - 1) / 2 < l.length := by omega
  obtain ⟨h1, h2⟩ := hinv
  have hget := getElem?_swap (l := l) p c hpl hi
  constructor
  · intro i x y hi0 hne hx hy
    rw [hget] at hx hy
    by_cases hii : i = idx
    · have hne2 : (i - 1) / 2 ≠ idx := by omega
      rw [if_pos hii] at hy
      rw [if_neg hne2, if_pos (by rw [hii])] at hx
      cases hx; cases hy
      exact hc.asymm hcmp
    · rw [if_neg hii, if_neg hne] at hy
      by_cases hpi : (i - 1) / 2 = idx
      · rw [if_pos hpi] at hx
        cases hx
        exact h2 i _ y hi0 h0 hpi hp hy
      · by_cases hpp : (i - 1) / 2 = (idx - 1) / 2
        · rw [if_neg hpi, if_pos hpp] at hx
          cases hx
          have h3 := h1 i p y hi0 hii (hpp ▸ hp) hy
          cases hxy : comp c y with
          | false => rfl
          | true => rw [hc.trans p c y hcmp hxy] at h3; exact absurd h3 (by decide)
        · rw [if_neg hpi, if_neg hpp] at hx
          exact h1 i x y hi0 hii hx hy
  · intro i g y hi0 hp0 hpar2 hg hy
    rw [hget] at hg hy
    have hne1 : ((idx - 1) / 2 - 1) / 2 ≠ idx := by omega
    have hne2 : ((idx - 1) / 2 - 1) / 2 ≠ (idx - 1) / 2 := by omega
    rw [if_neg hne1, if_neg hne2] at hg
    have hgp : comp g p = false := h1 _ g p hp0 (by omega) hg hp
    have hne3 : i ≠ (idx - 1) / 2 := by omega
    by_cases hii : i = idx
    · rw [if_pos hii] at hy
      cases hy
      exact hgp
    · rw [if_neg hii, if_neg hne3] at hy
      exact hc.negTrans hgp (h1 i p y hi0 hii (hpar2 ▸ hp) hy)

theorem heapifyUpLoop_spec {α : Type} [Movable α] (comp : α → α → Bool) (rest : List (Option α)) :
    ∀ (fuel idx : Nat) (l : List α), idx < fuel → idx < l.length →
      ∃ l1, heapifyUpLoop comp fuel idx (l.map some ++ rest) = .ok (l1.map some ++ rest) ∧
        l1.length = l.length ∧ l1.Perm l ∧
        (StrictWeakOrder comp → UpInv comp l idx → HeapL comp l1) := by
  intro fuel
  induction fuel with
  | zero => intro idx l h; omega
  | succ fuel ih =>
    intro idx l hf hi
    rw [heapifyUpLoop]
    by_cases h0 : idx > 0
    · have hpar : (idx - 1) / 2 < idx := by omega
      obtain ⟨p, hp⟩ : ∃ p, l[(idx - 1) / 2]? = some p :=
        ⟨_, List.getElem?_eq_getElem (by omega)⟩
      obtain ⟨c, hcv⟩ : ∃ c, l[idx]? = some c := ⟨_, List.getElem?_eq_getElem hi⟩
      simp only [h0, if_true, rd_on_live hp, rd_on_live hcv]
      cases hcmp : comp p c with
      | false =>
        refine ⟨l, by simp, rfl, List.Perm.refl _, ?_⟩
        intro _ hinv i x y hi0 hx hy
        by_cases hii : i = idx
        · subst hii
          rw [hp] at hx; rw [hcv] at hy
          cases hx; cases hy
          exact hcmp
        · exact hinv.1 i x y hi0 hii hx hy
      | true =>
        simp only [if_true, swapSlots_on_live (by omega : (idx - 1) / 2 ≠ idx) hp hcv]
        obtain ⟨l1, e1, e2, e3, e4⟩ :=
          ih ((idx - 1) / 2) ((l.set ((idx - 1) / 2) c).set idx p) (by omega)
            (by simp only [List.length_set]; omega)
        refine ⟨l1, e1, by simpa using e2, e3.trans (swap_perm (by omega) hp hcv), ?_⟩
        intro hc hinv
        exact e4 hc (upInv_swap hc h0 hi hp hcmp hinv)
    · have hz : idx = 0 := by omega
      subst hz
      refine ⟨l, by simp, rfl, List.Perm.refl _, ?_⟩
      intro _ hinv i x y hi0 hx hy
      exact hinv.1 i x y hi0 (by omega) hx hy

/-! ## Sift-down -/

theorem pickLarger_on_live {α : Type} (comp : α → α → Bool) {rest : List (Option α)}
    {l : List α} {n largest child : Nat} {a b : α} (hlt : child < n)
    (ha : l[largest]? = some a) (hb : l[child]? = some b) :
    pickLarger comp n (l.map some ++ rest) largest child =
      .ok (if comp a b then child else largest) := by
  unfold pickLarger
  rw [if_pos hlt, rd_on_live ha, rd_on_live hb]

theorem pickLarger_of_ge {α : Type} (comp : α → α → Bool) (d : List (Option α))
    {n largest child : Nat} (hge : ¬ child < n) :
    pickLarger comp n d largest child = .ok largest := by
  unfold pickLarger
  rw [if_neg hge]

/-- The two comparisons of one iteration of `heapifyDown` select an index `m` among `idx` and
its children below `n`; under a strict weak ordering its element is outranked by none of
them. -/
theorem pick_spec {α : Type} (comp : α → α → Bool) (rest : List (Option α)) (l : List α)
    (n : Nat) (hn : l.length = n) (idx : Nat) (a : α) (ha : l[idx]? = some a) :
    ∃ l1 m vm, pickLarger comp n (l.map some ++ rest) idx (idx * 2 + 1) = .ok l1 ∧
      pickLarger comp n (l.map some ++ rest) l1 (idx * 2 + 2) = .ok m ∧
      l[m]? = some vm ∧ (m = idx ∨ m = idx * 2 + 1 ∨ m = idx * 2 + 2) ∧
      (StrictWeakOrder comp → m ≠ idx → comp vm a = false) ∧
      (StrictWeakOrder comp → ∀ b, l[idx * 2 + 1]? = some b → comp vm b = false) ∧
      (StrictWeakOrder comp → ∀ r, l[idx * 2 + 2]? = some r → comp vm r = false) := by
  have hnone : ∀ k, ¬ k < n → ∀ y, l[k]? = some y → False := by
    intro k hk y hy
    have := (List.getElem?_eq_some.1 hy).1
    omega
  by_cases hL : idx * 2 + 1 < n
  · obtain ⟨b, hb⟩ : ∃ b, l[idx * 2 + 1]? = some b :=
      ⟨_, List.getElem?_eq_getElem (by omega)⟩
    by_cases hR : idx * 2 + 2 < n
    · obtain ⟨r, hr⟩ : ∃ r, l[idx * 2 + 2]? = some r :=
        ⟨_, List.getElem?_eq_getElem (by omega)⟩
      cases hab : comp a b with
      | true =>
        cases hbr : comp b r with
        | true =>
          refine ⟨idx * 2 + 1, idx * 2 + 2, r, ?_, ?_, hr, Or.inr (Or.inr rfl), ?_, ?_, ?_⟩
          · rw [pickLarger_on_live comp hL ha hb, hab]; rfl
          · rw [pickLarger_on_live comp hR hb hr, hbr]; rfl
          · intro hc _; exact hc.asymm (hc.trans a b r hab hbr)
          · intro hc b1 hb1; rw [hb] at hb1; cases hb1; exact hc.asymm hbr
          · intro hc r1 hr1; rw [hr] at hr1; cases hr1; exact hc.irrefl _
        | false =>
          refine ⟨idx * 2 + 1, idx * 2 + 1, b, ?_, ?_, hb, Or.inr (Or.inl rfl), ?_, ?_, ?_⟩
          · rw [pickLarger_on_live comp hL ha hb, hab]; rfl
          · rw [pickLarger_on_live comp hR hb hr, hbr]; rfl
          · intro hc _; exact hc.asymm hab
          · intro hc b1 hb1; rw [hb] at hb1; cases hb1; exact hc.irrefl _
          · intro hc r1 hr1; rw [hr] at hr1; cases hr1; exact hbr
      | false =>
        cases har : comp a r with
        | true =>
          refine ⟨idx, idx * 2 + 2, r, ?_, ?_, hr, Or.inr (Or.inr rfl), ?_, ?_, ?_⟩
          · rw [pickLarger_on_live comp hL ha hb, hab]; rfl
          · rw [pickLarger_on_live comp hR ha hr, har]; rfl
          · intro hc _; exact hc.asymm har
          · intro hc b1 hb1
            rw [hb] at hb1; cases hb1
            cases hrb : comp r b with
            | false => rfl
            | true => rw [hc.trans a r b har hrb] at hab; exact absurd hab (by decide)
          · intro hc r1 hr1; rw [hr] at hr1; cases hr1; exact hc.irrefl _
        | false =>
          refine ⟨idx, idx, a, ?_, ?_, ha, Or.inl rfl, ?_, ?_, ?_⟩
          · rw [pickLarger_on_live comp hL ha hb, hab]; rfl
          · rw [pickLarger_on_live comp hR ha hr, har]; rfl
          · intro _ hne; exact absurd rfl hne
          · intro _ b1 hb1; rw [hb] at hb1; cases hb1; exact hab
          · intro _ r1 hr1; rw [hr] at hr1; cases hr1; exact har
    · cases hab : comp a b with
      | true =>
        refine ⟨idx * 2 + 1, idx * 2 + 1, b, ?_, ?_, hb, Or.inr (Or.inl rfl), ?_, ?_, ?_⟩
        · rw [pickLarger_on_live comp hL ha hb, hab]; rfl
        · exact pickLarger_of_ge comp _ hR
        · intro hc _; exact hc.asymm hab
        · intro hc b1 hb1; rw [hb] at hb1; cases hb1; exact hc.irrefl _
        · intro _ r1 hr1; exact (hnone _ hR r1 hr1).elim
      | false =>
        refine ⟨idx, idx, a, ?_, ?_, ha, Or.inl rfl, ?_, ?_, ?_⟩
        · rw [pickLarger_on_live comp hL ha hb, hab]; rfl
        · exact pickLarger_of_ge comp _ hR
        · intro _ hne; exact absurd rfl hne
        · intro _ b1 hb1; rw [hb] at hb1; cases hb1; exact hab
        · intro _ r1 hr1; exact (hnone _ hR r1 hr1).elim
  · have hR : ¬ idx * 2 + 2 < n := by omega
    refine ⟨idx, idx, a, pickLarger_of_ge comp _ hL, pickLarger_of_ge comp _ hR, ha,
      Or.inl rfl, ?_, ?_, ?_⟩
    · intro _ hne; exact absurd rfl hne
    · intro _ b1 hb1; exact (hnone _ hL b1 hb1).elim
    · intro _ r1 hr1; exact (hnone _ hR r1 hr1).elim

theorem downInv_swap {α : Type} {comp : α → α → Bool} {l : List α} {idx m : Nat} {a vm : α}
    (ha : l[idx]? = some a) (hm : l[m]? = some vm)
    (hch : m = idx * 2 + 1 ∨ m = idx * 2 + 2) (hva : comp vm a = false)
    (hvl : ∀ b, l[idx * 2 + 1]? = some b → comp vm b = false)
    (hvr : ∀ r, l[idx * 2 + 2]? = some r → comp vm r = false)
    (hinv : DownInv comp l idx) :
    DownInv comp ((l.set idx vm).set m a) m := by
  have hil : idx < l.length := (List.getElem?_eq_some.1 ha).1
  have hml : m < l.length := (List.getElem?_eq_some.1 hm).1
  obtain ⟨h1, h2⟩ := hinv
  have hget := getElem?_swap (l := l) a vm hil hml
  constructor
  · intro i x y hi0 hpm hx hy
    rw [hget] at hx hy
    rw [if_neg hpm] at hx
    by_cases hpi : (i - 1) / 2 = idx
    · rw [if_pos hpi] at hx
      cases hx
      have hii : i ≠ idx := by omega
      by_cases him : i = m
      · rw [if_pos him] at hy
        cases hy
        exact hva
      · rw [if_neg him, if_neg hii] at hy
        have hlr : i = idx * 2 + 1 ∨ i = idx * 2 + 2 := by omega
        rcases hlr with e | e
        · exact hvl y (e ▸ hy)
        · exact hvr y (e ▸ hy)
    · rw [if_neg hpi] at hx
      have him : i ≠ m := by omega
      rw [if_neg him] at hy
      by_cases hii : i = idx
      · rw [if_pos hii] at hy
        cases hy
        exact h2 m x _ (by omega) (by omega) (by omega) (hii ▸ hx) hm
      · rw [if_neg hii] at hy
        exact h1 i x y hi0 hpi hx hy
  · intro i g y hi0 hm0 hpar hg hy
    rw [hget] at hg hy
    have e1 : (m - 1) / 2 = idx := by omega
    have e2 : (m - 1) / 2 ≠ m := by omega
    rw [if_neg e2, if_pos e1] at hg
    cases hg
    have e3 : i ≠ m := by omega
    have e4 : i ≠ idx := by omega
    rw [if_neg e3, if_neg e4] at hy
    exact h1 i _ y hi0 (by omega) (hpar ▸ hm) hy

theorem heapifyDownLoop_spec {α : Type} [Movable α] (comp : α → α → Bool) (rest : List (Option α))
    (n : Nat) :
    ∀ (fuel idx : Nat) (l : List α), l.length = n → idx < n → n - idx < fuel →
      ∃ l1, heapifyDownLoop comp n fuel idx (l.map some ++ rest) = .ok (l1.map some ++ rest) ∧
        l1.length = l.length ∧ l1.Perm l ∧
        (StrictWeakOrder comp → DownInv comp l idx → HeapL comp l1) := by
  intro fuel
  induction fuel with
  | zero => intro idx l _ _ h; omega
  | succ fuel ih =>
    intro idx l hn hi hf
    obtain ⟨a, ha⟩ : ∃ a, l[idx]? = some a := ⟨_, List.getElem?_eq_getElem (by omega)⟩
    obtain ⟨l1, m, vm, e1, e2, hm, hch, hva, hvl, hvr⟩ := pick_spec comp rest l n hn idx a ha
    have hml : m < l.length := (List.getElem?_eq_some.1 hm).1
    rw [heapifyDownLoop]
    simp only [e1, e2]
    by_cases hne : m = idx
    · subst hne
      rw [if_neg (by simp)]
      refine ⟨l, rfl, rfl, List.Perm.refl _, ?_⟩
      intro hc hinv i x y hi0 hx hy
      by_cases hpi : (i - 1) / 2 = m
      · rw [hpi, hm] at hx
        cases hx
        have hlr : i = m * 2 + 1 ∨ i = m * 2 + 2 := by omega
        rcases hlr with e | e
        · exact hvl hc y (e ▸ hy)
        · exact hvr hc y (e ▸ hy)
      · exact hinv.1 i x y hi0 hpi hx hy
    · rw [if_pos hne, swapSlots_on_live (Ne.symm hne) ha hm]
      have hch2 : m = idx * 2 + 1 ∨ m = idx * 2 + 2 := by
        rcases hch with e | e
        · exact absurd e hne
        · exact e
      obtain ⟨l2, f1, f2, f3, f4⟩ :=
        ih m ((l.set idx vm).set m a) (by simp only [List.length_set]; exact hn) (by omega)
          (by omega)
      refine ⟨l2, f1, by simpa using f2, f3.trans (swap_perm (Ne.symm hne) ha hm), ?_⟩
      intro hc hinv
      exact f4 hc (downInv_swap ha hm hch2 (hva hc hne) (hvl hc) (hvr hc) hinv)

/-! ## Container states and their live elements -/

theorem reduceOption_map_some {α : Type} (l : List α) : (l.map some).reduceOption = l := by
  induction l with
  | nil => rfl
  | cons x t ih => rw [List.map_cons, List.reduceOption_cons_of_some, ih]

theorem live_prefix_decomp {α : Type} :
    ∀ (n : Nat) (d : List (Option α)), (∀ i, i < n → ∃ v, d[i]? = some (some v)) →
      ∃ l : List α, d = l.map some ++ d.drop n ∧ l.length = n
  | 0, d, _ => ⟨[], by simp, rfl⟩
  | n + 1, [], h => by
    obtain ⟨v, hv⟩ := h 0 (by omega)
    simp at hv
  | n + 1, x :: d, h => by
    obtain ⟨v, hv⟩ := h 0 (by omega)
    simp only [List.getElem?_cons_zero, Option.some.injEq] at hv
    subst hv
    obtain ⟨l, e1, e2⟩ := live_prefix_decomp n d (fun i hi => by
      simpa using h (i + 1) (by omega))
    refine ⟨v :: l, ?_, by simp [e2]⟩
    simp only [List.map_cons, List.cons_append, List.drop_succ_cons]
    rw [← e1]

theorem Heap.WF.decomp {α : Type} {h : Heap α} (hw : h.WF) :
    ∃ (l : List α) (rest : List (Option α)), h.data = l.map some ++ rest ∧
      l.length = h.size_ ∧ l.length + rest.length = h.capacity_ := by
  obtain ⟨h1, _, h3⟩ := hw
  obtain ⟨l, e1, e2⟩ := live_prefix_decomp h.size_ h.data h3
  refine ⟨l, h.data.drop h.size_, e1, e2, ?_⟩
  have := congrArg List.length e1
  simp only [List.length_append, List.length_map] at this
  omega

theorem Heap.live_eq {α : Type} (h : Heap α) (l : List α) (rest : List (Option α))
    (hd : h.data = l.map some ++ rest) (hl : l.length = h.size_) : h.live = l := by
  unfold Heap.live
  rw [hd, List.take_left' (by simpa using hl), reduceOption_map_some]

theorem Heap.wf_of_decomp {α : Type} (h : Heap α) (l : List α) (rest : List (Option α))
    (hd : h.data = l.map some ++ rest) (hl : l.length = h.size_)
    (hcap : l.length + rest.length = h.capacity_) : h.WF := by
  refine ⟨by rw [hd]; simpa using hcap, by omega, ?_⟩
  intro i hi
  refine ⟨l[i], ?_⟩
  rw [hd, getElem?_on_live (by omega), List.getElem?_eq_getElem (by omega)]

theorem getElem?_on_live_iff {α : Type} {l : List α} {rest : List (Option α)} {i : Nat}
    (hi : i < l.length) (v : α) : (l.map some ++ rest)[i]? = some (some v) ↔ l[i]? = some v := by
  rw [getElem?_on_live hi]
  exact ⟨fun e => Option.some.inj e, fun e => by rw [e]⟩

theorem Heap.inv_iff {α : Type} (h : Heap α) (l : List α) (rest : List (Option α))
    (hd : h.data = l.map some ++ rest) (hl : l.length = h.size_) :
    h.Inv ↔ HeapL h.comp l := by
  constructor
  · intro hinv i p c hi0 hp hc
    have hi : i < l.length := (List.getElem?_eq_some.1 hc).1
    refine hinv i hi0 (by omega) p c ?_ ?_
    · rw [hd]; exact (getElem?_on_live_iff (by omega) p).2 hp
    · rw [hd]; exact (getElem?_on_live_iff hi c).2 hc
  · intro hl2 i hi0 hi p c hp hc
    rw [hd] at hp hc
    exact hl2 i p c hi0 ((getElem?_on_live_iff (by omega) p).1 hp)
      ((getElem?_on_live_iff (by omega) c).1 hc)

/-! ## Growth -/

theorem copyConstructAll_on_live {α : Type} (l : List α) (rest : List (Option α))
    (m : Nat) :
    ∀ k, k ≤ l.length → k ≤ m →
      copyConstructAll (l.map some ++ rest) k (List.replicate m none) =
        .ok ((l.take k).map some ++ List.replicate (m - k) none)
  | 0, _, _ => by simp [copyConstructAll]
  | k + 1, hk, hm => by
    rw [copyConstructAll, copyConstructAll_on_live l rest m k (by omega) (by omega)]
    simp only []
    rw [rd_on_live (List.getElem?_eq_getElem (by omega : k < l.length))]
    simp only []
    unfold construct
    have hlen : ((l.take k).map some).length = k := by simp; omega
    rw [if_pos (by simp; omega)]
    rw [List.set_append_right _ _ (by omega), hlen, Nat.sub_self]
    have e : m - k = (m - (k + 1)) + 1 := by omega
    rw [e, List.replicate_succ, List.set_cons_zero, List.take_succ,
      List.getElem?_eq_getElem (by omega : k < l.length)]
    simp only [Option.toList, List.map_append, List.map_cons, List.map_nil, List.append_assoc,
      List.singleton_append]

theorem moveConstructAll_on_live {α : Type} [Movable α] (l : List α)
    (rest : List (Option α)) (m : Nat) :
    ∀ k, k ≤ l.length → k ≤ m →
      ∃ src1, moveConstructAll k (l.map some ++ rest) (List.replicate m none) =
          .ok (src1, (l.take k).map some ++ List.replicate (m - k) none) ∧
        (∀ j, j < k → ∃ v, src1[j]? = some (some v)) ∧
        (∀ j, k ≤ j → src1[j]? = (l.map some ++ rest)[j]?)
  | 0, _, _ => ⟨_, by simp [moveConstructAll], fun j hj => by omega, fun _ _ => rfl⟩
  | k + 1, hk, hm => by
    obtain ⟨src1, e1, e2, e3⟩ := moveConstructAll_on_live l rest m k (by omega) (by omega)
    have hk1 : src1[k]? = some (some l[k]) := by
      rw [e3 k (Nat.le_refl k), getElem?_on_live (by omega),
        List.getElem?_eq_getElem (by omega)]
    have hlen1 : k < src1.length := (List.getElem?_eq_some.1 hk1).1
    have hr : rd src1 k = .ok l[k] := by
      unfold rd
      rw [hk1]
    refine ⟨src1.set k (some (Movable.movedFrom l[k])), ?_, ?_, ?_⟩
    · rw [moveConstructAll, e1]
      simp only []
      unfold moveFrom
      rw [hr]
      simp only []
      unfold construct
      have hlen : ((l.take k).map some).length = k := by simp; omega
      rw [if_pos (by simp; omega)]
      rw [List.set_append_right _ _ (by omega), hlen, Nat.sub_self]
      have e : m - k = (m - (k + 1)) + 1 := by omega
      rw [e, List.replicate_succ, List.set_cons_zero, List.take_succ,
        List.getElem?_eq_getElem (by omega : k < l.length)]
      simp only [Option.toList, List.map_append, List.map_cons, List.map_nil,
        List.append_assoc, List.singleton_append]
    · intro j hj
      by_cases hjk : j = k
      · subst hjk
        exact ⟨_, List.getElem?_set_self hlen1⟩
      · rw [List.getElem?_set_ne (fun e => hjk e.symm)]
        exact e2 j (by omega)
    · intro j hj
      rw [List.getElem?_set_ne (by omega), e3 j (by omega)]

theorem destroyAll_ok {α : Type} :
    ∀ (k : Nat) (d : List (Option α)), (∀ i, i < k → ∃ v, d[i]? = some (some v)) →
      ∃ d1, destroyAll k d = .ok d1 ∧ ∀ j, k ≤ j → d1[j]? = d[j]?
  | 0, d, _ => ⟨d, rfl, fun _ _ => rfl⟩
  | k + 1, d, h => by
    obtain ⟨d1, e1, e2⟩ := destroyAll_ok k d (fun i hi => h i (by omega))
    obtain ⟨v, hv⟩ := h k (by omega)
    have hr : rd d1 k = .ok v := by
      unfold rd
      rw [e2 k (Nat.le_refl k), hv]
    refine ⟨d1.set k none, ?_, ?_⟩
    · rw [destroyAll, e1]
      simp only []
      unfold destroy
      rw [hr]
    · intro j hj
      rw [List.getElem?_set_ne (by omega), e2 j (by omega)]

theorem grow_spec {α : Type} [Movable α] {h : Heap α} {l : List α} {rest : List (Option α)}
    (hd : h.data = l.map some ++ rest) (hl : l.length = h.size_)
    (hle : h.size_ ≤ h.capacity_) :
    grow h = .ok { h with
      data := l.map some ++
        List.replicate ((if h.capacity_ = 0 then 1 else h.capacity_ * 2) - h.size_) none,
      capacity_ := if h.capacity_ = 0 then 1 else h.capacity_ * 2 } := by
  have hcap : h.size_ ≤ (if h.capacity_ = 0 then 1 else h.capacity_ * 2) := by
    split <;> omega
  obtain ⟨src1, e1, e2, _⟩ :=
    moveConstructAll_on_live l rest _ h.size_ (by omega) hcap
  obtain ⟨d1, f1, _⟩ := destroyAll_ok h.size_ src1 e2
  unfold grow
  simp only []
  rw [hd, e1]
  simp only []
  rw [f1]
  simp only []
  rw [← hl, List.take_length]

/-! ## Insertion -/

theorem construct_on_live {α : Type} (l : List α) (x : Option α) (rest : List (Option α))
    (v : α) :
    construct (l.map some ++ x :: rest) l.length v = .ok ((l ++ [v]).map some ++ rest) := by
  unfold construct
  rw [if_pos (by simp), List.set_append_right _ _ (by simp)]
  simp

theorem upInv_append {α : Type} {comp : α → α → Bool} {l : List α} (v : α)
    (hl : HeapL comp l) : UpInv comp (l ++ [v]) l.length := by
  constructor
  · intro i p c hi0 hne hp hc
    have hi : i < (l ++ [v]).length := (List.getElem?_eq_some.1 hc).1
    simp only [List.length_append, List.length_singleton] at hi
    rw [List.getElem?_append_left (by omega)] at hp hc
    exact hl i p c hi0 hp hc
  · intro i g c hi0 _ hpar _ hc
    have hi : i < (l ++ [v]).length := (List.getElem?_eq_some.1 hc).1
    simp only [List.length_append, List.length_singleton] at hi
    omega

theorem heapifyUp_append_spec {α : Type} [Movable α] (comp : α → α → Bool) (l : List α) (v : α)
    (rest : List (Option α)) :
    ∃ l1, heapifyUp comp l.length ((l ++ [v]).map some ++ rest) = .ok (l1.map some ++ rest) ∧
      l1.length = l.length + 1 ∧ l1.Perm (v :: l) ∧
      (StrictWeakOrder comp → HeapL comp l → HeapL comp l1) := by
  obtain ⟨l1, e1, e2, e3, e4⟩ :=
    heapifyUpLoop_spec comp rest (l.length + 1) l.length (l ++ [v]) (by omega) (by simp)
  refine ⟨l1, e1, by simpa using e2, e3.trans ?_, fun hc hl => e4 hc (upInv_append v hl)⟩
  exact List.perm_append_comm

theorem insertLast_spec {α : Type} [Movable α] (h0 : Heap α) (l : List α) (x : Option α)
    (rest0 : List (Option α)) (v : α) (hd0 : h0.data = l.map some ++ x :: rest0)
    (hl : l.length = h0.size_) (hcap0 : l.length + (rest0.length + 1) = h0.capacity_) :
    ∃ h1 : Heap α, insertLast v h0 = .ok h1 ∧ h1.WF ∧ h1.size_ = h0.size_ + 1 ∧
      h1.comp = h0.comp ∧ h1.capacity_ = h0.capacity_ ∧ h1.live.Perm (v :: l) ∧
      (StrictWeakOrder h0.comp → HeapL h0.comp l → h1.Inv) := by
  obtain ⟨l1, e1, e2, e3, e4⟩ := heapifyUp_append_spec h0.comp l v rest0
  refine ⟨{ h0 with data := l1.map some ++ rest0, size_ := h0.size_ + 1 }, ?_, ?_, ?_, rfl,
    rfl, ?_, ?_⟩
  · unfold insertLast
    rw [hd0, ← hl, construct_on_live]
    simp only []
    rw [e1]
  · exact Heap.wf_of_decomp _ l1 rest0 rfl (by simp only []; omega)
      (by simp only []; omega)
  · rfl
  · rw [Heap.live_eq { h0 with data := l1.map some ++ rest0, size_ := h0.size_ + 1 }
      l1 rest0 rfl (by simp only []; omega)]
    exact e3
  · intro hc hi
    rw [Heap.inv_iff { h0 with data := l1.map some ++ rest0, size_ := h0.size_ + 1 }
      l1 rest0 rfl (by simp only []; omega)]
    exact e4 hc hi

theorem pushCore_spec {α : Type} [Movable α] {h : Heap α} (hw : h.WF) (v : α) :
    ∃ h1 : Heap α, pushCore v h = .ok h1 ∧ h1.WF ∧ h1.size_ = h.size_ + 1 ∧
      h1.comp = h.comp ∧
      h1.capacity_ = (if h.size_ = h.capacity_ then
        (if h.capacity_ = 0 then 1 else h.capacity_ * 2) else h.capacity_) ∧
      h1.live.Perm (v :: h.live) ∧ (StrictWeakOrder h.comp → h.Inv → h1.Inv) := by
  obtain ⟨l, rest, hd, hl, hcap⟩ := hw.decomp
  have hlive := Heap.live_eq h l rest hd hl
  have hinv := Heap.inv_iff h l rest hd hl
  unfold pushCore
  by_cases hfull : h.size_ = h.capacity_
  · rw [if_pos hfull, grow_spec hd hl (by omega)]
    simp only []
    have hpos : 0 < (if h.capacity_ = 0 then 1 else h.capacity_ * 2) - h.size_ := by
      split <;> omega
    obtain ⟨k, hk⟩ : ∃ k, (if h.capacity_ = 0 then 1 else h.capacity_ * 2) - h.size_ = k + 1 :=
      ⟨_, (Nat.succ_pred_eq_of_pos hpos).symm⟩
    obtain ⟨h1, f1, f2, f3, f4, f5, f6, f7⟩ :=
      insertLast_spec { h with
        data := l.map some ++
          List.replicate ((if h.capacity_ = 0 then 1 else h.capacity_ * 2) - h.size_) none,
        capacity_ := if h.capacity_ = 0 then 1 else h.capacity_ * 2 } l none
        (List.replicate k none) v (by simp only []; rw [hk, List.replicate_succ]) hl
        (by simp only [List.length_replicate]; omega)
    refine ⟨h1, f1, f2, f3, f4, ?_, ?_, fun hc hi => f7 hc (hinv.1 hi)⟩
    · rw [f5, if_pos hfull]
    · rw [hlive]; exact f6
  · rw [if_neg hfull]
    simp only []
    have hlen : 0 < rest.length := by have := hw.2.1; omega
    obtain ⟨x, rest0, hr⟩ : ∃ x rest0, rest = x :: rest0 := by
      cases rest with
      | nil => simp at hlen
      | cons x r => exact ⟨x, r, rfl⟩
    subst hr
    obtain ⟨h1, f1, f2, f3, f4, f5, f6, f7⟩ :=
      insertLast_spec h l x rest0 v hd hl (by simpa using hcap)
    refine ⟨h1, f1, f2, f3, f4, ?_, ?_, fun hc hi => f7 hc (hinv.1 hi)⟩
    · rw [f5, if_neg hfull]
    · rw [hlive]; exact f6

/-! ## Removal -/

theorem moveAssign_on_live {α : Type} [Movable α] {l : List α} {rest : List (Option α)}
    {i j : Nat} {a b : α} (ha : l[i]? = some a) (hb : l[j]? = some b) :
    moveAssign (l.map some ++ rest) i j =
      .ok (((l.set i b).set j (Movable.movedFrom b)).map some ++ rest) := by
  have hi : i < l.length := (List.getElem?_eq_some.1 ha).1
  have hj : j < l.length := (List.getElem?_eq_some.1 hb).1
  unfold moveAssign
  rw [rd_on_live ha, rd_on_live hb]
  simp only [List.map_set]
  rw [List.set_append_left _ _ (by simpa using hi),
    List.set_append_left _ _ (by simpa using hj)]

theorem dropLast_set_last {α : Type} (l : List α) (x : α) :
    (l.set (l.length - 1) x).dropLast = l.dropLast := by
  apply List.ext_getElem?
  intro k
  rw [List.getElem?_dropLast, List.getElem?_dropLast, List.length_set]
  by_cases hk : k < l.length - 1
  · rw [if_pos hk, if_pos hk, List.getElem?_set_ne (by omega)]
  · rw [if_neg hk, if_neg hk]

theorem destroy_last_on_live {α : Type} (l : List α) (rest : List (Option α))
    (hne : l ≠ []) :
    destroy (l.map some ++ rest) (l.length - 1) = .ok (l.dropLast.map some ++ none :: rest) := by
  have hpos : 0 < l.length := List.length_pos.2 hne
  unfold destroy
  rw [rd_on_live (List.getElem?_eq_getElem (by omega : l.length - 1 < l.length))]
  simp only []
  congr 1
  apply List.ext_getElem?
  intro k
  rw [List.getElem?_set, List.getElem?_append, List.getElem?_append]
  simp only [List.length_map, List.length_append, List.length_dropLast, List.getElem?_map,
    List.getElem?_dropLast]
  by_cases h1 : k < l.length - 1
  · rw [if_neg (by omega), if_pos (by omega), if_pos h1, if_pos h1]
  · rw [if_neg h1]
    by_cases h2 : k = l.length - 1
    · subst h2
      rw [if_pos rfl, if_pos (by omega)]
      simp
    · rw [if_neg (fun e => h2 e.symm), if_neg (by omega)]
      have e : k - (l.length - 1) = (k - l.length) + 1 := by omega
      rw [e, List.getElem?_cons_succ]

theorem root_replaced_perm {α : Type} {l : List α} {a0 last : α} (h0 : l[0]? = some a0)
    (hlast : l[l.length - 1]? = some last) : (a0 :: (l.set 0 last).dropLast).Perm l := by
  cases l with
  | nil => simp at h0
  | cons x t =>
    simp only [List.getElem?_cons_zero, Option.some.injEq] at h0
    subst h0
    cases t with
    | nil => simp
    | cons y t =>
      have hl : (y :: t)[(y :: t).length - 1]? = some last := by
        simpa using hlast
      rw [← List.getLast?_eq_getElem?] at hl
      have hd := List.dropLast_append_getLast? last hl
      simp only [List.set_cons_zero, List.dropLast_cons₂]
      refine List.Perm.cons x ?_
      have hp : (last :: (y :: t).dropLast).Perm ((y :: t).dropLast ++ [last]) := by
        simpa using (@List.perm_append_comm _ [last] (y :: t).dropLast)
      rw [hd] at hp
      exact hp

theorem downInv_root_replaced {α : Type} {comp : α → α → Bool} {l : List α} (last : α)
    (hl : HeapL comp l) : DownInv comp (l.set 0 last).dropLast 0 := by
  constructor
  · intro i p c hi0 hpar hp hc
    rw [List.getElem?_dropLast] at hp hc
    by_cases h1 : i < (l.set 0 last).length - 1
    · rw [if_pos h1, List.getElem?_set_ne (by omega)] at hc
      rw [if_pos (by omega), List.getElem?_set_ne (by omega)] at hp
      exact hl i p c hi0 hp hc
    · rw [if_neg h1] at hc
      cases hc
  · intro i g c _ h0
    omega

/-- Normal form of the removal on a state whose live elements are `l`: the sift-down runs on
`l` with its root replaced by its last element and its last slot destroyed. -/
theorem removeRoot_eq {α : Type} [Movable α] (h : Heap α) (l : List α)
    (rest : List (Option α)) (hd : h.data = l.map some ++ rest) (hl : l.length = h.size_)
    (hpos : 0 < h.size_) {last : α} (hlast : l[l.length - 1]? = some last) :
    removeRoot h =
      match (if h.size_ - 1 > 0 then
          heapifyDown h.comp (h.size_ - 1) 0 ((l.set 0 last).dropLast.map some ++ none :: rest)
        else Except.ok ((l.set 0 last).dropLast.map some ++ none :: rest)) with
      | Except.error f => Except.error f
      | Except.ok d3 => Except.ok { h with data := d3, size_ := h.size_ - 1 } := by
  obtain ⟨a0, ha0⟩ : ∃ a0, l[0]? = some a0 := ⟨_, List.getElem?_eq_getElem (by omega)⟩
  have hne : (l.set 0 last).set (l.length - 1) (Movable.movedFrom last) ≠ [] := by
    intro e
    have := congrArg List.length e
    simp only [List.length_set, List.length_nil] at this
    omega
  have e1 : moveAssign h.data 0 (h.size_ - 1) =
      .ok (((l.set 0 last).set (l.length - 1) (Movable.movedFrom last)).map some ++ rest) := by
    rw [hd, ← hl]
    exact moveAssign_on_live ha0 hlast
  have e2 : destroy (((l.set 0 last).set (l.length - 1) (Movable.movedFrom last)).map some
      ++ rest) (h.size_ - 1) = .ok ((l.set 0 last).dropLast.map some ++ none :: rest) := by
    have := destroy_last_on_live _ rest hne
    rw [List.length_set, List.length_set] at this
    rw [← hl, this]
    have e3 := dropLast_set_last (l.set 0 last) (Movable.movedFrom last)
    rw [List.length_set] at e3
    rw [e3]
  unfold removeRoot
  rw [e1]
  simp only []
  rw [e2]

theorem removeRoot_spec {α : Type} [Movable α] {h : Heap α} (hw : h.WF) (hpos : 0 < h.size_) :
    ∃ (h1 : Heap α) (a0 : α), removeRoot h = .ok h1 ∧ rd h.data 0 = .ok a0 ∧ h1.WF ∧
      h1.size_ = h.size_ - 1 ∧ h1.capacity_ = h.capacity_ ∧ h1.comp = h.comp ∧
      (a0 :: h1.live).Perm h.live ∧ (StrictWeakOrder h.comp → h.Inv → h1.Inv) := by
  obtain ⟨l, rest, hd, hl, hcap⟩ := hw.decomp
  have hlive := Heap.live_eq h l rest hd hl
  have hinv := Heap.inv_iff h l rest hd hl
  obtain ⟨a0, ha0⟩ : ∃ a0, l[0]? = some a0 := ⟨_, List.getElem?_eq_getElem (by omega)⟩
  obtain ⟨last, hlast⟩ : ∃ last, l[l.length - 1]? = some last :=
    ⟨_, List.getElem?_eq_getElem (by omega)⟩
  have hlen2 : (l.set 0 last).dropLast.length = h.size_ - 1 := by
    simp only [List.length_dropLast, List.length_set]; omega
  have hperm := root_replaced_perm ha0 hlast
  have fin : ∀ l3 : List α, l3.length = h.size_ - 1 → l3.Perm (l.set 0 last).dropLast →
      (StrictWeakOrder h.comp → h.Inv → HeapL h.comp l3) →
      ({ h with data := l3.map some ++ none :: rest, size_ := h.size_ - 1 } : Heap α).WF ∧
      (a0 :: ({ h with data := l3.map some ++ none :: rest,
                       size_ := h.size_ - 1 } : Heap α).live).Perm h.live ∧
      (StrictWeakOrder h.comp → h.Inv →
        ({ h with data := l3.map some ++ none :: rest, size_ := h.size_ - 1 } : Heap α).Inv) := by
    intro l3 hl3 hp3 hi3
    refine ⟨Heap.wf_of_decomp _ l3 (none :: rest) rfl hl3 ?_, ?_, ?_⟩
    · simp only [List.length_cons]; omega
    · rw [Heap.live_eq _ l3 (none :: rest) rfl hl3, hlive]
      exact (hp3.cons a0).trans hperm
    · intro hc hi
      rw [Heap.inv_iff _ l3 (none :: rest) rfl hl3]
      exact hi3 hc hi
  rw [removeRoot_eq h l rest hd hl hpos hlast]
  by_cases hgt : h.size_ - 1 > 0
  · rw [if_pos hgt]
    obtain ⟨l3, f1, f2, f3, f4⟩ :=
      heapifyDownLoop_spec h.comp (none :: rest) (h.size_ - 1) (h.size_ - 1 + 1) 0
        (l.set 0 last).dropLast hlen2 hgt (by omega)
    obtain ⟨g1, g2, g3⟩ := fin l3 (by omega) f3
      (fun hc hi => f4 hc (downInv_root_replaced last (hinv.1 hi)))
    unfold heapifyDown
    rw [f1]
    exact ⟨_, a0, rfl, by rw [hd]; exact rd_on_live ha0, g1, rfl, rfl, rfl, g2, g3⟩
  · rw [if_neg hgt]
    have hnil : (l.set 0 last).dropLast = [] := List.length_eq_zero.1 (by omega)
    obtain ⟨g1, g2, g3⟩ := fin (l.set 0 last).dropLast hlen2 (List.Perm.refl _)
      (fun _ _ => by
        rw [hnil]
        intro i p c _ _ hc
        simp at hc)
    exact ⟨_, a0, rfl, by rw [hd]; exact rd_on_live ha0, g1, rfl, rfl, rfl, g2, g3⟩

/-- The removal does not depend on the value the root slot holds: `popTop` runs it after the
root has been moved from, `pop` on the state as it is. -/
theorem removeRoot_moved_root {α : Type} [Movable α] {h : Heap α} (hw : h.WF)
    (hpos : 0 < h.size_) (x : α) :
    removeRoot { h with data := h.data.set 0 (some x) } = removeRoot h := by
  obtain ⟨l, rest, hd, hl, hcap⟩ := hw.decomp
  obtain ⟨last, hlast⟩ : ∃ last, l[l.length - 1]? = some last :=
    ⟨_, List.getElem?_eq_getElem (by omega)⟩
  have hd0 : h.data.set 0 (some x) = (l.set 0 x).map some ++ rest := by
    rw [hd, List.map_set, List.set_append_left _ _ (by simp; omega)]
  rw [removeRoot_eq h l rest hd hl hpos hlast]
  by_cases h1 : l.length = 1
  · have hz : h.size_ - 1 = 0 := by omega
    have hlast0 : (l.set 0 x)[(l.set 0 x).length - 1]? = some x := by
      rw [List.length_set, h1]
      exact List.getElem?_set_self (by omega)
    rw [removeRoot_eq { h with data := h.data.set 0 (some x) } (l.set 0 x) rest hd0
      (by simpa using hl) hpos hlast0]
    simp only []
    rw [if_neg (by omega), if_neg (by omega)]
    have n1 : ((l.set 0 x).set 0 x).dropLast = [] :=
      List.length_eq_zero.1 (by simp only [List.length_dropLast, List.length_set]; omega)
    have n2 : (l.set 0 last).dropLast = [] :=
      List.length_eq_zero.1 (by simp only [List.length_dropLast, List.length_set]; omega)
    rw [n1, n2]
  · have hlast0 : (l.set 0 x)[(l.set 0 x).length - 1]? = some last := by
      rw [List.length_set, List.getElem?_set_ne (by omega)]
      exact hlast
    rw [removeRoot_eq { h with data := h.data.set 0 (some x) } (l.set 0 x) rest hd0
      (by simpa using hl) hpos hlast0]
    simp only []
    rw [List.set_set]

/-! ## The public member functions on well-formed states -/

theorem Heap.new_wf {α : Type} (cap : Nat) (c : α → α → Bool) : (Heap.new cap c).WF :=
  ⟨by simp [Heap.new], Nat.zero_le _, fun i hi => absurd hi (Nat.not_lt_zero i)⟩

theorem Heap.new_inv {α : Type} (cap : Nat) (c : α → α → Bool) : (Heap.new cap c).Inv :=
  fun i _ hi => absurd hi (Nat.not_lt_zero i)

theorem Heap.new_live {α : Type} (cap : Nat) (c : α → α → Bool) : (Heap.new cap c).live = [] := by
  simp [Heap.new, Heap.live]

theorem Heap.WF.live_length {α : Type} {h : Heap α} (hw : h.WF) : h.live.length = h.size_ := by
  obtain ⟨l, rest, hd, hl, _⟩ := hw.decomp
  rw [Heap.live_eq h l rest hd hl, hl]

theorem push_spec {α : Type} [Movable α] {h : Heap α} (hw : h.WF) (v : α) :
    ∃ h1 : Heap α, push v h = .returned () h1 ∧ h1.WF ∧ h1.size_ = h.size_ + 1 ∧
      h1.comp = h.comp ∧
      h1.capacity_ = (if h.size_ = h.capacity_ then
        (if h.capacity_ = 0 then 1 else h.capacity_ * 2) else h.capacity_) ∧
      h1.live.Perm (v :: h.live) ∧ (StrictWeakOrder h.comp → h.Inv → h1.Inv) := by
  obtain ⟨h1, e, rest⟩ := pushCore_spec hw v
  refine ⟨h1, ?_, rest⟩
  unfold push
  rw [e]

theorem pop_spec {α : Type} [Movable α] {h : Heap α} (hw : h.WF) (hpos : 0 < h.size_) :
    ∃ (h1 : Heap α) (a0 : α), pop h = .returned () h1 ∧ rd h.data 0 = .ok a0 ∧ h1.WF ∧
      h1.size_ = h.size_ - 1 ∧ h1.capacity_ = h.capacity_ ∧ h1.comp = h.comp ∧
      (a0 :: h1.live).Perm h.live ∧ (StrictWeakOrder h.comp → h.Inv → h1.Inv) := by
  obtain ⟨h1, a0, e, rest⟩ := removeRoot_spec hw hpos
  refine ⟨h1, a0, ?_, rest⟩
  unfold pop
  rw [if_neg (by omega), e]

theorem popTop_spec {α : Type} [Movable α] {h : Heap α} (hw : h.WF) (hpos : 0 < h.size_) :
    ∃ (h1 : Heap α) (a0 : α), popTop h = .returned a0 h1 ∧ pop h = .returned () h1 ∧
      rd h.data 0 = .ok a0 ∧ h1.WF ∧
      h1.size_ = h.size_ - 1 ∧ h1.capacity_ = h.capacity_ ∧ h1.comp = h.comp ∧
      (a0 :: h1.live).Perm h.live ∧ (StrictWeakOrder h.comp → h.Inv → h1.Inv) := by
  obtain ⟨h1, a0, e, e0, rest⟩ := removeRoot_spec hw hpos
  refine ⟨h1, a0, ?_, ?_, e0, rest⟩
  · unfold popTop moveFrom
    rw [if_neg (by omega), e0]
    simp only []
    rw [removeRoot_moved_root hw hpos, e]
  · unfold pop
    rw [if_neg (by omega), e]

theorem heapL_root_max {α : Type} {comp : α → α → Bool} (hc : StrictWeakOrder comp)
    {l : List α} (hl : HeapL comp l) {t : α} (h0 : l[0]? = some t) :
    ∀ (i : Nat) (x : α), l[i]? = some x → comp t x = false := by
  intro i
  induction i using Nat.strong_induction_on with
  | _ i ih =>
    intro x hx
    by_cases hi : i = 0
    · subst hi
      rw [h0] at hx
      cases hx
      exact hc.irrefl _
    · have hlen : i < l.length := (List.getElem?_eq_some.1 hx).1
      obtain ⟨y, hy⟩ : ∃ y, l[(i - 1) / 2]? = some y :=
        ⟨_, List.getElem?_eq_getElem (by omega)⟩
      exact hc.negTrans (ih ((i - 1) / 2) (by omega) y hy) (hl i y x (by omega) hy hx)

theorem top_spec {α : Type} {h : Heap α} (hw : h.WF) (hpos : 0 < h.size_) :
    ∃ t : α, top h = .returned t h ∧ rd h.data 0 = .ok t ∧ t ∈ h.live ∧
      (StrictWeakOrder h.comp → h.Inv → ∀ x ∈ h.live, h.comp t x = false) := by
  obtain ⟨l, rest, hd, hl, _⟩ := hw.decomp
  obtain ⟨t, ht⟩ : ∃ t, l[0]? = some t := ⟨_, List.getElem?_eq_getElem (by omega)⟩
  have hr : rd h.data 0 = .ok t := by rw [hd]; exact rd_on_live ht
  refine ⟨t, ?_, hr, ?_, ?_⟩
  · unfold top
    rw [if_neg (by omega), hr]
  · rw [Heap.live_eq h l rest hd hl]
    exact List.getElem?_mem ht
  · intro hc hi x hx
    rw [Heap.live_eq h l rest hd hl] at hx
    obtain ⟨i, hix⟩ := List.getElem?_of_mem hx
    exact heapL_root_max hc ((Heap.inv_iff h l rest hd hl).1 hi) ht i x hix

/-! ## Call sequences -/

theorem pushAll_spec {α : Type} [Movable α] :
    ∀ (xs : List α) (h : Heap α), h.WF →
      ∃ h1 : Heap α, pushAll xs h = some h1 ∧ h1.WF ∧ h1.size_ = h.size_ + xs.length ∧
        h1.comp = h.comp ∧ h1.live.Perm (xs ++ h.live) ∧
        (StrictWeakOrder h.comp → h.Inv → h1.Inv)
  | [], h, hw => ⟨h, rfl, hw, rfl, rfl, List.Perm.refl _, fun _ hi => hi⟩
  | x :: xs, h, hw => by
    obtain ⟨h1, e1, w1, s1, c1, _, p1, i1⟩ := push_spec hw x
    obtain ⟨h2, e2, w2, s2, c2, p2, i2⟩ := pushAll_spec xs h1 w1
    refine ⟨h2, ?_, w2, ?_, c2.trans c1, ?_, ?_⟩
    · rw [pushAll, e1]
      exact e2
    · rw [s2, s1, List.length_cons]; omega
    · refine p2.trans ((List.Perm.append_left xs p1).trans ?_)
      exact List.perm_middle
    · intro hc hi
      exact i2 (c1 ▸ hc) (i1 hc hi)

theorem applyOp_spec {α : Type} [Movable α] {h : Heap α} (hw : h.WF) (op : Op α) :
    ∃ h1 : Heap α, applyOp h op = some h1 ∧ h1.WF ∧ h1.comp = h.comp ∧
      (StrictWeakOrder h.comp → h.Inv → h1.Inv) := by
  cases op with
  | push v =>
    obtain ⟨h1, e1, w1, _, c1, _, _, i1⟩ := push_spec hw v
    exact ⟨h1, by rw [applyOp, e1]; rfl, w1, c1, i1⟩
  | pop =>
    by_cases hz : h.size_ = 0
    · refine ⟨h, ?_, hw, rfl, fun _ hi => hi⟩
      rw [applyOp, pop, if_pos hz]
      rfl
    · obtain ⟨h1, _, e1, _, w1, _, _, c1, _, i1⟩ := pop_spec hw (by omega)
      exact ⟨h1, by rw [applyOp, e1]; rfl, w1, c1, i1⟩
  | popTop =>
    by_cases hz : h.size_ = 0
    · refine ⟨h, ?_, hw, rfl, fun _ hi => hi⟩
      rw [applyOp, popTop, if_pos hz]
      rfl
    · obtain ⟨h1, _, e1, _, _, w1, _, _, c1, _, i1⟩ := popTop_spec hw (by omega)
      exact ⟨h1, by rw [applyOp, e1]; rfl, w1, c1, i1⟩

theorem applyOps_spec {α : Type} [Movable α] :
    ∀ (ops : List (Op α)) (h : Heap α), h.WF →
      ∃ h1 : Heap α, applyOps ops h = some h1 ∧ h1.WF ∧ h1.comp = h.comp ∧
        (StrictWeakOrder h.comp → h.Inv → h1.Inv)
  | [], h, hw => ⟨h, rfl, hw, rfl, fun _ hi => hi⟩
  | op :: ops, h, hw => by
    obtain ⟨h1, e1, w1, c1, i1⟩ := applyOp_spec hw op
    obtain ⟨h2, e2, w2, c2, i2⟩ := applyOps_spec ops h1 w1
    refine ⟨h2, ?_, w2, c2.trans c1, fun hc hi => i2 (c1 ▸ hc) (i1 hc hi)⟩
    rw [applyOps, e1]
    exact e2

theorem popTopN_spec {α : Type} [Movable α] :
    ∀ (n : Nat) (h : Heap α), h.WF → h.size_ = n →
      ∃ (ys : List α) (h1 : Heap α), popTopN n h = some (ys, h1) ∧ h1.WF ∧ h1.size_ = 0 ∧
        ys.Perm h.live ∧
        (StrictWeakOrder h.comp → h.Inv → ys.Pairwise (fun a b => h.comp a b = false))
  | 0, h, hw, hn => by
    refine ⟨[], h, rfl, hw, hn, ?_, fun _ _ => List.Pairwise.nil⟩
    have hlen := hw.live_length
    have hnil : h.live = [] := List.length_eq_zero.1 (by omega)
    rw [hnil]
  | n + 1, h, hw, hn => by
    obtain ⟨h1, a0, e1, _, r0, w1, s1, _, c1, p1, i1⟩ := popTop_spec hw (by omega)
    obtain ⟨t, _, rt, _, ht⟩ := top_spec hw (by omega)
    obtain ⟨ys, h2, e2, w2, s2, p2, i2⟩ := popTopN_spec n h1 w1 (by omega)
    refine ⟨a0 :: ys, h2, ?_, w2, s2, (p2.cons a0).trans p1, ?_⟩
    · rw [popTopN, e1]
      simp only []
      rw [e2]
    · intro hc hi
      have hta : t = a0 := by
        rw [rt] at r0
        exact Except.ok.inj r0
      subst hta
      refine List.Pairwise.cons ?_ (c1 ▸ i2 (c1 ▸ hc) (i1 hc hi))
      intro y hy
      exact ht hc hi y (p1.subset (List.mem_cons_of_mem _ (p2.subset hy)))

theorem strictWeakOrder_lessInt : StrictWeakOrder lessInt where
  irrefl := fun a => by simp [lessInt]
  trans := fun a b c h1 h2 => by
    simp only [lessInt, decide_eq_true_eq] at *
    omega
  incomp_trans := fun a b c h1 h2 h3 h4 => by
    simp only [lessInt, decide_eq_false_iff_not, decide_eq_true_eq] at *
    omega

theorem strictWeakOrder_greaterInt : StrictWeakOrder greaterInt where
  irrefl := fun a => by simp [greaterInt]
  trans := fun a b c h1 h2 => by
    simp only [greaterInt, decide_eq_true_eq] at *
    omega
  incomp_trans := fun a b c h1 h2 h3 h4 => by
    simp only [greaterInt, decide_eq_false_iff_not, decide_eq_true_eq] at *
    omega

/-! ## Sample states -/

theorem sampleHeap_reached : pushAll [10, 5, 20] (Heap.new 0 lessInt) = some sampleHeap := rfl

theorem sampleHeap_wf : sampleHeap.WF :=
  Heap.wf_of_decomp sampleHeap [20, 5, 10] [none] rfl rfl rfl

theorem sampleHeap_inv : sampleHeap.Inv := by
  rw [Heap.inv_iff sampleHeap [20, 5, 10] [none] rfl rfl]
  intro i p c hi0 hp hc
  have hi : i < 3 := (List.getElem?_eq_some.1 hc).1
  have h12 : i = 1 ∨ i = 2 := by omega
  rcases h12 with e | e <;> subst e <;> simp at hp hc <;> subst hp <;> subst hc <;> decide

/-! ## Heap invariant -/

/-- C1: `push` preserves the heap invariant.  For a strict weak ordering, a well-formed state
(`size_ ≤ capacity_`) that satisfies the invariant and any value `v`, the call `push(v)`
returns, the new state has `size_ + 1` live elements and satisfies the invariant; and any
sequence of pushes on a newly constructed heap ends in a state that satisfies it. -/
theorem push_preserves_invariant {α : Type} [Movable α] (h : Heap α) (v : α) (vs : List α)
    (cap : Nat) (hc : StrictWeakOrder h.comp) (hw : h.WF) (hi : h.Inv) :
    (∃ h1 : Heap α, push v h = .returned () h1 ∧ h1.WF ∧ h1.size_ = h.size_ + 1 ∧ h1.Inv) ∧
    (∃ h2 : Heap α, pushAll vs (Heap.new cap h.comp) = some h2 ∧ h2.WF ∧
      h2.size_ = vs.length ∧ h2.Inv) := by
  constructor
  · obtain ⟨h1, e1, w1, s1, _, _, _, i1⟩ := push_spec hw v
    exact ⟨h1, e1, w1, s1, i1 hc hi⟩
  · obtain ⟨h2, e2, w2, s2, _, _, i2⟩ := pushAll_spec vs (Heap.new cap h.comp) (Heap.new_wf _ _)
    refine ⟨h2, e2, w2, ?_, i2 hc (Heap.new_inv _ _)⟩
    rw [s2]
    exact Nat.zero_add _

theorem push_preserves_invariant_witness :
    StrictWeakOrder sampleHeap.comp ∧ sampleHeap.WF ∧ sampleHeap.Inv ∧
    ((∃ h1 : Heap Int, push 30 sampleHeap = .returned () h1 ∧ h1.WF ∧
        h1.size_ = sampleHeap.size_ + 1 ∧ h1.Inv) ∧
     (∃ h2 : Heap Int, pushAll [1, 2, 3] (Heap.new 0 sampleHeap.comp) = some h2 ∧ h2.WF ∧
        h2.size_ = [1, 2, 3].length ∧ h2.Inv)) :=
  ⟨strictWeakOrder_lessInt, sampleHeap_wf, sampleHeap_inv,
    push_preserves_invariant sampleHeap 30 [1, 2, 3] 0 strictWeakOrder_lessInt sampleHeap_wf
      sampleHeap_inv⟩

/-- C2: `pop` and `popTop` preserve the heap invariant.  For a strict weak ordering and a
non-empty well-formed state that satisfies the invariant, each of the two calls returns and
the new state has `size_ - 1` live elements and satisfies the invariant. -/
theorem pop_popTop_preserve_invariant {α : Type} [Movable α] (h : Heap α)
    (hc : StrictWeakOrder h.comp) (hw : h.WF) (hpos : 0 < h.size_) (hi : h.Inv) :
    (∃ h1 : Heap α, pop h = .returned () h1 ∧ h1.WF ∧ h1.size_ = h.size_ - 1 ∧ h1.Inv) ∧
    (∃ (t : α) (h2 : Heap α), popTop h = .returned t h2 ∧ h2.WF ∧ h2.size_ = h.size_ - 1 ∧
      h2.Inv) := by
  constructor
  · obtain ⟨h1, _, e1, _, w1, s1, _, _, _, i1⟩ := pop_spec hw hpos
    exact ⟨h1, e1, w1, s1, i1 hc hi⟩
  · obtain ⟨h1, t, e1, _, _, w1, s1, _, _, _, i1⟩ := popTop_spec hw hpos
    exact ⟨t, h1, e1, w1, s1, i1 hc hi⟩

theorem pop_popTop_preserve_invariant_witness :
    StrictWeakOrder sampleHeap.comp ∧ sampleHeap.WF ∧ 0 < sampleHeap.size_ ∧ sampleHeap.Inv ∧
    ((∃ h1 : Heap Int, pop sampleHeap = .returned () h1 ∧ h1.WF ∧
        h1.size_ = sampleHeap.size_ - 1 ∧ h1.Inv) ∧
     (∃ (t : Int) (h2 : Heap Int), popTop sampleHeap = .returned t h2 ∧ h2.WF ∧
        h2.size_ = sampleHeap.size_ - 1 ∧ h2.Inv)) :=
  ⟨strictWeakOrder_lessInt, sampleHeap_wf, by decide, sampleHeap_inv,
    pop_popTop_preserve_invariant sampleHeap strictWeakOrder_lessInt sampleHeap_wf (by decide)
      sampleHeap_inv⟩

/-! ## Extremum and sorted extraction -/

theorem top_after_ops {α : Type} [Movable α] (comp : α → α → Bool) (cap : Nat)
    (ops : List (Op α)) (hc : StrictWeakOrder comp) :
    ∃ h : Heap α, applyOps ops (Heap.new cap comp) = some h ∧
      (h.size_ = 0 ∨ ∃ t : α, top h = .returned t h ∧ t ∈ h.live ∧
        ∀ x ∈ h.live, comp t x = false) := by
  obtain ⟨h, e, w, c, i⟩ := applyOps_spec ops (Heap.new cap comp) (Heap.new_wf _ _)
  refine ⟨h, e, ?_⟩
  by_cases hz : h.size_ = 0
  · exact Or.inl hz
  · obtain ⟨t, e1, _, m1, x1⟩ := top_spec w (by omega)
    have hc1 : StrictWeakOrder h.comp := by rw [c]; exact hc
    have hx := x1 hc1 (i hc (Heap.new_inv _ _))
    rw [c] at hx
    exact Or.inr ⟨t, e1, m1, hx⟩

/-- C3: extremum correctness.  For a strict weak ordering, any sequence of `push`, `pop` and
`popTop` calls on a newly constructed heap ends in a state on which, when it is not empty,
`top()` returns a live element `t` with `comp(t, x)` false for every live `x`; with
`std::less<int>` the returned element is the maximum of the live elements. -/
theorem top_is_extremum {α : Type} [Movable α] (comp : α → α → Bool) (cap : Nat)
    (ops : List (Op α)) (capZ : Nat) (opsZ : List (Op Int)) (hc : StrictWeakOrder comp) :
    (∃ h : Heap α, applyOps ops (Heap.new cap comp) = some h ∧
      (h.size_ = 0 ∨ ∃ t : α, top h = .returned t h ∧ t ∈ h.live ∧
        ∀ x ∈ h.live, comp t x = false)) ∧
    (∃ h : Heap Int, applyOps opsZ (Heap.new capZ lessInt) = some h ∧
      (h.size_ = 0 ∨ ∃ t : Int, top h = .returned t h ∧ h.live.maximum = (t : WithBot Int))) := by
  refine ⟨top_after_ops comp cap ops hc, ?_⟩
  obtain ⟨h, e, hh⟩ := top_after_ops lessInt capZ opsZ strictWeakOrder_lessInt
  refine ⟨h, e, ?_⟩
  rcases hh with hz | ⟨t, e1, m1, x1⟩
  · exact Or.inl hz
  · refine Or.inr ⟨t, e1, List.maximum_eq_coe_iff.2 ⟨m1, ?_⟩⟩
    intro x hx
    have := x1 x hx
    simp only [lessInt, decide_eq_false_iff_not] at this
    omega

theorem top_is_extremum_witness :
    StrictWeakOrder greaterInt ∧
    ((∃ h : Heap Int, applyOps [.push 1, .push 2, .pop, .push 3] (Heap.new 0 greaterInt) = some h ∧
      (h.size_ = 0 ∨ ∃ t : Int, top h = .returned t h ∧ t ∈ h.live ∧
        ∀ x ∈ h.live, greaterInt t x = false)) ∧
    (∃ h : Heap Int, applyOps [.push 10, .push 5, .push 20, .popTop] (Heap.new 0 lessInt) =
        some h ∧
      (h.size_ = 0 ∨ ∃ t : Int, top h = .returned t h ∧
        h.live.maximum = (t : WithBot Int)))) :=
  ⟨strictWeakOrder_greaterInt,
    top_is_extremum greaterInt 0 [.push 1, .push 2, .pop, .push 3] 0
      [.push 10, .push 5, .push 20, .popTop] strictWeakOrder_greaterInt⟩

theorem sorted_extraction_aux {α : Type} [Movable α] (comp : α → α → Bool) (cap : Nat)
    (xs : List α) (hc : StrictWeakOrder comp) :
    ∃ (h : Heap α) (ys : List α) (h1 : Heap α),
      pushAll xs (Heap.new cap comp) = some h ∧ popTopN xs.length h = some (ys, h1) ∧
      ys.Perm xs ∧ ys.Pairwise (fun a b => comp a b = false) ∧ h1.empty = true := by
  obtain ⟨h, e, w, s, c, p, i⟩ := pushAll_spec xs (Heap.new cap comp) (Heap.new_wf _ _)
  have hs : h.size_ = xs.length := by rw [s]; exact Nat.zero_add _
  obtain ⟨ys, h1, e1, _, s1, p1, i1⟩ := popTopN_spec xs.length h w hs
  refine ⟨h, ys, h1, e, e1, ?_, ?_, ?_⟩
  · refine p1.trans (p.trans ?_)
    rw [Heap.new_live, List.append_nil]
  · have hc1 : StrictWeakOrder h.comp := by rw [c]; exact hc
    have := i1 hc1 (i hc (Heap.new_inv _ _))
    rw [c] at this
    exact this
  · simp [Heap.empty, s1]

/-- C4: sorted extraction.  For a strict weak ordering and a list of distinct values pushed in
any order on a newly constructed heap, `popTop()` called as many times returns every time;
the returned sequence is a permutation of the pushed values with `comp(y_i, y_j)` false for
all `i < j`, and the heap is empty afterwards; with `std::less<int>` the sequence is strictly
descending. -/
theorem sorted_extraction {α : Type} [Movable α] (comp : α → α → Bool) (cap : Nat)
    (xs : List α) (capZ : Nat) (xsZ : List Int) (hc : StrictWeakOrder comp) (_hd : xs.Nodup)
    (hdZ : xsZ.Nodup) :
    (∃ (h : Heap α) (ys : List α) (h1 : Heap α),
      pushAll xs (Heap.new cap comp) = some h ∧ popTopN xs.length h = some (ys, h1) ∧
      ys.Perm xs ∧ ys.Pairwise (fun a b => comp a b = false) ∧ h1.empty = true) ∧
    (∃ (h : Heap Int) (ys : List Int) (h1 : Heap Int),
      pushAll xsZ (Heap.new capZ lessInt) = some h ∧ popTopN xsZ.length h = some (ys, h1) ∧
      ys.Perm xsZ ∧ ys.Pairwise (fun a b => a > b) ∧ h1.empty = true) := by
  refine ⟨sorted_extraction_aux comp cap xs hc, ?_⟩
  obtain ⟨h, ys, h1, e, e1, p, pw, he⟩ :=
    sorted_extraction_aux lessInt capZ xsZ strictWeakOrder_lessInt
  refine ⟨h, ys, h1, e, e1, p, ?_, he⟩
  have hnd : ys.Nodup := (p.nodup_iff).2 hdZ
  refine (pw.and hnd).imp ?_
  intro a b hab
  obtain ⟨h2, h3⟩ := hab
  simp only [lessInt, decide_eq_false_iff_not] at h2
  omega

theorem sorted_extraction_witness :
    StrictWeakOrder greaterInt ∧ ([4, 1, 3] : List Int).Nodup ∧
    ([10, 5, 20, 7] : List Int).Nodup ∧
    ((∃ (h : Heap Int) (ys : List Int) (h1 : Heap Int),
      pushAll [4, 1, 3] (Heap.new 0 greaterInt) = some h ∧
      popTopN [4, 1, 3].length h = some (ys, h1) ∧
      ys.Perm [4, 1, 3] ∧ ys.Pairwise (fun a b => greaterInt a b = false) ∧ h1.empty = true) ∧
    (∃ (h : Heap Int) (ys : List Int) (h1 : Heap Int),
      pushAll [10, 5, 20, 7] (Heap.new 2 lessInt) = some h ∧
      popTopN [10, 5, 20, 7].length h = some (ys, h1) ∧
      ys.Perm [10, 5, 20, 7] ∧ ys.Pairwise (fun a b => a > b) ∧ h1.empty = true)) :=
  ⟨strictWeakOrder_greaterInt, by decide, by decide,
    sorted_extraction greaterInt 0 [4, 1, 3] 2 [10, 5, 20, 7] strictWeakOrder_greaterInt
      (by decide) (by decide)⟩

/-! ## Removal returns the root -/

theorem rd_eq_ok {α : Type} {d : List (Option α)} {i : Nat} {v : α} (h : rd d i = .ok v) :
    d[i]? = some (some v) := by
  unfold rd at h
  split at h
  · rename_i w hw
    rw [hw, Except.ok.inj h]
  · cases h

/-- C5: `popTop` returns the root and removes exactly it.  On a non-empty well-formed state,
for any comparator, `popTop()` returns the value `data[0]` that `top()` returns, and the
multiset of live elements before the call is the multiset afterwards plus one occurrence of
the returned value.  In the move-only scenario of `src/main.cc` (push 42, push 100 under
`ptr_comp`) the handle returned by `popTop` owns 100. -/
theorem popTop_returns_root {α : Type} [Movable α] (h : Heap α) (hw : h.WF)
    (hpos : 0 < h.size_) :
    (∃ (t : α) (h1 : Heap α), popTop h = .returned t h1 ∧ top h = .returned t h ∧
      h.data[0]? = some (some t) ∧ h1.size_ = h.size_ - 1 ∧
      (↑h.live : Multiset α) = t ::ₘ (↑h1.live : Multiset α)) ∧
    moveOnlyScenario = some 100 := by
  refine ⟨?_, by decide⟩
  obtain ⟨h1, t, e1, _, r0, _, s1, _, _, p1, _⟩ := popTop_spec hw hpos
  obtain ⟨t1, e2, r1, _, _⟩ := top_spec hw hpos
  have ht : t1 = t := by
    rw [r1] at r0
    exact Except.ok.inj r0
  subst ht
  refine ⟨t1, h1, e1, e2, rd_eq_ok r1, s1, ?_⟩
  rw [Multiset.cons_coe]
  exact (Multiset.coe_eq_coe.2 p1).symm

theorem popTop_returns_root_witness :
    sampleHeap.WF ∧ 0 < sampleHeap.size_ ∧
    ((∃ (t : Int) (h1 : Heap Int), popTop sampleHeap = .returned t h1 ∧
      top sampleHeap = .returned t sampleHeap ∧
      sampleHeap.data[0]? = some (some t) ∧ h1.size_ = sampleHeap.size_ - 1 ∧
      (↑sampleHeap.live : Multiset Int) = t ::ₘ (↑h1.live : Multiset Int)) ∧
    moveOnlyScenario = some 100) :=
  ⟨sampleHeap_wf, by decide, popTop_returns_root sampleHeap sampleHeap_wf (by decide)⟩

/-! ## Access to an empty container -/

/-- C6: empty-access error.  On a state with `size_ == 0` each of `top()`, `pop()` and
`popTop()` throws `std::out_of_range` and leaves the container as it was (same buffer, size
and capacity); on a state with `size_ != 0` none of them throws. -/
theorem empty_access_error {α : Type} [Movable α] (h : Heap α) :
    (h.size_ = 0 ∧ top h = .threw .outOfRange h ∧ pop h = .threw .outOfRange h ∧
      popTop h = .threw .outOfRange h) ∨
    (h.size_ ≠ 0 ∧ ∀ (e : Exn) (h1 : Heap α), top h ≠ .threw e h1 ∧ pop h ≠ .threw e h1 ∧
      popTop h ≠ .threw e h1) := by
  by_cases hz : h.size_ = 0
  · refine Or.inl ⟨hz, ?_, ?_, ?_⟩
    · unfold top; rw [if_pos hz]
    · unfold pop; rw [if_pos hz]
    · unfold popTop; rw [if_pos hz]
  · refine Or.inr ⟨hz, fun e h1 => ⟨?_, ?_, ?_⟩⟩
    · unfold top
      rw [if_neg hz]
      split <;> exact fun c => Outcome.noConfusion c
    · unfold pop
      rw [if_neg hz]
      split <;> exact fun c => Outcome.noConfusion c
    · unfold popTop
      rw [if_neg hz]
      split
      · exact fun c => Outcome.noConfusion c
      · split <;> exact fun c => Outcome.noConfusion c

/-! ## Size accounting -/

theorem removeRoot_size {α : Type} [Movable α] {h h1 : Heap α} (e : removeRoot h = .ok h1) :
    h1.size_ = h.size_ - 1 := by
  unfold removeRoot at e
  split at e
  · cases e
  · split at e
    · cases e
    · simp only [] at e
      split at e
      · cases e
      · cases e
        rfl

/-- C7: size accounting.  After the pushes of a list of `N` values on a newly constructed heap
of any initial capacity `size()` is `N`; a `push` on a well-formed state returns and increases
`size()` by one; on a non-empty well-formed state `pop()` and `popTop()` return and decrease
`size()` by one, and whenever one of them returns `size()` has decreased by one; and
`empty()` holds exactly when `size()` is 0. -/
theorem size_accounting {α : Type} [Movable α] (comp : α → α → Bool) (cap : Nat) (xs : List α)
    (h : Heap α) (v : α) (hw : h.WF) :
    (∃ h1 : Heap α, pushAll xs (Heap.new cap comp) = some h1 ∧ h1.size = xs.length) ∧
    (∃ h1 : Heap α, push v h = .returned () h1 ∧ h1.size = h.size + 1) ∧
    (h.size = 0 ∨
      ((∃ h1 : Heap α, pop h = .returned () h1 ∧ h1.size + 1 = h.size) ∧
       (∃ (t : α) (h1 : Heap α), popTop h = .returned t h1 ∧ h1.size + 1 = h.size))) ∧
    (∀ h1 : Heap α, pop h = .returned () h1 → h1.size + 1 = h.size) ∧
    (∀ (t : α) (h1 : Heap α), popTop h = .returned t h1 → h1.size + 1 = h.size) ∧
    (h.empty = true ↔ h.size = 0) := by
  refine ⟨?_, ?_, ?_, ?_, ?_, ?_⟩
  · obtain ⟨h1, e, _, s, _⟩ := pushAll_spec xs (Heap.new cap comp) (Heap.new_wf _ _)
    refine ⟨h1, e, ?_⟩
    unfold Heap.size
    rw [s]
    exact Nat.zero_add _
  · obtain ⟨h1, e, _, s, _⟩ := push_spec hw v
    exact ⟨h1, e, s⟩
  · by_cases hz : h.size_ = 0
    · exact Or.inl hz
    · obtain ⟨h1, t, e1, e2, _, _, s, _⟩ := popTop_spec hw (by omega)
      refine Or.inr ⟨⟨h1, e2, ?_⟩, ⟨t, h1, e1, ?_⟩⟩ <;> unfold Heap.size <;> omega
  · intro h1 e
    unfold pop at e
    split at e
    · cases e
    · rename_i hz
      split at e
      · rename_i h2 e2
        cases e
        have := removeRoot_size e2
        unfold Heap.size
        omega
      · cases e
  · intro t h1 e
    unfold popTop at e
    split at e
    · cases e
    · rename_i hz
      split at e
      · cases e
      · split at e
        · rename_i h2 e2
          cases e
          have := removeRoot_size e2
          simp only [] at this
          unfold Heap.size
          omega
        · cases e
  · simp [Heap.empty, Heap.size]

theorem size_accounting_witness :
    sampleHeap.WF ∧
    ((∃ h1 : Heap Int, pushAll [1, 2, 3] (Heap.new 0 lessInt) = some h1 ∧
        h1.size = [1, 2, 3].length) ∧
    (∃ h1 : Heap Int, push 7 sampleHeap = .returned () h1 ∧ h1.size = sampleHeap.size + 1) ∧
    (sampleHeap.size = 0 ∨
      ((∃ h1 : Heap Int, pop sampleHeap = .returned () h1 ∧ h1.size + 1 = sampleHeap.size) ∧
       (∃ (t : Int) (h1 : Heap Int), popTop sampleHeap = .returned t h1 ∧
          h1.size + 1 = sampleHeap.size))) ∧
    (∀ h1 : Heap Int, pop sampleHeap = .returned () h1 → h1.size + 1 = sampleHeap.size) ∧
    (∀ (t : Int) (h1 : Heap Int), popTop sampleHeap = .returned t h1 →
      h1.size + 1 = sampleHeap.size) ∧
    (sampleHeap.empty = true ↔ sampleHeap.size = 0)) :=
  ⟨sampleHeap_wf, size_accounting lessInt 0 [1, 2, 3] sampleHeap 7 sampleHeap_wf⟩

/-! ## `pop` and `popTop` -/

/-- C10: `pop` and `popTop` are the same removal.  On a non-empty well-formed state, for any
comparator, both calls return, the container state after `pop()` is the state after
`popTop()`, and the value `popTop()` returns is the former root, the value of `top()`. -/
theorem pop_popTop_same_removal {α : Type} [Movable α] (h : Heap α) (hw : h.WF)
    (hpos : 0 < h.size_) :
    ∃ (t : α) (h1 : Heap α), pop h = .returned () h1 ∧ popTop h = .returned t h1 ∧
      top h = .returned t h := by
  obtain ⟨h1, t, e1, e2, r0, _⟩ := popTop_spec hw hpos
  obtain ⟨t1, e3, r1, _, _⟩ := top_spec hw hpos
  have ht : t1 = t := by
    rw [r1] at r0
    exact Except.ok.inj r0
  subst ht
  exact ⟨t1, h1, e2, e1, e3⟩

theorem pop_popTop_same_removal_witness :
    sampleHeap.WF ∧ 0 < sampleHeap.size_ ∧
    ∃ (t : Int) (h1 : Heap Int), pop sampleHeap = .returned () h1 ∧
      popTop sampleHeap = .returned t h1 ∧ top sampleHeap = .returned t sampleHeap :=
  ⟨sampleHeap_wf, by decide, pop_popTop_same_removal sampleHeap sampleHeap_wf (by decide)⟩

/-! ## Move and copy of a container -/

theorem Heap.released_wf {α : Type} (a : Heap α) : a.released.WF :=
  ⟨rfl, Nat.le_refl _, fun i hi => absurd hi (Nat.not_lt_zero i)⟩

theorem push_on_released {α : Type} [Movable α] (a : Heap α) (x : α) :
    ∃ h1 : Heap α, push x a.released = .returned () h1 ∧ h1.size_ = 1 ∧
      h1.capacity_ = 1 ∧ top h1 = .returned x h1 := by
  obtain ⟨h1, e, w, s, _, c, p, _⟩ := push_spec (Heap.released_wf a) x
  have hs : h1.size_ = 1 := s
  have hl : h1.live = [x] := by
    have hp : h1.live.Perm [x] := p
    exact List.perm_singleton.1 hp
  obtain ⟨t, e1, _, m1, _⟩ := top_spec w (by omega)
  rw [hl, List.mem_singleton] at m1
  subst m1
  exact ⟨h1, e, hs, c, e1⟩

theorem copyCtor_spec {α : Type} {a : Heap α} (ha : a.WF) :
    ∃ c : Heap α, Heap.copyCtor a = .ok c ∧ c.WF ∧ c.capacity_ = a.capacity_ ∧
      c.size_ = a.size_ ∧ c.comp = a.comp ∧ c.live = a.live ∧
      (∀ i, i < a.size_ → c.data[i]? = a.data[i]?) ∧
      c.data = (a.data.take a.size_) ++ List.replicate (a.capacity_ - a.size_) none := by
  obtain ⟨l, rest, hd, hl, hcap⟩ := ha.decomp
  have e := copyConstructAll_on_live l rest a.capacity_ a.size_ (by omega) ha.2.1
  rw [← hl, List.take_length, hl] at e
  refine ⟨{ data := l.map some ++ List.replicate (a.capacity_ - a.size_) none,
            size_ := a.size_, capacity_ := a.capacity_, comp := a.comp }, ?_, ?_, rfl, rfl, rfl,
    ?_, ?_, ?_⟩
  · unfold Heap.copyCtor
    rw [hd, e]
  · exact Heap.wf_of_decomp _ l _ rfl hl (by
      simp only [List.length_replicate]
      have := ha.2.1
      omega)
  · rw [Heap.live_eq a l rest hd hl]
    exact Heap.live_eq _ l _ rfl hl
  · intro i hi
    simp only []
    rw [hd, getElem?_on_live (by omega), getElem?_on_live (by omega)]
  · simp only []
    rw [hd, List.take_left' (by simpa using hl)]

/-- C8: move transfer.  Move construction from `a`, and move assignment of `a` to a distinct
well-formed container `b`, give a container with the members of `a` (buffer, size, capacity,
comparator, hence the same live elements and the same `top()`), and leave `a` with size 0,
capacity 0 and `empty()` true; a `push(x)` on the moved-from `a` returns and gives size 1
with `top()` returning `x`. -/
theorem move_transfer {α : Type} [Movable α] (a b : Heap α) (x : α) (hb : b.WF) :
    ((Heap.moveCtor a).1 = a ∧ (Heap.moveCtor a).1.size = a.size ∧
      (Heap.moveCtor a).1.capacity_ = a.capacity_ ∧ (Heap.moveCtor a).1.live = a.live ∧
      (Heap.moveCtor a).2.size = 0 ∧ (Heap.moveCtor a).2.capacity_ = 0 ∧
      (Heap.moveCtor a).2.empty = true ∧
      ∃ h1 : Heap α, push x (Heap.moveCtor a).2 = .returned () h1 ∧ h1.size = 1 ∧
        top h1 = .returned x h1) ∧
    (∃ r : Heap α × Heap α, Heap.moveAssign b a = .ok r ∧ r.1 = a ∧ r.1.size = a.size ∧
      r.1.capacity_ = a.capacity_ ∧ r.1.live = a.live ∧
      r.2.size = 0 ∧ r.2.capacity_ = 0 ∧ r.2.empty = true ∧
      ∃ h1 : Heap α, push x r.2 = .returned () h1 ∧ h1.size = 1 ∧
        top h1 = .returned x h1) := by
  obtain ⟨h1, e1, s1, _, t1⟩ := push_on_released a x
  constructor
  · exact ⟨rfl, rfl, rfl, rfl, rfl, rfl, rfl, h1, e1, s1, t1⟩
  · obtain ⟨d1, f1, _⟩ := destroyAll_ok b.size_ b.data hb.2.2
    refine ⟨(a, a.released), ?_, rfl, rfl, rfl, rfl, rfl, rfl, rfl, h1, e1, s1, t1⟩
    unfold Heap.moveAssign
    rw [f1]

theorem move_transfer_witness :
    (Heap.new 2 greaterInt).WF ∧
    (((Heap.moveCtor sampleHeap).1 = sampleHeap ∧
      (Heap.moveCtor sampleHeap).1.size = sampleHeap.size ∧
      (Heap.moveCtor sampleHeap).1.capacity_ = sampleHeap.capacity_ ∧
      (Heap.moveCtor sampleHeap).1.live = sampleHeap.live ∧
      (Heap.moveCtor sampleHeap).2.size = 0 ∧ (Heap.moveCtor sampleHeap).2.capacity_ = 0 ∧
      (Heap.moveCtor sampleHeap).2.empty = true ∧
      ∃ h1 : Heap Int, push 8 (Heap.moveCtor sampleHeap).2 = .returned () h1 ∧ h1.size = 1 ∧
        top h1 = .returned 8 h1) ∧
    (∃ r : Heap Int × Heap Int, Heap.moveAssign (Heap.new 2 greaterInt) sampleHeap = .ok r ∧
      r.1 = sampleHeap ∧ r.1.size = sampleHeap.size ∧
      r.1.capacity_ = sampleHeap.capacity_ ∧ r.1.live = sampleHeap.live ∧
      r.2.size = 0 ∧ r.2.capacity_ = 0 ∧ r.2.empty = true ∧
      ∃ h1 : Heap Int, push 8 r.2 = .returned () h1 ∧ h1.size = 1 ∧
        top h1 = .returned 8 h1)) :=
  ⟨Heap.new_wf 2 greaterInt, move_transfer sampleHeap (Heap.new 2 greaterInt) 8
    (Heap.new_wf 2 greaterInt)⟩

/-! ## Storage -/

theorem load_some_lt {α : Type} {m : Store α} {q : Nat} {buf : List (Option α)}
    (h : load m (some q) = .ok buf) : m[q]? = some (some buf) := by
  simp only [load] at h
  split at h
  · rename_i b hb
    rw [hb, Except.ok.inj h]
  · cases h

theorem load_of_getElem? {α : Type} {m : Store α} {q : Nat} {buf : List (Option α)}
    (h : m[q]? = some (some buf)) : load m (some q) = .ok buf := by
  simp only [load]
  rw [h]

theorem load_frame {α : Type} {p x : Ptr} {m m1 : Store α} {buf : List (Option α)}
    (hf : FrameOf p m m1) (hx : load m x = .ok buf) (hne : p ≠ x ∨ x = none) :
    load m1 x = .ok buf := by
  cases x with
  | none => exact hx
  | some q =>
    have hq := load_some_lt hx
    have hlt : q < m.length := (List.getElem?_eq_some.1 hq).1
    have hpq : p ≠ some q := by
      rcases hne with e | e
      · exact e
      · cases e
    exact load_of_getElem? (by rw [hf.2 q hlt hpq]; exact hq)

theorem frameOf_refl {α : Type} (p : Ptr) (m : Store α) : FrameOf p m m :=
  ⟨Nat.le_refl _, fun _ _ _ => rfl⟩

theorem frameOf_trans {α : Type} {p : Ptr} {m m1 m2 : Store α} (h1 : FrameOf p m m1)
    (h2 : FrameOf p m1 m2) : FrameOf p m m2 :=
  ⟨Nat.le_trans h1.1 h2.1, fun q hq hp => by
    rw [h2.2 q (Nat.lt_of_lt_of_le hq h1.1) hp, h1.2 q hq hp]⟩

theorem frameOf_store {α : Type} (p : Ptr) (m : Store α) (buf : List (Option α)) :
    FrameOf p m (store m p buf) := by
  cases p with
  | none => exact frameOf_refl _ _
  | some k =>
    refine ⟨by simp [store], fun q _ hp => ?_⟩
    unfold store
    rw [List.getElem?_set_ne (fun e => hp (by rw [e]))]

theorem frameOf_deallocate {α : Type} (p : Ptr) (m : Store α) :
    FrameOf p m (deallocate m p) := by
  cases p with
  | none => exact frameOf_refl _ _
  | some k =>
    refine ⟨by simp [deallocate], fun q _ hp => ?_⟩
    unfold deallocate
    rw [List.getElem?_set_ne (fun e => hp (by rw [e]))]

theorem frameOf_allocate {α : Type} (p : Ptr) (m : Store α) (n : Nat) :
    FrameOf p m (allocate m n).2 := by
  refine ⟨by simp [allocate], fun q hq _ => ?_⟩
  unfold allocate
  exact List.getElem?_append_left hq

theorem load_store_self {α : Type} {m : Store α} {q : Nat} (hq : q < m.length)
    (buf : List (Option α)) : load (store m (some q) buf) (some q) = .ok buf := by
  apply load_of_getElem?
  unfold store
  exact List.getElem?_set_self hq

/-- A pointer that is valid in a storage is null or a block handed out before. -/
theorem ptr_lt_of_load {α : Type} {m : Store α} {p : Ptr} {buf : List (Option α)}
    (h : load m p = .ok buf) (q : Nat) (hp : p = some q) : q < m.length := by
  subst hp
  exact (List.getElem?_eq_some.1 (load_some_lt h)).1

/-! ## Objects -/

theorem Obj.view_data {α : Type} {o : Obj α} {m : Store α} {h : Heap α}
    (hv : o.view m = .ok h) :
    load m o.data = .ok h.data ∧ h.size_ = o.size_ ∧ h.capacity_ = o.capacity_ ∧
      h.comp = o.comp := by
  unfold Obj.view at hv
  split at hv
  · rename_i buf hb
    cases hv
    exact ⟨hb, rfl, rfl, rfl⟩
  · cases hv

theorem Obj.view_of_load {α : Type} {o : Obj α} {m : Store α} {buf : List (Option α)}
    (hl : load m o.data = .ok buf) :
    o.view m = .ok { data := buf, size_ := o.size_, capacity_ := o.capacity_,
                     comp := o.comp } := by
  unfold Obj.view
  rw [hl]

theorem Obj.view_frame {α : Type} {x o : Obj α} {m m1 : Store α} {h : Heap α}
    (hf : FrameOf o.data m m1) (hv : x.view m = .ok h) (hs : x.Separate o) :
    x.view m1 = .ok h := by
  obtain ⟨hl, e1, e2, e3⟩ := Obj.view_data hv
  have hne : o.data ≠ x.data ∨ x.data = none := by
    rcases hs with e | ⟨e, _⟩
    · exact Or.inl (fun c => e c.symm)
    · exact Or.inr e
  rw [Obj.view_of_load (load_frame hf hl hne)]
  cases h
  simp only [] at e1 e2 e3
  subst e1 e2 e3
  rfl

theorem Obj.null_data_nil {α : Type} {o : Obj α} {m : Store α} {h : Heap α}
    (hv : o.view m = .ok h) (hn : o.data = none) : h.data = [] := by
  obtain ⟨hl, _⟩ := Obj.view_data hv
  rw [hn] at hl
  exact (Except.ok.inj hl).symm

/-- After a member function that keeps the buffer pointer, the capacity and the comparator,
the object denotes the container the function produced. -/
theorem Obj.view_commit {α : Type} {o : Obj α} {m : Store α} {h0 h : Heap α}
    (hv : o.view m = .ok h0) (hcap : h.capacity_ = h0.capacity_) (hcomp : h.comp = h0.comp)
    (hlen : h.data.length = h0.data.length) :
    (o.commit m h).1.view (o.commit m h).2 = .ok h ∧
      FrameOf o.data m (o.commit m h).2 ∧ (o.commit m h).1.data = o.data := by
  obtain ⟨hl, e1, e2, e3⟩ := Obj.view_data hv
  refine ⟨?_, frameOf_store _ _ _, rfl⟩
  have hload : load (store m o.data h.data) o.data = .ok h.data := by
    cases hd : o.data with
    | none =>
      have h0nil := Obj.null_data_nil hv hd
      rw [h0nil, List.length_nil] at hlen
      rw [List.length_eq_zero.1 hlen]
      rfl
    | some q =>
      exact load_store_self (ptr_lt_of_load hl q hd) _
  unfold Obj.commit
  simp only []
  rw [Obj.view_of_load (o := { o with size_ := h.size_ }) hload]
  cases h
  simp only [] at hcap hcomp
  subst hcap hcomp
  simp only [e2, e3]

theorem load_allocate {α : Type} {m : Store α} {p : Ptr} {buf : List (Option α)} (n : Nat)
    (h : load m p = .ok buf) : load (allocate m n).2 p = .ok buf := by
  refine load_frame (frameOf_allocate none m n) h ?_
  cases p with
  | none => exact Or.inr rfl
  | some q => exact Or.inl (fun c => Option.noConfusion c)

theorem grow_parts {α : Type} [Movable α] {h h1 : Heap α} (hg : grow h = .ok h1) :
    ∃ old1 new1 d,
      moveConstructAll h.size_ h.data
        (List.replicate (if h.capacity_ = 0 then 1 else h.capacity_ * 2) none) =
          .ok (old1, new1) ∧
      destroyAll h.size_ old1 = .ok d ∧
      h1 = { h with data := new1,
                    capacity_ := if h.capacity_ = 0 then 1 else h.capacity_ * 2 } := by
  unfold grow at hg
  simp only [] at hg
  split at hg
  · cases hg
  · rename_i old1 new1 e1
    split at hg
    · cases hg
    · rename_i d e2
      exact ⟨old1, new1, d, e1, e2, (Except.ok.inj hg).symm⟩

theorem objGrow_sim {α : Type} [Movable α] {o : Obj α} {m : Store α} {h h1 : Heap α}
    (hv : o.view m = .ok h) (hg : grow h = .ok h1) :
    ∃ (o1 : Obj α) (m1 : Store α), Obj.grow o m = .ok (o1, m1) ∧ o1.view m1 = .ok h1 ∧
      FrameOf o.data m m1 ∧ o1.data = some m.length := by
  obtain ⟨hl, e1, e2, e3⟩ := Obj.view_data hv
  obtain ⟨old1, new1, d, f1, f2, f3⟩ := grow_parts hg
  rw [e1, e2] at f1
  rw [e1] at f2
  have hl1 := load_allocate (if o.capacity_ = 0 then 1 else o.capacity_ * 2) hl
  have hfin : ∀ q, q < m.length → o.data ≠ some q →
      (deallocate (store (allocate m (if o.capacity_ = 0 then 1 else o.capacity_ * 2)).2
        (some m.length) new1) o.data)[q]? = m[q]? := by
    intro q hq hp
    cases hd : o.data with
    | none =>
      simp only [deallocate, store, allocate]
      rw [List.getElem?_set_ne (by omega), List.getElem?_append_left hq]
    | some k =>
      rw [hd] at hp
      simp only [deallocate, store, allocate]
      rw [List.getElem?_set_ne (fun e => hp (by rw [e])), List.getElem?_set_ne (by omega),
        List.getElem?_append_left hq]
  have hnew : load (deallocate (store (allocate m
      (if o.capacity_ = 0 then 1 else o.capacity_ * 2)).2 (some m.length) new1) o.data)
      (some m.length) = .ok new1 := by
    apply load_of_getElem?
    cases hd : o.data with
    | none =>
      simp only [deallocate, store, allocate]
      exact List.getElem?_set_self (by simp)
    | some k =>
      have hk := ptr_lt_of_load hl k hd
      simp only [deallocate, store, allocate]
      rw [List.getElem?_set_ne (by omega)]
      exact List.getElem?_set_self (by simp)
  refine ⟨{ o with data := some m.length,
                   capacity_ := if o.capacity_ = 0 then 1 else o.capacity_ * 2 }, _, ?_, ?_,
    ⟨?_, hfin⟩, rfl⟩
  · unfold Obj.grow
    simp only []
    rw [hl1]
    simp only []
    rw [f1]
    simp only []
    rw [f2]
    rfl
  · rw [Obj.view_of_load
      (o := ⟨some m.length, o.size_, if o.capacity_ = 0 then 1 else o.capacity_ * 2, o.comp⟩)
      hnew, f3]
    simp only [e1, e2, e3]
  · cases hd : o.data with
    | none => simp [deallocate, store, allocate]
    | some k => simp [deallocate, store, allocate]

theorem pushCore_parts {α : Type} [Movable α] {v : α} {h h2 : Heap α}
    (hp : pushCore v h = .ok h2) :
    ∃ h1, (if h.size_ = h.capacity_ then grow h else .ok h) = .ok h1 ∧
      insertLast v h1 = .ok h2 := by
  unfold pushCore at hp
  split at hp
  · cases hp
  · rename_i h1 e1
    exact ⟨h1, e1, hp⟩

theorem insertLast_fields {α : Type} [Movable α] {v : α} {h1 h2 : Heap α}
    (hi : insertLast v h1 = .ok h2) :
    h2.capacity_ = h1.capacity_ ∧ h2.comp = h1.comp := by
  unfold insertLast at hi
  split at hi
  · cases hi
  · split at hi
    · cases hi
    · cases hi
      exact ⟨rfl, rfl⟩

theorem objPush_sim {α : Type} [Movable α] {o : Obj α} {m : Store α} {h : Heap α}
    (hv : o.view m = .ok h) (hw : h.WF) (v : α) :
    ∃ (o1 : Obj α) (m1 : Store α) (h1 : Heap α), Obj.push v o m = .ok (o1, m1) ∧
      push v h = .returned () h1 ∧ o1.view m1 = .ok h1 ∧ h1.WF ∧ FrameOf o.data m m1 ∧
      (o1.data = o.data ∨ o1.data = some m.length) := by
  obtain ⟨hl, e1, e2, e3⟩ := Obj.view_data hv
  obtain ⟨h2, p1, w2, _, _, _, _, _⟩ := push_spec hw v
  have p2 : pushCore v h = .ok h2 := by
    unfold push at p1
    split at p1
    · rename_i h3 e
      cases p1
      exact e
    · cases p1
  obtain ⟨hm, g1, g2⟩ := pushCore_parts p2
  obtain ⟨c1, c2⟩ := insertLast_fields g2
  by_cases hfull : h.size_ = h.capacity_
  · rw [if_pos hfull] at g1
    obtain ⟨o1, m1, s1, s2, s3, s4⟩ := objGrow_sim hv g1
    have hlen : h2.data.length = hm.data.length := by
      obtain ⟨l, rest, hd, hl2, hcap⟩ := hw.decomp
      have hg := grow_spec hd hl2 hw.2.1
      rw [hg] at g1
      have := w2.1
      rw [c1, ← Except.ok.inj g1] at this
      rw [this, ← Except.ok.inj g1]
      simp only [List.length_append, List.length_map, List.length_replicate]
      split <;> omega
    obtain ⟨k1, k2, k3⟩ := Obj.view_commit s2 c1 c2 hlen
    refine ⟨(o1.commit m1 h2).1, (o1.commit m1 h2).2, h2, ?_, p1, k1, w2,
      ⟨Nat.le_trans s3.1 k2.1, ?_⟩, Or.inr (k3.trans s4)⟩
    · unfold Obj.push
      rw [if_pos (by omega), s1]
      simp only []
      rw [s2]
      simp only []
      rw [g2]
    · intro q hq hp
      have hne : o1.data ≠ some q := by
        rw [s4]
        intro c
        have := Option.some.inj c
        omega
      rw [k2.2 q (Nat.lt_of_lt_of_le hq s3.1) hne, s3.2 q hq hp]
  · rw [if_neg hfull] at g1
    have hmh : hm = h := (Except.ok.inj g1).symm
    subst hmh
    have hlen : h2.data.length = hm.data.length := by
      rw [w2.1, hw.1, c1]
    obtain ⟨k1, k2, k3⟩ := Obj.view_commit hv c1 c2 hlen
    refine ⟨(o.commit m h2).1, (o.commit m h2).2, h2, ?_, p1, k1, w2, k2, Or.inl k3⟩
    unfold Obj.push
    rw [if_neg (by omega)]
    simp only []
    rw [hv]
    simp only []
    rw [g2]

theorem objApplyOp_sim {α : Type} [Movable α] {o : Obj α} {m : Store α} {h : Heap α}
    (hv : o.view m = .ok h) (hw : h.WF) (op : Op α) :
    ∃ (o1 : Obj α) (m1 : Store α) (h1 : Heap α), Obj.applyOp o m op = some (o1, m1) ∧
      applyOp h op = some h1 ∧ o1.view m1 = .ok h1 ∧ h1.WF ∧ FrameOf o.data m m1 := by
  cases op with
  | push v =>
    obtain ⟨o1, m1, h1, e1, e2, e3, e4, e5, _⟩ := objPush_sim hv hw v
    refine ⟨o1, m1, h1, ?_, ?_, e3, e4, e5⟩
    · rw [Obj.applyOp, e1]
    · rw [applyOp, e2]
      rfl
  | pop =>
    by_cases hz : h.size_ = 0
    · have e : (pop h).heap? = some h := by
        unfold pop
        rw [if_pos hz]
        rfl
      obtain ⟨k1, k2, _⟩ := Obj.view_commit (h := h) hv rfl rfl rfl
      refine ⟨_, _, h, ?_, e, k1, hw, k2⟩
      rw [Obj.applyOp, hv]
      simp only []
      rw [e]
    · obtain ⟨h1, _, e1, _, w1, _, c1, c2, _, _⟩ := pop_spec hw (by omega)
      have e : (pop h).heap? = some h1 := by rw [e1]; rfl
      obtain ⟨k1, k2, _⟩ := Obj.view_commit hv c1 c2 (by rw [w1.1, hw.1, c1])
      refine ⟨_, _, h1, ?_, e, k1, w1, k2⟩
      rw [Obj.applyOp, hv]
      simp only []
      rw [e]
  | popTop =>
    by_cases hz : h.size_ = 0
    · have e : (popTop h).heap? = some h := by
        unfold popTop
        rw [if_pos hz]
        rfl
      obtain ⟨k1, k2, _⟩ := Obj.view_commit (h := h) hv rfl rfl rfl
      refine ⟨_, _, h, ?_, e, k1, hw, k2⟩
      rw [Obj.applyOp, hv]
      simp only []
      rw [e]
    · obtain ⟨h1, _, e1, _, _, w1, _, c1, c2, _, _⟩ := popTop_spec hw (by omega)
      have e : (popTop h).heap? = some h1 := by rw [e1]; rfl
      obtain ⟨k1, k2, _⟩ := Obj.view_commit hv c1 c2 (by rw [w1.1, hw.1, c1])
      refine ⟨_, _, h1, ?_, e, k1, w1, k2⟩
      rw [Obj.applyOp, hv]
      simp only []
      rw [e]

theorem copyCtor_parts {α : Type} {h c : Heap α} (hc : Heap.copyCtor h = .ok c) :
    ∃ d, copyConstructAll h.data h.size_ (List.replicate h.capacity_ none) = .ok d ∧
      c = { data := d, size_ := h.size_, capacity_ := h.capacity_, comp := h.comp } := by
  unfold Heap.copyCtor at hc
  split at hc
  · cases hc
  · rename_i d e
    exact ⟨d, e, (Except.ok.inj hc).symm⟩

theorem objCopyCtor_sim {α : Type} {a : Obj α} {m : Store α} {h : Heap α}
    (hv : a.view m = .ok h) (hw : h.WF) :
    ∃ (b : Obj α) (m1 : Store α) (c : Heap α), Obj.copyCtor a m = .ok (b, m1) ∧
      Heap.copyCtor h = .ok c ∧ b.view m1 = .ok c ∧ c.WF ∧ c.live = h.live ∧
      b.capacity_ = a.capacity_ ∧ b.size_ = a.size_ ∧ b.comp = a.comp ∧
      (b.data = none ∨ b.data = some m.length) ∧ m.length ≤ m1.length ∧
      (∀ (p : Ptr) (buf : List (Option α)), load m p = .ok buf → load m1 p = .ok buf) := by
  obtain ⟨hl, e1, e2, e3⟩ := Obj.view_data hv
  obtain ⟨c, hc, wc, c1, _, _, c4, _, _⟩ := copyCtor_spec hw
  obtain ⟨d, hd, hcd⟩ := copyCtor_parts hc
  rw [e1, e2] at hd
  by_cases hz : a.capacity_ = 0
  · have hdnil : d = [] := by
      have := wc.1
      rw [hcd] at this
      simp only [] at this
      exact List.length_eq_zero.1 (by omega)
    refine ⟨⟨none, a.size_, a.capacity_, a.comp⟩, m, c, ?_, hc, ?_, wc, c4, rfl, rfl, rfl,
      Or.inl rfl, Nat.le_refl _, fun _ _ hp => hp⟩
    · unfold Obj.copyCtor
      rw [if_pos hz]
      simp only []
      rw [hl]
      simp only []
      rw [hd]
      rfl
    · rw [@Obj.view_of_load _ ⟨none, a.size_, a.capacity_, a.comp⟩ m [] rfl, hcd, hdnil]
      simp only [e1, e2, e3]
  · have hl1 := load_allocate a.capacity_ hl
    have hkeep : ∀ (p : Ptr) (buf : List (Option α)), load m p = .ok buf →
        load (store (allocate m a.capacity_).2 (some m.length) d) p = .ok buf := by
      intro p buf hp
      have h1 := load_allocate a.capacity_ hp
      refine load_frame (frameOf_store (some m.length) _ d) h1 ?_
      cases p with
      | none => exact Or.inr rfl
      | some q =>
        refine Or.inl (fun c => ?_)
        have := ptr_lt_of_load hp q rfl
        have := Option.some.inj c
        omega
    refine ⟨⟨some m.length, a.size_, a.capacity_, a.comp⟩,
      store (allocate m a.capacity_).2 (some m.length) d, c, ?_, hc, ?_, wc, c4, rfl, rfl, rfl,
      Or.inr rfl, ?_, hkeep⟩
    · unfold Obj.copyCtor
      rw [if_neg hz]
      simp only []
      rw [hl1]
      simp only []
      rw [hd]
      rfl
    · rw [Obj.view_of_load (o := ⟨some m.length, a.size_, a.capacity_, a.comp⟩)
        (load_store_self (by simp [allocate]) d), hcd]
      simp only [e1, e2, e3]
    · simp [store, allocate]

theorem Obj.Separate.symm {α : Type} {x y : Obj α} (h : x.Separate y) : y.Separate x := by
  rcases h with e | ⟨e1, e2⟩
  · exact Or.inl (fun c => e c.symm)
  · exact Or.inr ⟨e2, e1⟩

theorem separate_of_fresh {α : Type} {x b : Obj α} {m : Store α} {hx : Heap α}
    (hv : x.view m = .ok hx) (hb : b.data = none ∨ b.data = some m.length) :
    x.Separate b := by
  obtain ⟨hl, _⟩ := Obj.view_data hv
  cases hd : x.data with
  | none =>
    rcases hb with e | e
    · exact Or.inr ⟨hd, e⟩
    · exact Or.inl (by rw [hd, e]; exact fun c => Option.noConfusion c)
  | some q =>
    have hq := ptr_lt_of_load hl q hd
    refine Or.inl ?_
    rw [hd]
    rcases hb with e | e
    · rw [e]; exact fun c => Option.noConfusion c
    · rw [e]
      intro c
      have := Option.some.inj c
      omega

theorem view_of_loads {α : Type} {x : Obj α} {m m1 : Store α} {hx : Heap α}
    (hv : x.view m = .ok hx)
    (hk : ∀ (p : Ptr) (buf : List (Option α)), load m p = .ok buf → load m1 p = .ok buf) :
    x.view m1 = .ok hx := by
  obtain ⟨hl, e1, e2, e3⟩ := Obj.view_data hv
  rw [Obj.view_of_load (hk _ _ hl)]
  cases hx
  simp only [] at e1 e2 e3
  subst e1 e2 e3
  rfl

theorem objTop_of_view {α : Type} {x : Obj α} {m m1 : Store α} (h : x.view m1 = x.view m) :
    Obj.top x m1 = Obj.top x m := by
  unfold Obj.top
  rw [h]

theorem independentCopy_of {α : Type} [Movable α] {a b : Obj α} {m m1 : Store α}
    {ha hb : Heap α} (op : Op α) (hva : a.view m = .ok ha) (wa : ha.WF)
    (hva1 : a.view m1 = .ok ha) (hvb : b.view m1 = .ok hb) (wb : hb.WF)
    (hlive : hb.live = ha.live) (hcap : b.capacity_ = a.capacity_) (hsz : b.size_ = a.size_)
    (hcomp : b.comp = a.comp) (hsep : a.Separate b) : IndependentCopy a b m m1 op := by
  refine ⟨hcap, hsz, hcomp, ⟨ha, hb, hva, hvb, wb, hlive⟩, by rw [hva1, hva], ?_, ?_⟩
  · obtain ⟨b1, m2, _, e1, _, _, _, e5⟩ := objApplyOp_sim hvb wb op
    have hv2 : a.view m2 = a.view m := by
      rw [Obj.view_frame e5 hva1 hsep, hva]
    exact ⟨b1, m2, e1, hv2, objTop_of_view hv2⟩
  · obtain ⟨a1, m2, _, e1, _, _, _, e5⟩ := objApplyOp_sim hva1 wa op
    have hv2 : b.view m2 = b.view m1 := by
      rw [Obj.view_frame e5 hvb hsep.symm, hvb]
    exact ⟨a1, m2, e1, hv2, objTop_of_view hv2⟩

theorem objCopyAssign_sim {α : Type} {t a : Obj α} {m : Store α} {ht ha : Heap α}
    (hvt : t.view m = .ok ht) (wt : ht.WF) (hva : a.view m = .ok ha) (wa : ha.WF)
    (hsep : t.Separate a) :
    ∃ (b : Obj α) (m2 : Store α) (c : Heap α), Obj.copyAssign t a m = .ok (b, m2) ∧
      Heap.copyAssign ht ha = .ok c ∧ b.view m2 = .ok c ∧ c.WF ∧ c.live = ha.live ∧
      b.capacity_ = a.capacity_ ∧ b.size_ = a.size_ ∧ b.comp = a.comp ∧
      a.view m2 = .ok ha ∧ a.Separate b := by
  obtain ⟨b, m1, c, e1, e2, e3, wc, cl, f1, f2, f3, hfresh, _, hk⟩ := objCopyCtor_sim hva wa
  have hvt1 := view_of_loads hvt hk
  have hva1 := view_of_loads hva hk
  obtain ⟨hlt, s1, _, _⟩ := Obj.view_data hvt1
  obtain ⟨d1, g1, _⟩ := destroyAll_ok ht.size_ ht.data wt.2.2
  have hfr := frameOf_deallocate t.data m1
  have hbt : b.Separate t := (separate_of_fresh hvt hfresh).symm
  refine ⟨b, deallocate m1 t.data, c, ?_, ?_, Obj.view_frame hfr e3 hbt, wc, cl, f1, f2, f3,
    Obj.view_frame hfr hva1 hsep.symm, separate_of_fresh hva hfresh⟩
  · unfold Obj.copyAssign
    rw [e1]
    simp only []
    unfold Obj.dtor
    rw [hlt, ← s1]
    simp only []
    rw [g1]
  · unfold Heap.copyAssign
    rw [e2]
    simp only []
    unfold Heap.dtor
    rw [g1]

theorem sampleObj_view : sampleObj.1.view sampleTarget.2 = .ok sampleHeap := rfl

theorem sampleTarget_view : sampleTarget.1.view sampleTarget.2 = .ok (Heap.new 2 greaterInt) :=
  rfl

/-- C9: copy independence.  For a valid container object `a`, copy construction from `a`, and
copy assignment of `a` to a valid object `t` that does not share its buffer, give an object
`b` with the capacity, size, comparator and live elements (in index order) of `a` and leave
`a` unchanged; after it a `push`, `pop` or `popTop` on `b` leaves the container `a` denotes,
hence its size and `top()`, unchanged, and such a call on `a` leaves those of `b`
unchanged. -/
theorem copy_independence {α : Type} [Movable α] (a t : Obj α) (m : Store α) (op : Op α)
    (ha : a.Valid m) (ht : t.Valid m) (hsep : t.Separate a) :
    (∃ (b : Obj α) (m1 : Store α), Obj.copyCtor a m = .ok (b, m1) ∧
      IndependentCopy a b m m1 op) ∧
    (∃ (b : Obj α) (m1 : Store α), Obj.copyAssign t a m = .ok (b, m1) ∧
      IndependentCopy a b m m1 op) := by
  obtain ⟨va, hva, wa⟩ := ha
  obtain ⟨vt, hvt, wt⟩ := ht
  constructor
  · obtain ⟨b, m1, c, e1, _, e3, wc, cl, f1, f2, f3, hfresh, _, hk⟩ := objCopyCtor_sim hva wa
    exact ⟨b, m1, e1, independentCopy_of op hva wa (view_of_loads hva hk) e3 wc cl f1 f2 f3
      (separate_of_fresh hva hfresh)⟩
  · obtain ⟨b, m2, c, e1, _, e3, wc, cl, f1, f2, f3, hva2, hs⟩ :=
      objCopyAssign_sim hvt wt hva wa hsep
    exact ⟨b, m2, e1, independentCopy_of op hva wa hva2 e3 wc cl f1 f2 f3 hs⟩

theorem copy_independence_witness :
    sampleObj.1.Valid sampleTarget.2 ∧ sampleTarget.1.Valid sampleTarget.2 ∧
    sampleTarget.1.Separate sampleObj.1 ∧
    ((∃ (b : Obj Int) (m1 : Store Int),
        Obj.copyCtor sampleObj.1 sampleTarget.2 = .ok (b, m1) ∧
        IndependentCopy sampleObj.1 b sampleTarget.2 m1 Op.pop) ∧
     (∃ (b : Obj Int) (m1 : Store Int),
        Obj.copyAssign sampleTarget.1 sampleObj.1 sampleTarget.2 = .ok (b, m1) ∧
        IndependentCopy sampleObj.1 b sampleTarget.2 m1 Op.pop)) :=
  ⟨⟨sampleHeap, sampleObj_view, sampleHeap_wf⟩,
    ⟨Heap.new 2 greaterInt, sampleTarget_view, Heap.new_wf 2 greaterInt⟩,
    Or.inl (by decide),
    copy_independence sampleObj.1 sampleTarget.1 sampleTarget.2 Op.pop
      ⟨sampleHeap, sampleObj_view, sampleHeap_wf⟩
      ⟨Heap.new 2 greaterInt, sampleTarget_view, Heap.new_wf 2 greaterInt⟩
      (Or.inl (by decide))⟩

/-! ## Concrete scenarios -/

/-- C14: the max-heap scenario.  On a default-constructed `Heap<int>` with `std::less<int>`,
after `push(10)`, `push(5)`, `push(20)` the call `top()` returns 20, then `popTop()` returns
20, and the next `top()` returns 10. -/
theorem max_heap_scenario : maxHeapScenario = some (20, 20, 10) := by
  decide

/-- C15: the min-heap scenario.  On a heap constructed with `std::greater<int>` and any
initial capacity, after `push(1)`, `push(2)`, `push(3)` the call `top()` returns 1. -/
theorem min_heap_scenario (cap : Nat) : minHeapScenario cap = some 1 := by
  obtain ⟨h, e, w, s, c, p, i⟩ :=
    pushAll_spec [1, 2, 3] (Heap.new cap greaterInt) (Heap.new_wf _ _)
  have hs : 0 < h.size_ := by rw [s]; simp
  obtain ⟨t, e1, _, m1, x1⟩ := top_spec w hs
  have hc1 : StrictWeakOrder h.comp := by rw [c]; exact strictWeakOrder_greaterInt
  have hx := x1 hc1 (i strictWeakOrder_greaterInt (Heap.new_inv _ _))
  rw [c] at hx
  have hmem : ∀ x, x ∈ h.live ↔ x ∈ ([1, 2, 3] : List Int) := by
    intro x
    rw [p.mem_iff, Heap.new_live, List.append_nil]
  have h1 := hx 1 ((hmem 1).2 (by decide))
  have ht := (hmem t).1 m1
  simp only [Heap.new, greaterInt, decide_eq_false_iff_not] at h1
  simp only [List.mem_cons, List.mem_singleton, List.not_mem_nil, or_false] at ht
  have ht1 : t = 1 := by omega
  subst ht1
  unfold minHeapScenario
  rw [e]
  simp only []
  rw [e1]

/-! ## Capacity and contents after `push` -/

theorem grow_wf_spec {α : Type} [Movable α] {h : Heap α} (hw : h.WF) :
    ∃ g : Heap α, grow h = .ok g ∧ g.WF ∧ g.size_ = h.size_ ∧ g.comp = h.comp ∧
      g.capacity_ = (if h.capacity_ = 0 then 1 else h.capacity_ * 2) ∧ g.live = h.live ∧
      (∀ i, i < h.size_ → g.data[i]? = h.data[i]?) := by
  obtain ⟨l, rest, hd, hl, hcap⟩ := hw.decomp
  have hle : h.size_ ≤ (if h.capacity_ = 0 then 1 else h.capacity_ * 2) := by
    have := hw.2.1
    split <;> omega
  refine ⟨_, grow_spec hd hl hw.2.1, ?_, rfl, rfl, rfl, ?_, ?_⟩
  · exact Heap.wf_of_decomp _ l _ rfl hl (by
      simp only [List.length_replicate]
      omega)
  · rw [Heap.live_eq h l rest hd hl]
    exact Heap.live_eq _ l _ rfl hl
  · intro i hi
    simp only []
    rw [hd, getElem?_on_live (by omega), getElem?_on_live (by omega)]

/-- C11: the capacity growth rule.  On a well-formed state (`size_ ≤ capacity_`) `push`
returns with the capacity unchanged when `size_ < capacity_`, and with capacity 1 (from 0) or
`capacity_ * 2` when `size_ == capacity_`; and `grow()` itself returns with `size_`, the
comparator and the live elements (values and index order) unchanged. -/
theorem capacity_growth_rule {α : Type} [Movable α] (h : Heap α) (v : α) (hw : h.WF) :
    (∃ h1 : Heap α, push v h = .returned () h1 ∧
      h1.capacity_ = (if h.size_ < h.capacity_ then h.capacity_
        else if h.capacity_ = 0 then 1 else h.capacity_ * 2)) ∧
    (∃ g : Heap α, grow h = .ok g ∧ g.size_ = h.size_ ∧ g.live = h.live ∧
      (∀ i, i < h.size_ → g.data[i]? = h.data[i]?) ∧
      g.capacity_ = (if h.capacity_ = 0 then 1 else h.capacity_ * 2)) := by
  constructor
  · obtain ⟨h1, e, _, _, _, c, _, _⟩ := push_spec hw v
    refine ⟨h1, e, ?_⟩
    rw [c]
    have := hw.2.1
    by_cases hlt : h.size_ < h.capacity_
    · rw [if_pos hlt, if_neg (by omega)]
    · rw [if_neg hlt, if_pos (by omega)]
  · obtain ⟨g, e, _, s, _, c, l, d⟩ := grow_wf_spec hw
    exact ⟨g, e, s, l, d, c⟩

theorem capacity_growth_rule_witness :
    sampleHeap.WF ∧
    ((∃ h1 : Heap Int, push 7 sampleHeap = .returned () h1 ∧
      h1.capacity_ = (if sampleHeap.size_ < sampleHeap.capacity_ then sampleHeap.capacity_
        else if sampleHeap.capacity_ = 0 then 1 else sampleHeap.capacity_ * 2)) ∧
    (∃ g : Heap Int, grow sampleHeap = .ok g ∧ g.size_ = sampleHeap.size_ ∧
      g.live = sampleHeap.live ∧
      (∀ i, i < sampleHeap.size_ → g.data[i]? = sampleHeap.data[i]?) ∧
      g.capacity_ = (if sampleHeap.capacity_ = 0 then 1 else sampleHeap.capacity_ * 2))) :=
  ⟨sampleHeap_wf, capacity_growth_rule sampleHeap 7 sampleHeap_wf⟩

/-! ## The argument of `push(const T&)` as a reference -/

/-- For an argument of value `v` that is alive when line 151 reads it, `push` returns on every
well-formed state, the empty ones included, with one more element, and the live elements
afterwards are those before plus one occurrence of `v`. -/
theorem push_adds_one_occurrence {α : Type} [Movable α] {h : Heap α} (hw : h.WF) (v : α) :
    ∃ h1 : Heap α, push v h = .returned () h1 ∧ h1.size_ = h.size_ + 1 ∧
      (↑h1.live : Multiset α) = v ::ₘ (↑h.live : Multiset α) := by
  obtain ⟨h1, e, _, s, _, _, p, _⟩ := push_spec hw v
  refine ⟨h1, e, s, ?_⟩
  rw [Multiset.cons_coe]
  exact Multiset.coe_eq_coe.2 p

/-- The sift-up from a live index returns, for any comparator, a buffer whose live elements are
a permutation of those before. -/
theorem heapifyUp_permutes_live {α : Type} [Movable α] {h : Heap α} (hw : h.WF) {idx : Nat}
    (hidx : idx < h.size_) :
    ∃ d : List (Option α), heapifyUp h.comp idx h.data = .ok d ∧
      (↑({ h with data := d } : Heap α).live : Multiset α) = (↑h.live : Multiset α) := by
  obtain ⟨l, rest, hd, hl, _⟩ := hw.decomp
  obtain ⟨l1, e1, e2, e3, _⟩ :=
    heapifyUpLoop_spec h.comp rest (idx + 1) idx l (by omega) (by omega)
  refine ⟨l1.map some ++ rest, ?_, ?_⟩
  · unfold heapifyUp
    rw [hd]
    exact e1
  · rw [Heap.live_eq h l rest hd hl,
      Heap.live_eq { h with data := l1.map some ++ rest } l1 rest rfl (by
        simp only []
        omega)]
    exact Multiset.coe_eq_coe.2 e3

theorem load_deallocate_self {α : Type} (m : Store α) (p : Nat) :
    load (deallocate m (some p)) (some p) = .error .undefinedAccess := by
  simp only [load, deallocate]
  by_cases hp : p < m.length
  · rw [List.getElem?_set_self hp]
  · rw [List.getElem?_eq_none (by simpa using hp)]

/-- After `grow()` the block the object pointed to before is deallocated (line 63). -/
theorem objGrow_frees_old_block {α : Type} [Movable α] {o o1 : Obj α} {m m1 : Store α}
    {p : Nat} (hg : Obj.grow o m = .ok (o1, m1)) (hp : o.data = some p) :
    load m1 (some p) = .error .undefinedAccess := by
  unfold Obj.grow at hg
  simp only [] at hg
  split at hg
  · cases hg
  · split at hg
    · cases hg
    · split at hg
      · cases hg
      · have e := congrArg Prod.snd (Except.ok.inj hg)
        simp only [] at e
        rw [← e, hp]
        exact load_deallocate_self _ p

/-- When line 151 reads the value `v` through the reference, `push(const T&)` is `push` of
`v`. -/
theorem objPushRef_of_read {α : Type} [Movable α] {value : SlotRef} {o : Obj α}
    {m : Store α} {v : α} (o1 : Obj α) (m1 : Store α)
    (hg : (if o.size_ = o.capacity_ then Obj.grow o m else .ok (o, m)) = .ok (o1, m1))
    (hr : value.read m1 = .ok v) : Obj.pushRef value o m = Obj.push v o m := by
  unfold Obj.pushRef Obj.push
  rw [hg]
  simp only []
  rw [hr]

/-- The call `push(value)` inserts exactly the value of its argument when no growth takes
place or the argument does not live in the buffer of the container: on a valid object, for
any comparator, it returns, the size is one more, and the live elements afterwards are those
before plus one occurrence of the value the reference had at the call. -/
theorem objPushRef_inserts_exactly {α : Type} [Movable α] {value : SlotRef} {o : Obj α}
    {m : Store α} {h : Heap α} {v : α} (hv : o.view m = .ok h) (hw : h.WF)
    (hr : value.read m = .ok v) (hsafe : o.size_ < o.capacity_ ∨ value.block ≠ o.data) :
    ∃ (o1 : Obj α) (m1 : Store α) (h1 : Heap α), Obj.pushRef value o m = .ok (o1, m1) ∧
      o1.view m1 = .ok h1 ∧ h1.size_ = h.size_ + 1 ∧
      (↑h1.live : Multiset α) = v ::ₘ (↑h.live : Multiset α) := by
  obtain ⟨o1, m1, h1, p1, p2, p3, _, _, _⟩ := objPush_sim hv hw v
  obtain ⟨h2, q1, q2, q3⟩ := push_adds_one_occurrence hw v
  rw [p2] at q1
  cases q1
  refine ⟨o1, m1, h1, ?_, p3, q2, q3⟩
  rw [← p1]
  obtain ⟨hl, e1, e2, e3⟩ := Obj.view_data hv
  by_cases hfull : o.size_ = o.capacity_
  · obtain ⟨g, hg, _⟩ := grow_wf_spec hw
    obtain ⟨o2, m2, s1, _, s3, _⟩ := objGrow_sim hv hg
    refine objPushRef_of_read o2 m2 (by rw [if_pos hfull]; exact s1) ?_
    have hne : value.block ≠ o.data := by
      rcases hsafe with c | c
      · omega
      · exact c
    unfold SlotRef.read at hr ⊢
    split at hr
    · cases hr
    · rename_i buf hb
      rw [load_frame s3 hb (Or.inl (fun c => hne c.symm))]
      exact hr
  · exact objPushRef_of_read o m (by rw [if_neg hfull]) hr

/-- On a full container, `push(value)` for `value` bound to a slot of the buffer of the
container itself reads the argument after `grow()` has deallocated that buffer: the read at
line 151 is undefined behaviour and no element of the value the argument had is inserted. -/
theorem objPushRef_own_slot_full {α : Type} [Movable α] {o : Obj α} {m : Store α}
    {h : Heap α} (hv : o.view m = .ok h) (hw : h.WF) (hfull : o.size_ = o.capacity_)
    {p : Nat} (hp : o.data = some p) (i : Nat) :
    Obj.pushRef ⟨o.data, i⟩ o m = .error .undefinedAccess := by
  obtain ⟨g, hg, _⟩ := grow_wf_spec hw
  obtain ⟨o2, m2, s1, _, _, _⟩ := objGrow_sim hv hg
  have hfree := objGrow_frees_old_block s1 hp
  unfold Obj.pushRef
  rw [if_pos hfull, s1]
  simp only [SlotRef.read]
  rw [hp, hfree]

/-- C16 (the code does not do this for every argument): the statement `h.push(h.top())` on a
full container.  A default-constructed `Heap<int>` after `push(20)`, `push(7)`, `push(10)`,
`push(5)` has size 4 and capacity 4, and `top()` returns a reference to slot 0 of its buffer,
of value 20.  `push(const T& value)` calls `grow()`, which deallocates that buffer, so the
read of `value` at line 151 is a read of freed storage: the call does not insert one
occurrence of 20, as `push` of a live argument of value 20 does. -/
theorem push_of_own_top_reads_freed_slot :
    pushAll [20, 7, 10, 5] (Heap.new 0 lessInt) = some fullHeap ∧
    fullObj.1.view fullObj.2 = .ok fullHeap ∧ fullHeap.WF ∧
    fullHeap.size_ = fullHeap.capacity_ ∧ fullHeap.live = [20, 7, 10, 5] ∧
    fullObj.1.topRef = .ok ⟨some 0, 0⟩ ∧
    SlotRef.read ⟨some 0, 0⟩ fullObj.2 = .ok (20 : Int) ∧
    (∃ (o1 : Obj Int) (m1 : Store Int), Obj.grow fullObj.1 fullObj.2 = .ok (o1, m1) ∧
      m1[0]? = some none ∧
      SlotRef.read ⟨some 0, 0⟩ m1 = (.error .undefinedAccess : Except Fault Int)) ∧
    Obj.pushRef ⟨some 0, 0⟩ fullObj.1 fullObj.2 = .error .undefinedAccess ∧
    (∃ h1 : Heap Int, push 20 fullHeap = .returned () h1 ∧ h1.live = [20, 20, 10, 5, 7] ∧
      (↑h1.live : Multiset Int) = 20 ::ₘ (↑fullHeap.live : Multiset Int)) :=
  ⟨rfl, rfl, Heap.wf_of_decomp fullHeap [20, 7, 10, 5] [] rfl rfl rfl, rfl, rfl, rfl, rfl,
    ⟨_, _, rfl, rfl, rfl⟩, rfl, ⟨_, rfl, rfl, by decide⟩⟩

/-! ## Termination of the sift loops -/

theorem heapifyUpCount_spec {α : Type} [Movable α] (comp : α → α → Bool)
    (rest : List (Option α)) :
    ∀ (fuel idx : Nat) (l : List α), idx < fuel → idx < l.length →
      ∃ (n : Nat) (l1 : List α),
        heapifyUpCount comp fuel idx (l.map some ++ rest) = .ok (n, l1.map some ++ rest) ∧
        heapifyUpLoop comp fuel idx (l.map some ++ rest) = .ok (l1.map some ++ rest) ∧
        n ≤ Nat.log 2 (idx + 1) := by
  intro fuel
  induction fuel with
  | zero => intro idx l h; omega
  | succ fuel ih =>
    intro idx l hf hi
    rw [heapifyUpCount, heapifyUpLoop]
    by_cases h0 : idx > 0
    · obtain ⟨p, hp⟩ : ∃ p, l[(idx - 1) / 2]? = some p :=
        ⟨_, List.getElem?_eq_getElem (by omega)⟩
      obtain ⟨c, hcv⟩ : ∃ c, l[idx]? = some c := ⟨_, List.getElem?_eq_getElem hi⟩
      simp only [h0, if_true, rd_on_live hp, rd_on_live hcv]
      cases hcmp : comp p c with
      | false => exact ⟨0, l, by simp, by simp, Nat.zero_le _⟩
      | true =>
        simp only [if_true, swapSlots_on_live (by omega : (idx - 1) / 2 ≠ idx) hp hcv]
        obtain ⟨n, l1, e1, e2, e3⟩ :=
          ih ((idx - 1) / 2) ((l.set ((idx - 1) / 2) c).set idx p) (by omega)
            (by simp only [List.length_set]; omega)
        refine ⟨n + 1, l1, by rw [e1], e2, ?_⟩
        have hlog : Nat.log 2 (idx + 1) = Nat.log 2 ((idx + 1) / 2) + 1 :=
          Nat.log_of_one_lt_of_le (by omega) (by omega)
        have hpar : (idx + 1) / 2 = (idx - 1) / 2 + 1 := by omega
        rw [hlog, hpar]
        omega
    · exact ⟨0, l, by simp [h0], by simp [h0], Nat.zero_le _⟩

theorem heapifyDown_total {α : Type} [Movable α] (comp : α → α → Bool) (l : List α)
    (rest : List (Option α)) (idx : Nat) :
    ∃ d, heapifyDown comp l.length idx (l.map some ++ rest) = .ok d := by
  unfold heapifyDown
  by_cases hi : idx < l.length
  · obtain ⟨l1, e, _⟩ :=
      heapifyDownLoop_spec comp rest l.length (l.length + 1) idx l rfl hi (by omega)
    exact ⟨_, e⟩
  · refine ⟨l.map some ++ rest, ?_⟩
    rw [heapifyDownLoop]
    simp only [pickLarger_of_ge comp _ (show ¬ idx * 2 + 1 < l.length by omega),
      pickLarger_of_ge comp _ (show ¬ idx * 2 + 2 < l.length by omega), ne_eq,
      not_true_eq_false, if_false]

/-- C18: the sift loops terminate for every comparator.  On a well-formed state and for any
`comp`, `heapifyUp` from a live index `idx` returns after at most `floor(log2(idx + 1))`
swaps, `heapifyDown` from any index returns, and so `push` returns and `pop` and `popTop`
return or throw `std::out_of_range`: none of them runs out of fuel. -/
theorem sift_loops_terminate {α : Type} [Movable α] (h : Heap α) (v : α) (idx : Nat)
    (hw : h.WF) :
    (h.size_ ≤ idx ∨ ∃ (n : Nat) (d : List (Option α)),
      heapifyUpCount h.comp (idx + 1) idx h.data = .ok (n, d) ∧
      heapifyUp h.comp idx h.data = .ok d ∧ n ≤ Nat.log 2 (idx + 1)) ∧
    (∃ d : List (Option α), heapifyDown h.comp h.size_ idx h.data = .ok d) ∧
    (∃ h1 : Heap α, push v h = .returned () h1) ∧
    (pop h = .threw .outOfRange h ∨ ∃ h1 : Heap α, pop h = .returned () h1) ∧
    (popTop h = .threw .outOfRange h ∨
      ∃ (t : α) (h1 : Heap α), popTop h = .returned t h1) := by
  obtain ⟨l, rest, hd, hl, _⟩ := hw.decomp
  refine ⟨?_, ?_, ?_, ?_, ?_⟩
  · by_cases hi : h.size_ ≤ idx
    · exact Or.inl hi
    · obtain ⟨n, l1, e1, e2, e3⟩ :=
        heapifyUpCount_spec h.comp rest (idx + 1) idx l (by omega) (by omega)
      refine Or.inr ⟨n, l1.map some ++ rest, ?_, ?_, e3⟩
      · rw [hd]; exact e1
      · unfold heapifyUp
        rw [hd]; exact e2
  · rw [hd, ← hl]
    exact heapifyDown_total h.comp l rest idx
  · obtain ⟨h1, e, _⟩ := push_spec hw v
    exact ⟨h1, e⟩
  · by_cases hz : h.size_ = 0
    · refine Or.inl ?_
      unfold pop
      rw [if_pos hz]
    · obtain ⟨h1, _, e, _⟩ := pop_spec hw (by omega)
      exact Or.inr ⟨h1, e⟩
  · by_cases hz : h.size_ = 0
    · refine Or.inl ?_
      unfold popTop
      rw [if_pos hz]
    · obtain ⟨h1, t, e, _⟩ := popTop_spec hw (by omega)
      exact Or.inr ⟨t, h1, e⟩

theorem sift_loops_terminate_witness :
    ({ sampleHeap with comp := alwaysTrue } : Heap Int).WF ∧
    ((({ sampleHeap with comp := alwaysTrue } : Heap Int).size_ ≤ 2 ∨
      ∃ (n : Nat) (d : List (Option Int)),
        heapifyUpCount ({ sampleHeap with comp := alwaysTrue } : Heap Int).comp (2 + 1) 2
          ({ sampleHeap with comp := alwaysTrue } : Heap Int).data = .ok (n, d) ∧
        heapifyUp ({ sampleHeap with comp := alwaysTrue } : Heap Int).comp 2
          ({ sampleHeap with comp := alwaysTrue } : Heap Int).data = .ok d ∧
        n ≤ Nat.log 2 (2 + 1)) ∧
    (∃ d : List (Option Int),
      heapifyDown ({ sampleHeap with comp := alwaysTrue } : Heap Int).comp
        ({ sampleHeap with comp := alwaysTrue } : Heap Int).size_ 2
        ({ sampleHeap with comp := alwaysTrue } : Heap Int).data = .ok d) ∧
    (∃ h1 : Heap Int, push 7 { sampleHeap with comp := alwaysTrue } = .returned () h1) ∧
    (pop { sampleHeap with comp := alwaysTrue } =
        .threw .outOfRange { sampleHeap with comp := alwaysTrue } ∨
      ∃ h1 : Heap Int, pop { sampleHeap with comp := alwaysTrue } = .returned () h1) ∧
    (popTop { sampleHeap with comp := alwaysTrue } =
        .threw .outOfRange { sampleHeap with comp := alwaysTrue } ∨
      ∃ (t : Int) (h1 : Heap Int),
        popTop { sampleHeap with comp := alwaysTrue } = .returned t h1)) :=
  ⟨Heap.wf_of_decomp _ [20, 5, 10] [none] rfl rfl rfl,
    sift_loops_terminate { sampleHeap with comp := alwaysTrue } 7 2
      (Heap.wf_of_decomp _ [20, 5, 10] [none] rfl rfl rfl)⟩

/-! ## The strict weak ordering is needed -/

/-- C19: the strict-weak-ordering precondition is necessary.  The comparator `gapLess`
(`a + 1 < b`) is irreflexive and transitive but not a strict weak ordering, and after
`push(1)`, `push(2)`, `push(0)`, `push(3)`, `push(4)` on a default-constructed heap the live
index 3 holds 3 under its parent 1, with `comp(1, 3)` true: the heap invariant is
violated. -/
theorem strict_weak_order_needed :
    (∀ a, gapLess a a = false) ∧
    (∀ a b c, gapLess a b = true → gapLess b c = true → gapLess a c = true) ∧
    ¬ StrictWeakOrder gapLess ∧
    ∃ h : Heap Int, pushAll [1, 2, 0, 3, 4] (Heap.new 0 gapLess) = some h ∧
      h.size_ = 5 ∧ h.data[(3 - 1) / 2]? = some (some 1) ∧ h.data[3]? = some (some 3) ∧
      h.comp 1 3 = true ∧ ¬ h.Inv := by
  refine ⟨?_, ?_, ?_, ?_⟩
  · intro a
    simp [gapLess]
  · intro a b c h1 h2
    simp only [gapLess, decide_eq_true_eq] at *
    omega
  · intro hc
    have := hc.incomp_trans 1 2 3 (by decide) (by decide) (by decide) (by decide)
    exact absurd this (by decide)
  · refine ⟨{ data := [some 4, some 1, some 0, some 3, some 2, none, none, none], size_ := 5,
              capacity_ := 8, comp := gapLess }, rfl, rfl, rfl, rfl, by decide, ?_⟩
    intro hi
    have := hi 3 (by decide) (by decide) 1 3 rfl rfl
    exact absurd this (by decide)

/-! ## Bounds -/

theorem applyOp_wf {α : Type} [Movable α] {h h1 : Heap α} (hw : h.WF) (op : Op α)
    (e : applyOp h op = some h1) : h1.WF := by
  obtain ⟨h2, e2, w2, _⟩ := applyOp_spec hw op
  rw [e2] at e
  rw [← Option.some.inj e]
  exact w2

theorem reachable_wf {α : Type} [Movable α] {h : Heap α} (hr : Reachable h) : h.WF := by
  induction hr with
  | new cap c => exact Heap.new_wf cap c
  | call op _ e ih => exact applyOp_wf ih op e
  | copyCtor _ e ih =>
    obtain ⟨c, e1, w, _⟩ := copyCtor_spec ih
    rw [e1] at e
    rw [← Except.ok.inj e]
    exact w
  | copyAssign _ _ e _ ih2 =>
    obtain ⟨c, e1, w, _⟩ := copyCtor_spec ih2
    unfold Heap.copyAssign at e
    rw [e1] at e
    simp only [] at e
    split at e
    · cases e
    · rw [← Except.ok.inj e]
      exact w
  | moveCtorTarget _ ih => exact ih
  | moveCtorSource _ _ => exact Heap.released_wf _
  | moveAssignTarget _ _ e _ ih2 =>
    unfold Heap.moveAssign at e
    split at e
    · cases e
    · rw [← Except.ok.inj e]
      exact ih2
  | moveAssignSource _ _ e _ _ =>
    unfold Heap.moveAssign at e
    split at e
    · cases e
    · rw [← Except.ok.inj e]
      exact Heap.released_wf _

/-- The state in which `push` constructs the new element has a raw slot at index `size_`. -/
theorem push_slot_in_bounds {α : Type} [Movable α] {h : Heap α} (hw : h.WF) :
    ∃ h0 : Heap α, (if h.size_ = h.capacity_ then grow h else .ok h) = .ok h0 ∧
      h0.size_ < h0.capacity_ ∧ h0.data.length = h0.capacity_ := by
  by_cases hfull : h.size_ = h.capacity_
  · obtain ⟨g, e, w, s, _, c, _, _⟩ := grow_wf_spec hw
    refine ⟨g, by rw [if_pos hfull]; exact e, ?_, w.1⟩
    rw [s, c]
    split <;> omega
  · refine ⟨h, by rw [if_neg hfull], ?_, hw.1⟩
    have := hw.2.1
    omega

/-- C17: the bounds invariant.  In every state reachable from a constructed heap (any initial
capacity, also a moved-from heap) by `push`, `pop`, `popTop`, copy and move operations,
`size_ ≤ capacity_` and the buffer has `capacity_` slots; the slot that `push` writes, index
`size_` after the optional `grow()`, lies below the capacity; and `push`, `pop` and `popTop`
never read or write out of bounds in `heapifyUp` and `heapifyDown` or elsewhere: every call
ends without a fault. -/
theorem bounds_invariant {α : Type} [Movable α] (h : Heap α) (v : α) (op : Op α)
    (hr : Reachable h) :
    h.size_ ≤ h.capacity_ ∧ h.data.length = h.capacity_ ∧
    (∃ h0 : Heap α, (if h.size_ = h.capacity_ then grow h else .ok h) = .ok h0 ∧
      h0.size_ < h0.capacity_ ∧ h0.data.length = h0.capacity_) ∧
    (∃ h1 : Heap α, push v h = .returned () h1 ∧ h1.size_ ≤ h1.capacity_) ∧
    (pop h = .threw .outOfRange h ∨ ∃ h1 : Heap α, pop h = .returned () h1) ∧
    (popTop h = .threw .outOfRange h ∨
      ∃ (t : α) (h1 : Heap α), popTop h = .returned t h1) ∧
    (∃ h1 : Heap α, applyOp h op = some h1 ∧ h1.size_ ≤ h1.capacity_) := by
  have hw := reachable_wf hr
  refine ⟨hw.2.1, hw.1, push_slot_in_bounds hw, ?_, ?_, ?_, ?_⟩
  · obtain ⟨h1, e, w, _⟩ := push_spec hw v
    exact ⟨h1, e, w.2.1⟩
  · by_cases hz : h.size_ = 0
    · refine Or.inl ?_
      unfold pop
      rw [if_pos hz]
    · obtain ⟨h1, _, e, _⟩ := pop_spec hw (by omega)
      exact Or.inr ⟨h1, e⟩
  · by_cases hz : h.size_ = 0
    · refine Or.inl ?_
      unfold popTop
      rw [if_pos hz]
    · obtain ⟨h1, t, e, _⟩ := popTop_spec hw (by omega)
      exact Or.inr ⟨t, h1, e⟩
  · obtain ⟨h1, e, w, _⟩ := applyOp_spec hw op
    exact ⟨h1, e, w.2.1⟩

theorem bounds_invariant_witness :
    Reachable (Heap.moveCtor sampleHeap).2 ∧
    ((Heap.moveCtor sampleHeap).2.size_ ≤ (Heap.moveCtor sampleHeap).2.capacity_ ∧
    (Heap.moveCtor sampleHeap).2.data.length = (Heap.moveCtor sampleHeap).2.capacity_ ∧
    (∃ h0 : Heap Int,
      (if (Heap.moveCtor sampleHeap).2.size_ = (Heap.moveCtor sampleHeap).2.capacity_ then
        grow (Heap.moveCtor sampleHeap).2 else .ok (Heap.moveCtor sampleHeap).2) = .ok h0 ∧
      h0.size_ < h0.capacity_ ∧ h0.data.length = h0.capacity_) ∧
    (∃ h1 : Heap Int, push 7 (Heap.moveCtor sampleHeap).2 = .returned () h1 ∧
      h1.size_ ≤ h1.capacity_) ∧
    (pop (Heap.moveCtor sampleHeap).2 = .threw .outOfRange (Heap.moveCtor sampleHeap).2 ∨
      ∃ h1 : Heap Int, pop (Heap.moveCtor sampleHeap).2 = .returned () h1) ∧
    (popTop (Heap.moveCtor sampleHeap).2 = .threw .outOfRange (Heap.moveCtor sampleHeap).2 ∨
      ∃ (t : Int) (h1 : Heap Int), popTop (Heap.moveCtor sampleHeap).2 = .returned t h1) ∧
    (∃ h1 : Heap Int, applyOp (Heap.moveCtor sampleHeap).2 (Op.push 3) = some h1 ∧
      h1.size_ ≤ h1.capacity_)) :=
  ⟨Reachable.moveCtorSource
      (Reachable.call (Op.push 20) (Reachable.call (Op.push 5)
        (Reachable.call (Op.push 10) (Reachable.new 0 lessInt) rfl) rfl) rfl),
    bounds_invariant (Heap.moveCtor sampleHeap).2 7 (Op.push 3)
      (Reachable.moveCtorSource
        (Reachable.call (Op.push 20) (Reachable.call (Op.push 5)
          (Reachable.call (Op.push 10) (Reachable.new 0 lessInt) rfl) rfl) rfl))⟩

/-! ## Growth and insertion with constructors that throw -/

theorem getElem?_movedUpTo {α : Type} [Movable α] (k : Nat) (l : List α) (j : Nat) :
    (movedUpTo k l)[j]? = if j < k then l[j]?.map Movable.movedFrom else l[j]? := by
  unfold movedUpTo
  rw [List.getElem?_append]
  simp only [List.length_map, List.length_take, List.getElem?_map, List.getElem?_take,
    List.getElem?_drop]
  by_cases hjk : j < k
  · by_cases hjl : j < l.length
    · rw [if_pos (by omega), if_pos hjk, if_pos hjk]
    · rw [if_neg (by omega), if_pos hjk, List.getElem?_eq_none (by omega),
        List.getElem?_eq_none (by omega)]
      rfl
  · rw [if_neg (by omega), if_neg hjk]
    by_cases hkl : k ≤ l.length
    · congr 1
      omega
    · rw [List.getElem?_eq_none (by omega), List.getElem?_eq_none (by omega)]

theorem length_movedUpTo {α : Type} [Movable α] (k : Nat) (l : List α) :
    (movedUpTo k l).length = l.length := by
  unfold movedUpTo
  simp only [List.length_append, List.length_map, List.length_take, List.length_drop]
  omega

theorem movedUpTo_set {α : Type} [Movable α] {k : Nat} {l : List α} {x : α}
    (hx : l[k]? = some x) :
    (movedUpTo k l).set k (Movable.movedFrom x) = movedUpTo (k + 1) l := by
  have hk : k < l.length := (List.getElem?_eq_some.1 hx).1
  apply List.ext_getElem?
  intro j
  rw [List.getElem?_set, getElem?_movedUpTo, getElem?_movedUpTo, length_movedUpTo]
  by_cases hjk : k = j
  · subst hjk
    rw [if_pos rfl, if_pos hk, if_pos (by omega), hx]
    rfl
  · rw [if_neg hjk]
    by_cases hlt : j < k
    · rw [if_pos hlt, if_pos (by omega)]
    · rw [if_neg hlt, if_neg (by omega)]

theorem movedUpTo_zero {α : Type} [Movable α] (l : List α) : movedUpTo 0 l = l := by
  simp [movedUpTo]

theorem relocate_done {α : Type} [Movable α] (throws : α → Bool) (l : List α)
    (rest : List (Option α)) (m : Nat) :
    ∀ k, k ≤ l.length → k ≤ m → (∀ j x, j < k → l[j]? = some x → throws x = false) →
      relocate throws k (l.map some ++ rest) (List.replicate m none) =
        .ok (.done ((movedUpTo k l).map some ++ rest)
          ((l.take k).map some ++ List.replicate (m - k) none))
  | 0, _, _, _ => by simp [relocate, movedUpTo_zero]
  | k + 1, hk, hm, hno => by
    have hx : l[k]? = some l[k] := List.getElem?_eq_getElem (by omega)
    have hsrc : (movedUpTo k l)[k]? = some l[k] := by
      rw [getElem?_movedUpTo, if_neg (by omega)]
      exact hx
    rw [relocate, relocate_done throws l rest m k (by omega) (by omega)
      (fun j x hj => hno j x (by omega))]
    simp only []
    rw [rd_on_live hsrc]
    simp only []
    rw [hno k l[k] (by omega) hx]
    simp only [Bool.false_eq_true, if_false]
    unfold moveFrom
    rw [rd_on_live hsrc]
    simp only []
    unfold construct
    have hlen : ((l.take k).map some).length = k := by simp; omega
    rw [if_pos (by simp; omega)]
    rw [List.set_append_right _ _ (by omega), hlen, Nat.sub_self]
    have e : m - k = (m - (k + 1)) + 1 := by omega
    rw [e, List.replicate_succ, List.set_cons_zero, List.take_succ, hx,
      List.set_append_left _ _ (by
        simp only [List.length_map, length_movedUpTo]
        omega),
      ← List.map_set, movedUpTo_set hx]
    simp only [Option.toList, List.map_append, List.map_cons, List.map_nil, List.append_assoc,
      List.singleton_append]

theorem relocate_threw {α : Type} [Movable α] (throws : α → Bool) (l : List α)
    (rest : List (Option α)) (m k : Nat) (x : α) (hk : k < l.length) (hm : k ≤ m)
    (hno : ∀ j y, j < k → l[j]? = some y → throws y = false) (hx : l[k]? = some x)
    (hthrow : throws x = true) :
    ∀ n, k < n → n ≤ l.length →
      relocate throws n (l.map some ++ rest) (List.replicate m none) =
        .ok (.threw k ((movedUpTo k l).map some ++ rest)
          ((l.take k).map some ++ List.replicate (m - k) none))
  | 0, h, _ => by omega
  | n + 1, hn, hnl => by
    by_cases hkn : k = n
    · subst hkn
      have hsrc : (movedUpTo k l)[k]? = some x := by
        rw [getElem?_movedUpTo, if_neg (by omega)]
        exact hx
      rw [relocate, relocate_done throws l rest m k (by omega) hm hno]
      simp only []
      rw [rd_on_live hsrc]
      simp only []
      rw [hthrow]
      simp only [if_true]
    · rw [relocate, relocate_threw throws l rest m k x hk hm hno hx hthrow n (by omega)
        (by omega)]

theorem destroyAll_live_ok {α : Type} (l : List α) (rest : List (Option α)) (k : Nat)
    (hk : k ≤ l.length) : ∃ d, destroyAll k (l.map some ++ rest) = .ok d := by
  obtain ⟨d, e, _⟩ := destroyAll_ok k (l.map some ++ rest) (fun i hi => by
    refine ⟨l[i], ?_⟩
    rw [getElem?_on_live (by omega), List.getElem?_eq_getElem (by omega)])
  exact ⟨d, e⟩

/-- The state `grow()` leaves when the move constructor throws first at element `k`: the old
buffer, size and capacity are kept, the elements from `k` on are as before, and the elements
before `k` are left moved from. -/
theorem growThrowing_failure {α : Type} [Movable α] (E : Throwing α) {h : Heap α}
    {l : List α} {rest : List (Option α)} (hd : h.data = l.map some ++ rest)
    (hl : l.length = h.size_) (hle : h.size_ ≤ h.capacity_) (k : Nat) (x : α)
    (hx : l[k]? = some x) (hthrow : E.move x = true)
    (hno : ∀ j y, j < k → l[j]? = some y → E.move y = false) :
    growThrowing E h = .threw .elementFailure
      { h with data := (movedUpTo k l).map some ++ rest } := by
  have hk : k < l.length := (List.getElem?_eq_some.1 hx).1
  have hcap : h.size_ ≤ (if h.capacity_ = 0 then 1 else h.capacity_ * 2) := by
    split <;> omega
  have e := relocate_threw E.move l rest (if h.capacity_ = 0 then 1 else h.capacity_ * 2) k x
    hk (by omega) hno hx hthrow h.size_ (by omega) (by omega)
  obtain ⟨d, e2⟩ := destroyAll_live_ok (l.take k)
    (List.replicate ((if h.capacity_ = 0 then 1 else h.capacity_ * 2) - k) none) k (by
      simp only [List.length_take]
      omega)
  unfold growThrowing
  simp only []
  rw [hd, e]
  simp only []
  rw [e2]

/-- When no move constructor throws for a live element, `grow()` returns as without
exceptions. -/
theorem growThrowing_success {α : Type} [Movable α] (E : Throwing α) {h : Heap α}
    (hw : h.WF) (hno : ∀ x ∈ h.live, E.move x = false) :
    ∃ g : Heap α, growThrowing E h = .returned () g ∧ grow h = .ok g := by
  obtain ⟨l, rest, hd, hl, _⟩ := hw.decomp
  have hlive := Heap.live_eq h l rest hd hl
  have hcap : h.size_ ≤ (if h.capacity_ = 0 then 1 else h.capacity_ * 2) := by
    have := hw.2.1
    split <;> omega
  have e := relocate_done E.move l rest (if h.capacity_ = 0 then 1 else h.capacity_ * 2)
    h.size_ (by omega) hcap (fun j x _ hx => hno x (by rw [hlive]; exact List.getElem?_mem hx))
  obtain ⟨d, e2⟩ := destroyAll_live_ok (movedUpTo h.size_ l) rest h.size_ (by
    rw [length_movedUpTo]
    omega)
  refine ⟨_, ?_, grow_spec hd hl hw.2.1⟩
  unfold growThrowing
  simp only []
  rw [hd, e]
  simp only []
  rw [e2]
  simp only []
  rw [← hl, List.take_length]

/-- With constructors that never throw, `pushThrowing` is `push`. -/
theorem pushThrowing_eq_push {α : Type} [Movable α] (E : Throwing α) {h : Heap α}
    (hw : h.WF) (v : α) (hmove : ∀ x, E.move x = false) (hctor : E.ctor v = false) :
    pushThrowing E v h = push v h := by
  unfold pushThrowing push pushCore
  by_cases hfull : h.size_ = h.capacity_
  · obtain ⟨g, e1, e2⟩ := growThrowing_success E hw (fun x _ => hmove x)
    rw [if_pos hfull, if_pos hfull, e1, e2]
    simp only []
    rw [hctor]
    simp only [Bool.false_eq_true, if_false]
  · rw [if_neg hfull, if_neg hfull]
    simp only []
    rw [hctor]
    simp only [Bool.false_eq_true, if_false]

/-- C13: the basic guarantee on insertion failure.  On a well-formed state, when the
construction of the new element from `v` throws (and `grow()`, if it is called, has relocated
every element without an exception), `push(v)` passes the exception on and leaves a state
with the same `size_`, comparator and live elements at the same indices; its capacity is the
old one when `size_ < capacity_` held, in which case the whole state is unchanged, and 1 or
twice the old one when `size_ == capacity_` held. -/
theorem insertion_failure_basic_guarantee {α : Type} [Movable α] (E : Throwing α)
    (h : Heap α) (v : α) (hw : h.WF) (hctor : E.ctor v = true)
    (hmove : h.size_ = h.capacity_ → ∀ x ∈ h.live, E.move x = false) :
    ∃ h1 : Heap α, pushThrowing E v h = .threw .elementFailure h1 ∧ h1.size_ = h.size_ ∧
      h1.comp = h.comp ∧ h1.live = h.live ∧
      (∀ i, i < h.size_ → h1.data[i]? = h.data[i]?) ∧
      h1.capacity_ = (if h.size_ = h.capacity_ then
        (if h.capacity_ = 0 then 1 else h.capacity_ * 2) else h.capacity_) ∧
      (h.size_ = h.capacity_ ∨ h1 = h) := by
  by_cases hfull : h.size_ = h.capacity_
  · obtain ⟨g, e1, e2⟩ := growThrowing_success E hw (hmove hfull)
    obtain ⟨g1, f1, _, s, c, cap, l, d⟩ := grow_wf_spec hw
    have hg : g1 = g := by
      rw [f1] at e2
      exact Except.ok.inj e2
    subst hg
    refine ⟨g1, ?_, s, c, l, d, ?_, Or.inl hfull⟩
    · unfold pushThrowing
      rw [if_pos hfull, e1]
      simp only []
      rw [hctor]
      simp only [if_true]
    · rw [cap, if_pos hfull]
  · refine ⟨h, ?_, rfl, rfl, rfl, fun _ _ => rfl, by rw [if_neg hfull], Or.inr rfl⟩
    unfold pushThrowing
    rw [if_neg hfull]
    simp only []
    rw [hctor]
    simp only [if_true]

theorem insertion_failure_basic_guarantee_witness :
    tracerHeap.WF ∧ throwsOnSeven.ctor ⟨7⟩ = true ∧
    (tracerHeap.size_ = tracerHeap.capacity_ → ∀ x ∈ tracerHeap.live,
      throwsOnSeven.move x = false) ∧
    ∃ h1 : Heap Tracer,
      pushThrowing throwsOnSeven ⟨7⟩ tracerHeap = .threw .elementFailure h1 ∧
      h1.size_ = tracerHeap.size_ ∧
      h1.comp = tracerHeap.comp ∧ h1.live = tracerHeap.live ∧
      (∀ i, i < tracerHeap.size_ → h1.data[i]? = tracerHeap.data[i]?) ∧
      h1.capacity_ = (if tracerHeap.size_ = tracerHeap.capacity_ then
        (if tracerHeap.capacity_ = 0 then 1 else tracerHeap.capacity_ * 2)
        else tracerHeap.capacity_) ∧
      (tracerHeap.size_ = tracerHeap.capacity_ ∨ h1 = tracerHeap) :=
  ⟨Heap.wf_of_decomp tracerHeap [⟨20⟩, ⟨5⟩, ⟨10⟩] [] rfl rfl rfl, rfl, fun _ _ _ => rfl,
    insertion_failure_basic_guarantee throwsOnSeven tracerHeap ⟨7⟩
      (Heap.wf_of_decomp tracerHeap [⟨20⟩, ⟨5⟩, ⟨10⟩] [] rfl rfl rfl) rfl (fun _ _ _ => rfl)⟩

/-- C12 (the code does not give this guarantee): a full `Heap` of three elements 20, 5, 10 of
an element type that moves like `Tracer` and whose move constructor throws for the source of
value 5.  `grow()` relocates element 0, fails at element 1 and rethrows with size 3 and
capacity 3, but the element at index 0 is left moved from, with value -1: the live elements
are not as before `grow()` began. -/
theorem growth_failure_leaves_moved_sources :
    tracerHeap.WF ∧ tracerHeap.live = [⟨20⟩, ⟨5⟩, ⟨10⟩] ∧
    throwsAtFive.move ⟨5⟩ = true ∧
    growThrowing throwsAtFive tracerHeap =
      .threw .elementFailure { tracerHeap with data := [some ⟨-1⟩, some ⟨5⟩, some ⟨10⟩] } ∧
    ({ tracerHeap with data := [some ⟨-1⟩, some ⟨5⟩, some ⟨10⟩] } : Heap Tracer).live =
      [⟨-1⟩, ⟨5⟩, ⟨10⟩] ∧
    ({ tracerHeap with data := [some ⟨-1⟩, some ⟨5⟩, some ⟨10⟩] } : Heap Tracer).live ≠
      tracerHeap.live :=
  ⟨Heap.wf_of_decomp tracerHeap [⟨20⟩, ⟨5⟩, ⟨10⟩] [] rfl rfl rfl, rfl, rfl, rfl, rfl,
    by decide⟩

/-- What `grow()` guarantees when the move constructor throws first at the live element `k`:
the exception is passed on, size, capacity and comparator are kept, the live elements from
`k` on are as before, and the live elements before `k` are left moved from. -/
theorem growThrowing_failure_state {α : Type} [Movable α] (E : Throwing α) {h : Heap α}
    (hw : h.WF) (k : Nat) (x : α) (hx : h.live[k]? = some x) (hthrow : E.move x = true)
    (hno : ∀ j y, j < k → h.live[j]? = some y → E.move y = false) :
    ∃ h1 : Heap α, growThrowing E h = .threw .elementFailure h1 ∧ h1.size_ = h.size_ ∧
      h1.capacity_ = h.capacity_ ∧ h1.comp = h.comp ∧ h1.live = movedUpTo k h.live ∧
      (∀ j, k ≤ j → h1.data[j]? = h.data[j]?) := by
  obtain ⟨l, rest, hd, hl, _⟩ := hw.decomp
  have hlive := Heap.live_eq h l rest hd hl
  rw [hlive] at hx hno
  refine ⟨_, growThrowing_failure E hd hl hw.2.1 k x hx hthrow hno, rfl, rfl, rfl, ?_, ?_⟩
  · rw [hlive]
    exact Heap.live_eq _ (movedUpTo k l) rest rfl (by
      rw [length_movedUpTo]
      exact hl)
  · intro j hj
    simp only []
    rw [hd]
    by_cases hjl : j < l.length
    · rw [getElem?_on_live (by rw [length_movedUpTo]; exact hjl), getElem?_on_live hjl,
        getElem?_movedUpTo, if_neg (by omega)]
    · rw [List.getElem?_append_right (by simp [length_movedUpTo]; omega),
        List.getElem?_append_right (by simp; omega)]
      simp [length_movedUpTo]

end CppHeap
